import Mathlib

/-!
# Verification of the depict graph-drawing backend

A shallow embedding of `src/graph_drawing.rs`: the constraint algebra and
CSC assembly of the `osqp` module, the branch-and-bound ILP driver, the
`layout` placement/crossing-minimization code, and the `geometry`
position solver, together with theorems settling the specification claims.

Modelling conventions:
* `f64` values on these code paths are small exact decimals; they are
  modelled as `ℚ`, with `f64::INFINITY` as a distinct case of `FVal`.
  `f64::round` (round half away from zero) is `rustRound`.
* `HashMap`/`BTreeMap` are modelled as association lists; `BTreeMap`
  iteration order (ascending keys) is obtained with ordered insertion
  (`binsert`) where the code relies on it.
* External solver invocations (OSQP relaxations, the QP call) are
  modelled as oracles passed in as function arguments; unbounded loops
  take fuel and return `none` on exhaustion.
* Rust panics (indexing, `unwrap`, `assert!`) are the `Outcome.panicked`
  case, distinct from `Err` returns (`Outcome.failed`).
-/

/-- Errors of the `LayoutError` enum that occur on the embedded paths. -/
inductive LError where
  | osqpError (msg : String)
  | osqpSetupError
  deriving DecidableEq, Repr

/-- Result of running a piece of Rust code: normal return, `Err` return, or panic. -/
inductive Outcome (α : Type) where
  | ok (val : α)
  | failed (e : LError)
  | panicked (msg : String)
  deriving DecidableEq, Repr

def Outcome.bind {α β : Type} : Outcome α → (α → Outcome β) → Outcome β
  | .ok a, f => f a
  | .failed e, _ => .failed e
  | .panicked m, _ => .panicked m

instance : Monad Outcome where
  pure := Outcome.ok
  bind := Outcome.bind

instance {ε α : Type} [DecidableEq ε] [DecidableEq α] : DecidableEq (Except ε α)
  | .ok a, .ok b =>
    decidable_of_iff (a = b) ⟨fun h => h ▸ rfl, fun h => by injection h⟩
  | .ok _, .error _ => isFalse (by intro h; cases h)
  | .error _, .ok _ => isFalse (by intro h; cases h)
  | .error e, .error f =>
    decidable_of_iff (e = f) ⟨fun h => h ▸ rfl, fun h => by injection h⟩

/-- An `f64` that may be `f64::INFINITY`. -/
inductive FVal where
  | fin (q : ℚ)
  | inf
  deriving DecidableEq, Repr

/-- `q >= f` on `f64`s (used for `bound >= best_alternative`). -/
def FVal.geQ (q : ℚ) : FVal → Bool
  | .fin b => decide (b ≤ q)
  | .inf => false

/-- `asum > u + 1/10` where `u` may be infinite. -/
def FVal.roundedAbove (asum : ℚ) : FVal → Bool
  | .fin u => decide (u + 1/10 < asum)
  | .inf => false

/-- `b < f` on `f64`s (used for `bound < global_bound`). -/
def FVal.gtQ (b : ℚ) : FVal → Bool
  | .fin g => decide (b < g)
  | .inf => true

/-- Floor of a rational, computed by floor division of numerator by denominator
(kernel-reducible, unlike the `FloorRing` instance). -/
def qfloor (q : ℚ) : ℤ := Int.fdiv q.num q.den

/-- Rust `f64::round`: round half away from zero. -/
def rustRound (q : ℚ) : ℤ :=
  if 0 ≤ q then qfloor (q + 1/2) else -qfloor (-q + 1/2)

/-- Rust `usize::MAX`. -/
def usizeMax : ℕ := 2 ^ 64 - 1

/-- Rust `x.round() as usize`: a saturating cast of the rounded value. -/
def roundUsize (q : ℚ) : ℕ := min (rustRound q).toNat usizeMax

/-- Association-list lookup (model of `HashMap`/`BTreeMap` lookup). -/
def alook {α β : Type} [DecidableEq α] : List (α × β) → α → Option β
  | [], _ => none
  | (k, v) :: t, k2 => if k = k2 then some v else alook t k2

/-- `map.entry(k).or_insert_with(d)` followed by an update `f` of the value. -/
def updd {α β : Type} [DecidableEq α] (l : List (α × β)) (k : α) (d : β) (f : β → β) :
    List (α × β) :=
  match l with
  | [] => [(k, f d)]
  | (k2, v) :: t => if k2 = k then (k2, f v) :: t else (k2, v) :: updd t k d f

/-- Ordered insert-or-replace, modelling `BTreeMap::insert` (entries kept in key order). -/
def binsert {β : Type} (l : List (ℕ × β)) (k : ℕ) (v : β) : List (ℕ × β) :=
  match l with
  | [] => [(k, v)]
  | (k2, v2) :: t =>
    if k < k2 then (k, v) :: (k2, v2) :: t
    else if k = k2 then (k, v) :: t
    else (k2, v2) :: binsert t k v

/-- `HashSet::insert` modelled on a duplicate-free list. -/
def setInsert {α : Type} [DecidableEq α] (l : List α) (x : α) : List α :=
  if x ∈ l then l else l ++ [x]

/-- Insert into a list sorted by a three-way comparator. -/
def insertBy {α : Type} (cmp : α → α → Ordering) (x : α) : List α → List α
  | [] => [x]
  | y :: t => if cmp x y = Ordering.gt then y :: insertBy cmp x t else x :: y :: t

/-- Insertion sort by a three-way comparator (model of `sort_unstable_by` /
`sort_by_key`; Rust guarantees the output is a permutation of the input). -/
def insertionSortBy {α : Type} (cmp : α → α → Ordering) : List α → List α
  | [] => []
  | x :: t => insertBy cmp x (insertionSortBy cmp t)

theorem insertBy_perm {α : Type} (cmp : α → α → Ordering) (x : α) (l : List α) :
    (insertBy cmp x l).Perm (x :: l) := by
  induction l with
  | nil => simp [insertBy]
  | cons y t ih =>
    simp only [insertBy]
    by_cases h : cmp x y = Ordering.gt
    · simp only [h, if_pos rfl]
      exact ((ih.cons y).trans (List.Perm.swap x y t))
    · simp [h]

theorem insertionSortBy_perm {α : Type} (cmp : α → α → Ordering) (l : List α) :
    (insertionSortBy cmp l).Perm l := by
  induction l with
  | nil => simp [insertionSortBy]
  | cons x t ih =>
    exact (insertBy_perm cmp x (insertionSortBy cmp t)).trans (ih.cons x)

/-! ## The `osqp` module: variables, monomials, constraints -/

/-- `osqp::Var`: a registered solution variable with its dense column index. -/
structure VarS (S : Type) where
  index : ℕ
  sol : S
  deriving DecidableEq, Repr

/-- `osqp::Monomial`: a coefficient times a variable. -/
structure Monomial (S : Type) where
  var : VarS S
  coeff : ℚ
  deriving DecidableEq, Repr

/-- `Neg for Monomial`. -/
def Monomial.neg {S : Type} (m : Monomial S) : Monomial S := { m with coeff := -m.coeff }

/-- `Mul<Monomial> for f64`. -/
def Monomial.scale {S : Type} (c : ℚ) (m : Monomial S) : Monomial S :=
  { m with coeff := c * m.coeff }

/-- `osqp::Vars`: the dense registry assigning column indices on first use. -/
structure Vars (S : Type) where
  vars : List (S × VarS S)
  deriving DecidableEq, Repr

def Vars.len {S : Type} (v : Vars S) : ℕ := v.vars.length

/-- `Vars::get`: look up or insert with `index = len` at insertion time. -/
def Vars.get {S : Type} [DecidableEq S] (v : Vars S) (ix : S) : Monomial S × Vars S :=
  match alook v.vars ix with
  | some var => (⟨var, 1⟩, v)
  | none => (⟨⟨v.vars.length, ix⟩, 1⟩, ⟨v.vars ++ [(ix, ⟨v.vars.length, ix⟩)]⟩)

/-- One constraint row `L ≤ Σ cᵢ·xᵢ ≤ U`. -/
abbrev RowC (S : Type) := ℚ × List (Monomial S) × FVal

/-- `osqp::Constraints`: an ordered list of rows. -/
structure Constraints (S : Type) where
  constrs : List (RowC S)
  deriving DecidableEq, Repr

def Constraints.push {S : Type} (c : Constraints S) (r : RowC S) : Constraints S :=
  ⟨c.constrs ++ [r]⟩

/-- `Constraints::leq`: push `0 ≤ rhs − lhs`, skipped when `lhs == rhs`. -/
def Constraints.leq {S : Type} [DecidableEq S] (c : Constraints S) (v : Vars S)
    (lhs rhs : S) : Vars S × Constraints S :=
  if lhs = rhs then (v, c)
  else
    let (ml, v1) := v.get lhs
    let (mr, v2) := v1.get rhs
    (v2, c.push (0, [ml.neg, mr], .inf))

/-- `Constraints::leqc`: push `k ≤ rhs − lhs`. -/
def Constraints.leqc {S : Type} [DecidableEq S] (c : Constraints S) (v : Vars S)
    (lhs rhs : S) (k : ℚ) : Vars S × Constraints S :=
  let (ml, v1) := v.get lhs
  let (mr, v2) := v1.get rhs
  (v2, c.push (k, [ml.neg, mr], .inf))

/-- `Constraints::geq`: push `0 ≤ lhs − rhs`, skipped when `lhs == rhs`. -/
def Constraints.geq {S : Type} [DecidableEq S] (c : Constraints S) (v : Vars S)
    (lhs rhs : S) : Vars S × Constraints S :=
  if lhs = rhs then (v, c)
  else
    let (ml, v1) := v.get lhs
    let (mr, v2) := v1.get rhs
    (v2, c.push (0, [ml, mr.neg], .inf))

/-- `Constraints::geqc`: push `k ≤ lhs − rhs`. -/
def Constraints.geqc {S : Type} [DecidableEq S] (c : Constraints S) (v : Vars S)
    (lhs rhs : S) (k : ℚ) : Vars S × Constraints S :=
  let (ml, v1) := v.get lhs
  let (mr, v2) := v1.get rhs
  (v2, c.push (k, [ml, mr.neg], .inf))

/-- `Constraints::eq`: push `0 ≤ Σ ≤ 0`. -/
def Constraints.eqz {S : Type} (c : Constraints S) (lc : List (Monomial S)) :
    Constraints S :=
  c.push (0, lc, .fin 0)

/-- `Constraints::eqc`: push `k ≤ Σ ≤ k`. -/
def Constraints.eqc {S : Type} (c : Constraints S) (lc : List (Monomial S)) (k : ℚ) :
    Constraints S :=
  c.push (k, lc, .fin k)

/-- `Constraints::sym`: introduce a fresh auxiliary `t`, add `100·t` to the
diagonal quadratic objective, and push the equality `t − lhs + rhs = 0`. -/
def Constraints.sym {S : Type} [DecidableEq S] (c : Constraints S) (v : Vars S)
    (pd : List (Monomial S)) (fresh : ℕ → S) (lhs rhs : S) :
    Vars S × Constraints S × List (Monomial S) :=
  let (t, v1) := v.get (fresh v.len)
  let pd1 := pd ++ [Monomial.scale 100 t]
  let (ml, v2) := v1.get lhs
  let (mr, v3) := v2.get rhs
  (v3, c.eqz [t, ml.neg, mr], pd1)

/-- Value of a linear combination at an assignment of the variable columns. -/
def rowSum {S : Type} (rho : ℕ → ℚ) (ms : List (Monomial S)) : ℚ :=
  (ms.map (fun m => m.coeff * rho m.var.index)).sum

theorem alook_append_some {α β : Type} [DecidableEq α] {l : List (α × β)} {k : α}
    {v : β} (l2 : List (α × β)) (h : alook l k = some v) :
    alook (l ++ l2) k = some v := by
  induction l with
  | nil => simp [alook] at h
  | cons p t ih =>
    obtain ⟨k2, v2⟩ := p
    simp only [alook, List.cons_append] at h ⊢
    by_cases hk : k2 = k
    · simpa [hk] using h
    · simp only [hk, if_false] at h ⊢
      exact ih h

/-- **C8.** `Constraints::sym(a,b)` introduces exactly one fresh auxiliary
variable `t` (index `v.len`), pushes the equality row `t − a + b = 0` with both
bounds `0`, appends the monomial `100·t` to the diagonal quadratic objective,
and on every assignment satisfying the equality the contributed quadratic cost
`100·t²` equals `100·(a−b)²`. -/
theorem sym_quadratic_penalty {S : Type} [DecidableEq S] (fresh : ℕ → S)
    (v : Vars S) (c : Constraints S) (pd : List (Monomial S)) (a b : S)
    (va vb : VarS S)
    (ha : alook v.vars a = some va) (hb : alook v.vars b = some vb)
    (hf : alook v.vars (fresh v.len) = none) :
    (c.sym v pd fresh a b).1.vars
        = v.vars ++ [(fresh v.len, ⟨v.len, fresh v.len⟩)] ∧
    (c.sym v pd fresh a b).2.1.constrs
        = c.constrs ++ [(0, [⟨⟨v.len, fresh v.len⟩, 1⟩, ⟨va, -1⟩, ⟨vb, 1⟩], FVal.fin 0)] ∧
    (c.sym v pd fresh a b).2.2
        = pd ++ [⟨⟨v.len, fresh v.len⟩, 100⟩] ∧
    (∀ rho : ℕ → ℚ,
      rowSum rho [⟨⟨v.len, fresh v.len⟩, 1⟩, ⟨va, -1⟩, ⟨vb, 1⟩] = 0 →
      100 * (rho v.len) ^ 2 = 100 * (rho va.index - rho vb.index) ^ 2) := by
  have hget : v.get (fresh v.len)
      = (⟨⟨v.vars.length, fresh v.len⟩, 1⟩, ⟨v.vars ++ [(fresh v.len, ⟨v.vars.length, fresh v.len⟩)]⟩) := by
    simp [Vars.get, hf]
  have ha2 : alook (v.vars ++ [(fresh v.len, ⟨v.vars.length, fresh v.len⟩)]) a = some va :=
    alook_append_some _ ha
  have hb2 : alook (v.vars ++ [(fresh v.len, ⟨v.vars.length, fresh v.len⟩)]) b = some vb :=
    alook_append_some _ hb
  have hsym : c.sym v pd fresh a b
      = (⟨v.vars ++ [(fresh v.len, ⟨v.vars.length, fresh v.len⟩)]⟩,
         c.eqz [⟨⟨v.vars.length, fresh v.len⟩, 1⟩, ⟨va, -1⟩, ⟨vb, 1⟩],
         pd ++ [Monomial.scale 100 ⟨⟨v.vars.length, fresh v.len⟩, 1⟩]) := by
    simp only [Constraints.sym, hget]
    simp [Vars.get, ha2, hb2, Monomial.neg]
  refine ⟨?_, ?_, ?_, ?_⟩
  · simp [hsym, Vars.len]
  · simp [hsym, Constraints.eqz, Constraints.push, Vars.len]
  · simp [hsym, Monomial.scale, Vars.len]
  · intro rho hrow
    simp only [rowSum, List.map_cons, List.map_nil, List.sum_cons, List.sum_nil] at hrow
    have : rho v.len = rho va.index - rho vb.index := by
      have := hrow
      simp only [Vars.len] at *
      linarith
    rw [this]

/-- Witness for C8 at concrete inputs: two registered variables `0`, `1` and the
fresh generator `n ↦ n + 10`. -/
theorem sym_quadratic_penalty_witness :
    ((⟨[]⟩ : Constraints ℕ).sym ⟨[(0, ⟨0, 0⟩), (1, ⟨1, 1⟩)]⟩ [] (fun n => n + 10) 0 1).1.vars
        = [(0, ⟨0, 0⟩), (1, ⟨1, 1⟩)] ++ [(12, ⟨2, 12⟩)] ∧
    ((⟨[]⟩ : Constraints ℕ).sym ⟨[(0, ⟨0, 0⟩), (1, ⟨1, 1⟩)]⟩ [] (fun n => n + 10) 0 1).2.1.constrs
        = [] ++ [(0, [⟨⟨2, 12⟩, 1⟩, ⟨⟨0, 0⟩, -1⟩, ⟨⟨1, 1⟩, 1⟩], FVal.fin 0)] ∧
    ((⟨[]⟩ : Constraints ℕ).sym ⟨[(0, ⟨0, 0⟩), (1, ⟨1, 1⟩)]⟩ [] (fun n => n + 10) 0 1).2.2
        = [] ++ [⟨⟨2, 12⟩, 100⟩] ∧
    (∀ rho : ℕ → ℚ,
      rowSum rho [⟨⟨2, 12⟩, 1⟩, ⟨⟨0, 0⟩, -1⟩, ⟨⟨1, 1⟩, 1⟩] = 0 →
      100 * (rho 2) ^ 2 = 100 * (rho 0 - rho 1) ^ 2) :=
  sym_quadratic_penalty (fun n => n + 10) ⟨[(0, ⟨0, 0⟩), (1, ⟨1, 1⟩)]⟩ ⟨[]⟩ [] 0 1
    ⟨0, 0⟩ ⟨1, 1⟩ (by decide) (by decide) (by decide)

/-! ## The ILP driver: branch-and-bound over the QP relaxation -/

/-- `osqp::ILPInstance`: one node of the branch-and-bound tree. -/
structure ILPInstance (S : Type) where
  vars : Vars S
  csp : Constraints S
  obj : List (Monomial S)
  deriving DecidableEq, Repr

/-- `osqp::ILPStatus`. -/
inductive ILPStatus (S : Type) where
  | NotAsGood
  | NotIntegral (v : VarS S)
  | IntegerInfeasible (row : ℕ)
  | Solved (obj : ℚ) (xs : List ℚ)
  deriving DecidableEq, Repr

/-- `Σ m.coeff * xs[m.var.index].round()` (indices are in bounds at every call
site: `xs` always has length `vars.len` and registered indices are below it). -/
def roundedRowSum {S : Type} (xs : List ℚ) (ms : List (Monomial S)) : ℚ :=
  (ms.map (fun m => m.coeff * (rustRound (xs.getD m.var.index 0) : ℚ))).sum

/-- `*l - 0.1 > asum || asum > *u + 0.1` for one constraint row. -/
def rowViolated {S : Type} (xs : List ℚ) (r : RowC S) : Bool :=
  decide (roundedRowSum xs r.2.1 < r.1 - 1/10) || FVal.roundedAbove (roundedRowSum xs r.2.1) r.2.2

/-- `ILPInstance::solve`, with the relaxation call abstracted as its result
(`Err` for a setup failure or an unacceptable solver status). -/
def ILPInstance.solve {S : Type} [DecidableEq S] (inst : ILPInstance S)
    (relaxRes : Except LError (ℚ × List ℚ)) (best : FVal) :
    Except LError (ILPStatus S) :=
  match relaxRes with
  | .error e => .error e
  | .ok (bound, xs) =>
    if FVal.geQ bound best then .ok .NotAsGood
    else
      match xs.findIdx? (fun x => decide ((1:ℚ)/10 ≤ |(rustRound x : ℚ) - x|)) with
      | some fi =>
        match (inst.vars.vars.map Prod.snd).find? (fun w => decide (w.index = fi)) with
        | some v => .ok (.NotIntegral v)
        | none => .error (.osqpError "missing fractional idx")
      | none =>
        match inst.csp.constrs.findIdx? (rowViolated xs) with
        | some ri => .ok (.IntegerInfeasible ri)
        | none => .ok (.Solved (roundedRowSum xs inst.obj) xs)

/-- The branch child of an instance adding `lo ≤ split ≤ hi`. -/
def ILPInstance.child {S : Type} (inst : ILPInstance S) (split : VarS S) (lo hi : ℚ) :
    ILPInstance S :=
  { inst with csp := inst.csp.push (lo, [⟨split, 1⟩], .fin hi) }

/-- `Vec::swap` on a list (out-of-range indices leave the list unchanged;
both indices are in range at the call site). -/
def swapIdx {α : Type} (q : List α) (i j : ℕ) : List α :=
  match q.get? i, q.get? j with
  | some a, some b => (q.set i b).set j a
  | _, _ => q

/-- `queue.swap(queue_len-1, random_index)` followed by `queue.pop().unwrap()`. -/
def popSwap {α : Type} (q : List α) (i : ℕ) : Option (α × List α) :=
  let q2 := swapIdx q (q.length - 1) i
  match q2.getLast? with
  | some a => some (a, q2.dropLast)
  | none => none

/-- The `ILP::solve` work-queue loop. `rand k` supplies the random queue index
drawn at step `k` (taken modulo the queue length); `relax k` is the outcome of
the relaxation solved at step `k`; fuel exhaustion returns `none`. -/
def ILP.solveLoop {S : Type} [DecidableEq S] (rand : ℕ → ℕ)
    (relax : ℕ → Except LError (ℚ × List ℚ)) :
    ℕ → List (ILPInstance S) → FVal → Option (List ℚ) → ℕ →
    Option (FVal × Option (List ℚ))
  | 0, _, _, _, _ => none
  | fuel + 1, queue, gb, gxs, k =>
    if queue.isEmpty then some (gb, gxs)
    else if gb = FVal.fin 0 then some (gb, gxs)
    else
      match popSwap queue (rand k % queue.length) with
      | none => none
      | some (inst, rest) =>
        match inst.solve (relax k) gb with
        | .ok (.NotIntegral split) =>
          ILP.solveLoop rand relax fuel
            (rest ++ [inst.child split 0 0, inst.child split 1 1]) gb gxs (k + 1)
        | .ok (.IntegerInfeasible _) => ILP.solveLoop rand relax fuel rest gb gxs (k + 1)
        | .ok .NotAsGood => ILP.solveLoop rand relax fuel rest gb gxs (k + 1)
        | .ok (.Solved b xs) =>
          if FVal.gtQ b gb then
            ILP.solveLoop rand relax fuel rest (.fin b) (some xs) (k + 1)
          else ILP.solveLoop rand relax fuel rest gb gxs (k + 1)
        | .error _ => ILP.solveLoop rand relax fuel rest gb gxs (k + 1)

/-- Extract the rational from a finite `FVal` (`global_bound` is always finite
when `global_xs` is set). -/
def FVal.unfin : FVal → ℚ
  | .fin q => q
  | .inf => 0

/-- `ILP::solve`: run the loop from the root instance, then either return the
best integral solution or fail with the distinct "infeasible" error. -/
def ILP.solve {S : Type} [DecidableEq S] (vars : Vars S) (csp : Constraints S)
    (obj : List (Monomial S)) (rand : ℕ → ℕ)
    (relax : ℕ → Except LError (ℚ × List ℚ)) (fuel : ℕ) :
    Option (Except LError (ILPStatus S)) :=
  match ILP.solveLoop (S := S) rand relax fuel [⟨vars, csp, obj⟩] .inf none 0 with
  | none => none
  | some (gb, some xs) => some (.ok (.Solved (FVal.unfin gb) xs))
  | some (_, none) => some (.error (.osqpError "infeasible"))

theorem findIdx?_go_some {α : Type} (p : α → Bool) (l : List α) (i : ℕ) (x : α) (s : ℕ)
    (hx : l.get? i = some x) (hpx : p x = true)
    (hbefore : ∀ j y, j < i → l.get? j = some y → p y = false) :
    List.findIdx? p l s = some (s + i) := by
  induction l generalizing i s with
  | nil => simp at hx
  | cons a t ih =>
    cases i with
    | zero =>
      simp only [List.get?] at hx
      cases hx
      simp [List.findIdx?, hpx]
    | succ n =>
      have ha : p a = false := hbefore 0 a (Nat.succ_pos n) rfl
      simp only [List.findIdx?, ha, cond_false]
      have heq := ih n (s + 1) (by simpa using hx)
        (fun j y hj hy => hbefore (j + 1) y (by omega) (by simpa using hy))
      have hs : s + 1 + n = s + (n + 1) := by omega
      rw [heq, hs]
      simp

theorem findIdx?_go_none {α : Type} (p : α → Bool) (l : List α) (s : ℕ)
    (h : ∀ x ∈ l, p x = false) : List.findIdx? p l s = none := by
  induction l generalizing s with
  | nil => simp [List.findIdx?]
  | cons a t ih =>
    have ha : p a = false := h a (List.mem_cons_self a t)
    simp only [List.findIdx?, ha, cond_false]
    exact ih (s + 1) (fun x hx => h x (List.mem_cons_of_mem a hx))

/-- **C3 (amended).** `ILPInstance::solve` classifies in order: `NotAsGood` when
the relaxation objective is at least the best alternative; else `NotIntegral`
naming the variable of the first coordinate whose distance to its nearest
integer is **at least** 0.1 (the code uses `>=`, not `>`); else
`IntegerInfeasible` naming the first row whose rounded sum leaves the closed
interval `[L − 0.1, U + 0.1]`; else `Solved` with the objective recomputed on
the rounded point. -/
theorem ILPInstance_solve_classification {S : Type} [DecidableEq S]
    (inst : ILPInstance S) (bound : ℚ) (xs : List ℚ) (best : FVal) :
    (FVal.geQ bound best = true →
      inst.solve (.ok (bound, xs)) best = .ok .NotAsGood) ∧
    (∀ i x v, FVal.geQ bound best = false →
      xs.get? i = some x → (1:ℚ)/10 ≤ |(rustRound x : ℚ) - x| →
      (∀ j y, j < i → xs.get? j = some y → |(rustRound y : ℚ) - y| < 1/10) →
      (inst.vars.vars.map Prod.snd).find? (fun w => decide (w.index = i)) = some v →
      inst.solve (.ok (bound, xs)) best = .ok (.NotIntegral v)) ∧
    (∀ r row, FVal.geQ bound best = false →
      (∀ y ∈ xs, |(rustRound y : ℚ) - y| < 1/10) →
      inst.csp.constrs.get? r = some row →
      (roundedRowSum xs row.2.1 < row.1 - 1/10 ∨
        FVal.roundedAbove (roundedRowSum xs row.2.1) row.2.2 = true) →
      (∀ r2 row2, r2 < r → inst.csp.constrs.get? r2 = some row2 →
        ¬ (roundedRowSum xs row2.2.1 < row2.1 - 1/10) ∧
        FVal.roundedAbove (roundedRowSum xs row2.2.1) row2.2.2 = false) →
      inst.solve (.ok (bound, xs)) best = .ok (.IntegerInfeasible r)) ∧
    (FVal.geQ bound best = false →
      (∀ y ∈ xs, |(rustRound y : ℚ) - y| < 1/10) →
      (∀ row ∈ inst.csp.constrs, rowViolated xs row = false) →
      inst.solve (.ok (bound, xs)) best
        = .ok (.Solved (roundedRowSum xs inst.obj) xs)) := by
  refine ⟨?_, ?_, ?_, ?_⟩
  · intro hge
    simp [ILPInstance.solve, hge]
  · intro i x v hge hx hdev hbefore hfind
    have hidx : xs.findIdx? (fun x => decide ((1:ℚ)/10 ≤ |(rustRound x : ℚ) - x|))
        = some i := by
      have := findIdx?_go_some (fun x => decide ((1:ℚ)/10 ≤ |(rustRound x : ℚ) - x|))
        xs i x 0 hx (by simpa using hdev)
        (fun j y hj hy => by
          have := hbefore j y hj hy
          simpa using not_le.mpr this)
      simpa using this
    simp only [ILPInstance.solve, hge, Bool.false_eq_true, if_false, hidx, hfind]
  · intro r row hge hall hrow hviol hbefore
    have hidx : xs.findIdx? (fun x => decide ((1:ℚ)/10 ≤ |(rustRound x : ℚ) - x|))
        = none := by
      apply findIdx?_go_none
      intro y hy
      simpa using not_le.mpr (hall y hy)
    have hvrow : rowViolated xs row = true := by
      rcases hviol with h1 | h1
      · simp only [rowViolated, Bool.or_eq_true, decide_eq_true_eq]
        exact Or.inl h1
      · simp only [rowViolated, Bool.or_eq_true]
        exact Or.inr h1
    have hridx : inst.csp.constrs.findIdx? (rowViolated xs) = some r := by
      have := findIdx?_go_some (rowViolated xs) inst.csp.constrs r row 0 hrow hvrow
        (fun j y hj hy => by
          obtain ⟨h1, h2⟩ := hbefore j y hj hy
          simp only [rowViolated, Bool.or_eq_false_iff, decide_eq_false_iff_not]
          exact ⟨h1, h2⟩)
      simpa using this
    simp only [ILPInstance.solve, hge, Bool.false_eq_true, if_false, hidx, hridx]
  · intro hge hall hrows
    have hidx : xs.findIdx? (fun x => decide ((1:ℚ)/10 ≤ |(rustRound x : ℚ) - x|))
        = none := by
      apply findIdx?_go_none
      intro y hy
      simpa using not_le.mpr (hall y hy)
    have hridx : inst.csp.constrs.findIdx? (rowViolated xs) = none :=
      findIdx?_go_none _ _ _ hrows
    simp only [ILPInstance.solve, hge, Bool.false_eq_true, if_false, hidx, hridx]

/-- Witness for C3's amended theorem: an integral relaxation point with an empty
constraint set classifies as `Solved` with the recomputed objective. -/
theorem ILPInstance_solve_classification_witness :
    ILPInstance.solve (S := ℕ) ⟨⟨[(0, ⟨0, 0⟩)]⟩, ⟨[]⟩, []⟩ (.ok (0, [(0:ℚ)])) .inf
      = .ok (.Solved (roundedRowSum [(0:ℚ)] ([] : List (Monomial ℕ))) [(0:ℚ)]) :=
  (ILPInstance_solve_classification ⟨⟨[(0, ⟨0, 0⟩)]⟩, ⟨[]⟩, []⟩ 0 [(0:ℚ)] .inf).2.2.2
    (by decide) (of_decide_eq_true (by with_unfolding_all rfl)) (by decide)

/-- Counterexample for C3 as stated: at the relaxation point `[0.1]` every
coordinate is within (not more than) 0.1 of its nearest integer and there is no
constraint row to violate, so the claim's classification would return `Solved`;
the code's `>=` comparison returns `NotIntegral` instead. -/
theorem ILPInstance_solve_boundary_counterexample :
    ILPInstance.solve (S := ℕ) ⟨⟨[(0, ⟨0, 0⟩)]⟩, ⟨[]⟩, []⟩ (.ok (0, [(1:ℚ)/10])) .inf
      = .ok (.NotIntegral ⟨0, 0⟩) ∧
    FVal.geQ 0 .inf = false ∧
    ¬ ((1:ℚ)/10 < |(rustRound ((1:ℚ)/10) : ℚ) - (1:ℚ)/10|) ∧
    ILPStatus.NotIntegral (⟨0, 0⟩ : VarS ℕ)
      ≠ .Solved (roundedRowSum [(1:ℚ)/10] ([] : List (Monomial ℕ))) [(1:ℚ)/10] := by
  refine ⟨of_decide_eq_true (by with_unfolding_all rfl), by decide,
    of_decide_eq_true (by with_unfolding_all rfl),
    of_decide_eq_true (by with_unfolding_all rfl)⟩

theorem ILP_solveLoop_some_mono {S : Type} [DecidableEq S] (rand : ℕ → ℕ)
    (relax : ℕ → Except LError (ℚ × List ℚ)) :
    ∀ (fuel : ℕ) (queue : List (ILPInstance S)) (gb : FVal) (xs : List ℚ) (k : ℕ)
      (res : FVal × Option (List ℚ)),
      ILP.solveLoop rand relax fuel queue gb (some xs) k = some res →
      ∃ ys, res.2 = some ys := by
  intro fuel
  induction fuel with
  | zero =>
    intro queue gb xs k res h
    simp [ILP.solveLoop] at h
  | succ n ih =>
    intro queue gb xs k res h
    rw [ILP.solveLoop] at h
    split at h
    · exact ⟨xs, by cases h; rfl⟩
    split at h
    · exact ⟨xs, by cases h; rfl⟩
    split at h
    · simp at h
    split at h <;> first
      | exact ih _ _ _ _ _ h
      | (split at h <;> exact ih _ _ _ _ _ h)

/-- **C4.** The ILP driver swallows every per-instance solver failure (the
failing instance is dropped and exploration continues on the remaining queue);
the work loop stops exactly when the queue is exhausted or the known lower
bound 0 is reached; a recorded integral solution is never lost; and `ILP::solve`
fails — with the distinct "infeasible" error — exactly when the terminated loop
recorded no integral solution, returning the best integral objective found
otherwise. -/
theorem ILP_solve_error_spec {S : Type} [DecidableEq S] :
    (∀ (rand : ℕ → ℕ) (relax : ℕ → Except LError (ℚ × List ℚ)) (fuel : ℕ)
        (queue rest : List (ILPInstance S)) (inst : ILPInstance S)
        (gb : FVal) (gxs : Option (List ℚ)) (k : ℕ) (e : LError),
      queue.isEmpty = false → gb ≠ FVal.fin 0 →
      popSwap queue (rand k % queue.length) = some (inst, rest) →
      relax k = .error e →
      ILP.solveLoop rand relax (fuel + 1) queue gb gxs k
        = ILP.solveLoop rand relax fuel rest gb gxs (k + 1)) ∧
    (∀ (rand : ℕ → ℕ) (relax : ℕ → Except LError (ℚ × List ℚ)) (fuel : ℕ)
        (queue : List (ILPInstance S)) (gb : FVal) (gxs : Option (List ℚ)) (k : ℕ),
      (queue.isEmpty = true ∨ gb = FVal.fin 0) →
      ILP.solveLoop rand relax (fuel + 1) queue gb gxs k = some (gb, gxs)) ∧
    (∀ (rand : ℕ → ℕ) (relax : ℕ → Except LError (ℚ × List ℚ)) (fuel : ℕ)
        (queue : List (ILPInstance S)) (gb : FVal) (xs : List ℚ) (k : ℕ)
        (res : FVal × Option (List ℚ)),
      ILP.solveLoop rand relax fuel queue gb (some xs) k = some res →
      ∃ ys, res.2 = some ys) ∧
    (∀ (vars : Vars S) (csp : Constraints S) (obj : List (Monomial S))
        (rand : ℕ → ℕ) (relax : ℕ → Except LError (ℚ × List ℚ)) (fuel : ℕ)
        (gb : FVal) (gxs : Option (List ℚ)),
      ILP.solveLoop rand relax fuel [⟨vars, csp, obj⟩] .inf none 0 = some (gb, gxs) →
      ((ILP.solve vars csp obj rand relax fuel
          = some (.error (.osqpError "infeasible"))) ↔ gxs = none) ∧
      (∀ xs, gxs = some xs →
        ILP.solve vars csp obj rand relax fuel
          = some (.ok (.Solved (FVal.unfin gb) xs)))) := by
  refine ⟨?_, ?_, ?_, ?_⟩
  · intro rand relax fuel queue rest inst gb gxs k e hne hgb hpop hrel
    rw [ILP.solveLoop, if_neg (by simp [hne]), if_neg hgb, hpop]
    simp only [hrel, ILPInstance.solve]
  · intro rand relax fuel queue gb gxs k h
    rcases h with h | h
    · rw [ILP.solveLoop, if_pos h]
    · by_cases hq : queue.isEmpty = true
      · rw [ILP.solveLoop, if_pos hq]
      · rw [ILP.solveLoop, if_neg hq, if_pos h]
  · exact fun rand relax => ILP_solveLoop_some_mono rand relax
  · intro vars csp obj rand relax fuel gb gxs hloop
    refine ⟨⟨?_, ?_⟩, ?_⟩
    · intro hsol
      rcases gxs with _ | xs
      · rfl
      · exfalso
        simp only [ILP.solve, hloop] at hsol
        cases hsol
    · intro hnone
      subst hnone
      simp only [ILP.solve, hloop]
    · intro xs hxs
      subst hxs
      simp only [ILP.solve, hloop]

/-- Witness for C4 at a concrete failing relaxation: the failing instance is
popped, its error is swallowed, and the loop goes on with an empty queue. -/
theorem ILP_solve_error_spec_witness :
    ILP.solveLoop (S := ℕ) (fun _ => 0) (fun _ => .error .osqpSetupError) 1
        [⟨⟨[]⟩, ⟨[]⟩, []⟩] .inf none 0
      = ILP.solveLoop (S := ℕ) (fun _ => 0) (fun _ => .error .osqpSetupError) 0 [] .inf none 1 :=
  (ILP_solve_error_spec (S := ℕ)).1 (fun _ => 0) (fun _ => .error .osqpSetupError) 0
    [⟨⟨[]⟩, ⟨[]⟩, []⟩] [] ⟨⟨[]⟩, ⟨[]⟩, []⟩ .inf none 0 .osqpSetupError
    (by decide) (by decide) (by decide) rfl

/-! ## CSC matrix assembly (`as_csc_matrix`, `as_diag_csc_matrix`) -/

/-- `osqp::CscMatrix`. -/
structure CscMat where
  nrows : ℕ
  ncols : ℕ
  indptr : List ℕ
  indices : List ℕ
  data : List ℚ
  deriving DecidableEq, Repr

/-- `BTreeMap<row, coeff>::insert` keeping keys sorted; `none` when the cell was
already written (the `assert!(old.is_none())` fires). -/
def colInsert (inner : List (ℕ × ℚ)) (r : ℕ) (c : ℚ) : Option (List (ℕ × ℚ)) :=
  match inner with
  | [] => some [(r, c)]
  | (r2, v2) :: t =>
    if r < r2 then some ((r, c) :: (r2, v2) :: t)
    else if r = r2 then none
    else (colInsert t r c).map (fun t2 => (r2, v2) :: t2)

/-- `cols.entry(col).or_default().insert(row, coeff)` on the sorted
column-of-rows map; `none` when the cell was already written. -/
def colsInsert (cols : List (ℕ × List (ℕ × ℚ))) (cix r : ℕ) (c : ℚ) :
    Option (List (ℕ × List (ℕ × ℚ))) :=
  match cols with
  | [] => some [(cix, [(r, c)])]
  | (k, inner) :: t =>
    if cix < k then some ((cix, [(r, c)]) :: (k, inner) :: t)
    else if cix = k then (colInsert inner r c).map (fun inner2 => (k, inner2) :: t)
    else (colsInsert t cix r c).map (fun t2 => (k, inner) :: t2)

/-- Insert the nonzero monomials of one constraint row at row index `rowIx`. -/
def insertRowTerms {S : Type} (rowIx : ℕ) :
    List (Monomial S) → List (ℕ × List (ℕ × ℚ)) → Option (List (ℕ × List (ℕ × ℚ)))
  | [], cols => some cols
  | m :: t, cols =>
    if m.coeff = 0 then insertRowTerms rowIx t cols
    else
      match colsInsert cols m.var.index rowIx m.coeff with
      | none => none
      | some cols2 => insertRowTerms rowIx t cols2

/-- The cell-collection loop of `as_csc_matrix`. -/
def buildCols {S : Type} :
    List (List (Monomial S)) → ℕ → List (ℕ × List (ℕ × ℚ)) →
    Option (List (ℕ × List (ℕ × ℚ)))
  | [], _, cols => some cols
  | row :: rest, rowIx, cols =>
    match insertRowTerms rowIx row cols with
    | none => none
    | some cols2 => buildCols rest (rowIx + 1) cols2

/-- The cell-collection loop of `as_diag_csc_matrix` (each nonzero monomial is
written at cell `(var.index, var.index)`). -/
def buildColsDiag {S : Type} :
    List (Monomial S) → List (ℕ × List (ℕ × ℚ)) → Option (List (ℕ × List (ℕ × ℚ)))
  | [], cols => some cols
  | m :: t, cols =>
    if m.coeff = 0 then buildColsDiag t cols
    else
      match colsInsert cols m.var.index m.var.index m.coeff with
      | none => none
      | some cols2 => buildColsDiag t cols2

/-- The `for (col, rows) in cols.iter()` packing loop shared verbatim by
`as_csc_matrix` and `as_diag_csc_matrix`. -/
def packCols : List (ℕ × List (ℕ × ℚ)) → ℕ → List ℕ → List ℕ → List ℚ →
    ℕ × List ℕ × List ℕ × List ℚ
  | [], cur, ip, ind, dat => (cur, ip, ind, dat)
  | (col, inner) :: t, cur, ip, ind, dat =>
    packCols t (col + 1)
      (ip ++ List.replicate (col + 1 - cur) dat.length)
      (ind ++ inner.map Prod.fst)
      (dat ++ inner.map Prod.snd)

/-- Assemble the collected cells and dimension defaults into a `CscMat`
(the trailing `for _ in cur_col..=ncols` loop pads `indptr`). -/
def packCsc (nrowsOpt ncolsOpt : Option ℕ) (rowsLen : ℕ)
    (cols : List (ℕ × List (ℕ × ℚ))) : CscMat :=
  let nrows := nrowsOpt.getD rowsLen
  let ncols := ncolsOpt.getD cols.length
  match packCols cols 0 [] [] [] with
  | (cur, ip, ind, dat) =>
    ⟨nrows, ncols, ip ++ List.replicate (ncols + 1 - cur) dat.length, ind, dat⟩

/-- `osqp::as_csc_matrix`. -/
def as_csc_matrix {S : Type} (nrowsOpt ncolsOpt : Option ℕ)
    (rows : List (List (Monomial S))) : Outcome CscMat :=
  match buildCols rows 0 [] with
  | none => .panicked "assertion failed: old.is_none()"
  | some cols => .ok (packCsc nrowsOpt ncolsOpt rows.length cols)

/-- `osqp::as_diag_csc_matrix`. -/
def as_diag_csc_matrix {S : Type} (nrowsOpt ncolsOpt : Option ℕ)
    (rows : List (Monomial S)) : Outcome CscMat :=
  match buildColsDiag rows [] with
  | none => .panicked "assertion failed: old.is_none()"
  | some cols => .ok (packCsc nrowsOpt ncolsOpt rows.length cols)

/-- Read one cell of a CSC matrix back: scan column `c`'s block
`indices[indptr[c] .. indptr[c+1]]` for row `r`. -/
def cscCell (m : CscMat) (r c : ℕ) : Option ℚ :=
  match m.indptr.get? c, m.indptr.get? (c + 1) with
  | some lo, some hi =>
    (List.range' lo (hi - lo)).findSome? fun k =>
      match m.indices.get? k, m.data.get? k with
      | some r2, some v => if r2 = r then some v else none
      | _, _ => none
  | _, _ => none

/-- The unique nonzero monomial on variable column `c` in constraint row `r`. -/
def rowCell {S : Type} (rows : List (List (Monomial S))) (r c : ℕ) : Option ℚ :=
  (rows.get? r).bind fun row =>
    (row.find? fun m => decide (m.var.index = c) && decide (m.coeff ≠ 0)).map
      (fun m => m.coeff)

/-- A constraint row whose nonzero monomials have pairwise distinct variables. -/
def rowNodup {S : Type} (row : List (Monomial S)) : Prop :=
  (row.filter (fun m => decide (m.coeff ≠ 0))).Pairwise
    (fun m1 m2 => m1.var.index ≠ m2.var.index)

/-- Keys strictly increasing (the `BTreeMap` ordering invariant). -/
def keysSorted {β : Type} (l : List (ℕ × β)) : Prop :=
  l.Pairwise (fun a b => a.1 < b.1)

/-- Both levels of the column map sorted. -/
def colsSorted (cols : List (ℕ × List (ℕ × ℚ))) : Prop :=
  keysSorted cols ∧ ∀ p ∈ cols, keysSorted p.2

/-- One cell of the collected column map. -/
def colsCell (cols : List (ℕ × List (ℕ × ℚ))) (c r : ℕ) : Option ℚ :=
  (alook cols c).bind fun inner => alook inner r

/-- `colsInsert` succeeding is `binsert` at both levels. -/
def colsPut (cols : List (ℕ × List (ℕ × ℚ))) (cix r : ℕ) (c : ℚ) :
    List (ℕ × List (ℕ × ℚ)) :=
  match cols with
  | [] => [(cix, [(r, c)])]
  | (k, inner) :: t =>
    if cix < k then (cix, [(r, c)]) :: (k, inner) :: t
    else if cix = k then (k, binsert inner r c) :: t
    else (k, inner) :: colsPut t cix r c

theorem alook_binsert {β : Type} (l : List (ℕ × β)) (k : ℕ) (v : β) (k2 : ℕ) :
    alook (binsert l k v) k2 = if k2 = k then some v else alook l k2 := by
  induction l with
  | nil =>
    simp only [binsert, alook]
    by_cases h : k = k2
    · simp [h]
    · have h2 : ¬ (k2 = k) := fun hh => h hh.symm
      simp [h, h2]
  | cons p t ih =>
    obtain ⟨k1, v1⟩ := p
    simp only [binsert]
    by_cases h1 : k < k1
    · simp only [if_pos h1, alook]
      by_cases h : k = k2
      · subst h
        simp
      · have h2 : ¬ (k2 = k) := fun hh => h hh.symm
        simp [h, h2]
    · by_cases h2 : k = k1
      · subst h2
        simp only [if_neg h1, if_pos rfl, alook]
        by_cases h : k = k2
        · subst h
          simp
        · have h3 : ¬ (k2 = k) := fun hh => h hh.symm
          simp [h, h3]
      · have h3 : k1 < k := by omega
        simp only [if_neg h1, if_neg h2, alook, ih]
        by_cases h : k1 = k2
        · have h4 : ¬ (k2 = k) := by omega
          simp [h, h4]
        · simp [h]

theorem mem_binsert {β : Type} {l : List (ℕ × β)} {k : ℕ} {v : β} {q : ℕ × β}
    (h : q ∈ binsert l k v) : q = (k, v) ∨ q ∈ l := by
  induction l with
  | nil => simpa [binsert] using h
  | cons p t ih =>
    obtain ⟨k1, v1⟩ := p
    simp only [binsert] at h
    by_cases h1 : k < k1
    · simp only [if_pos h1, List.mem_cons] at h
      rcases h with h | h | h
      · exact Or.inl h
      · exact Or.inr (by simp [h])
      · exact Or.inr (List.mem_cons_of_mem _ h)
    · by_cases h2 : k = k1
      · simp only [if_neg h1, if_pos h2, List.mem_cons] at h
        rcases h with h | h
        · exact Or.inl h
        · exact Or.inr (List.mem_cons_of_mem _ h)
      · simp only [if_neg h1, if_neg h2, List.mem_cons] at h
        rcases h with h | h
        · exact Or.inr (by simp [h])
        · rcases ih h with h | h
          · exact Or.inl h
          · exact Or.inr (List.mem_cons_of_mem _ h)

theorem binsert_sorted {β : Type} {l : List (ℕ × β)} {k : ℕ} {v : β}
    (hs : keysSorted l) : keysSorted (binsert l k v) := by
  unfold keysSorted at hs ⊢
  induction l with
  | nil => simp [binsert]
  | cons p t ih =>
    obtain ⟨k1, v1⟩ := p
    obtain ⟨hhead, htail⟩ := List.pairwise_cons.mp hs
    simp only [binsert]
    by_cases h1 : k < k1
    · rw [if_pos h1]
      refine List.pairwise_cons.mpr ⟨?_, hs⟩
      intro q hq
      rcases List.mem_cons.mp hq with h | h
      · subst h; exact h1
      · have := hhead q h
        simp only at this ⊢
        omega
    · by_cases h2 : k = k1
      · subst h2
        rw [if_neg h1, if_pos rfl]
        exact List.pairwise_cons.mpr ⟨hhead, htail⟩
      · have h3 : k1 < k := by omega
        rw [if_neg h1, if_neg h2]
        refine List.pairwise_cons.mpr ⟨?_, ih htail⟩
        intro q hq
        rcases mem_binsert hq with h | h
        · subst h; exact h3
        · exact hhead q h

theorem alook_none_of_lt {β : Type} {l : List (ℕ × β)} {c : ℕ}
    (hs : keysSorted l) (hlt : ∀ p ∈ l, c < p.1) : alook l c = none := by
  induction l with
  | nil => rfl
  | cons p t ih =>
    obtain ⟨k1, v1⟩ := p
    have hne : ¬ (k1 = c) := by
      have := hlt (k1, v1) (List.mem_cons_self _ t)
      simp only at this
      omega
    simp only [alook, hne, if_false]
    exact ih (List.pairwise_cons.mp hs).2
      (fun q hq => hlt q (List.mem_cons_of_mem _ hq))

theorem colInsert_eq_binsert {inner : List (ℕ × ℚ)} {r : ℕ} {c : ℚ}
    {inner2 : List (ℕ × ℚ)} (h : colInsert inner r c = some inner2) :
    inner2 = binsert inner r c := by
  induction inner generalizing inner2 with
  | nil =>
    simp only [colInsert, Option.some_inj] at h
    simp [binsert, h.symm]
  | cons p t ih =>
    obtain ⟨r2, v2⟩ := p
    simp only [colInsert] at h
    simp only [binsert]
    by_cases h1 : r < r2
    · rw [if_pos h1] at h
      rw [if_pos h1]
      exact (Option.some_inj.mp h).symm
    · by_cases h2 : r = r2
      · rw [if_neg h1, if_pos h2] at h
        cases h
      · rw [if_neg h1, if_neg h2] at h
        rw [if_neg h1, if_neg h2]
        rcases Option.map_eq_some'.mp h with ⟨t2, ht2, heq⟩
        rw [← heq, ih ht2]

theorem colInsert_some_of {inner : List (ℕ × ℚ)} {r : ℕ} (c : ℚ)
    (hs : keysSorted inner) (hnone : alook inner r = none) :
    colInsert inner r c = some (binsert inner r c) := by
  induction inner with
  | nil => simp [colInsert, binsert]
  | cons p t ih =>
    obtain ⟨r2, v2⟩ := p
    simp only [alook] at hnone
    by_cases he : r2 = r
    · simp [he] at hnone
    · simp only [he, if_false] at hnone
      have h2 : ¬ (r = r2) := fun hh => he hh.symm
      simp only [colInsert, binsert]
      by_cases h1 : r < r2
      · simp [h1]
      · rw [if_neg h1, if_neg h2, if_neg h1, if_neg h2,
          ih (List.pairwise_cons.mp hs).2 hnone]
        rfl

theorem colInsert_none_of {inner : List (ℕ × ℚ)} {r : ℕ} {c : ℚ} {v : ℚ}
    (hs : keysSorted inner) (hsome : alook inner r = some v) :
    colInsert inner r c = none := by
  induction inner with
  | nil => simp [alook] at hsome
  | cons p t ih =>
    obtain ⟨r2, v2⟩ := p
    obtain ⟨hhead, htail⟩ := List.pairwise_cons.mp hs
    simp only [alook] at hsome
    by_cases he : r2 = r
    · subst he
      simp [colInsert]
    · simp only [he, if_false] at hsome
      have h2 : ¬ (r = r2) := fun hh => he hh.symm
      simp only [colInsert]
      by_cases h1 : r < r2
      · exfalso
        have hn : alook t r = none := by
          apply alook_none_of_lt htail
          intro q hq
          have := hhead q hq
          simp only at this
          omega
        rw [hn] at hsome
        cases hsome
      · rw [if_neg h1, if_neg h2, ih htail hsome]
        rfl

theorem mem_colsPut {cols : List (ℕ × List (ℕ × ℚ))} {cix r : ℕ} {c : ℚ}
    {q : ℕ × List (ℕ × ℚ)} (h : q ∈ colsPut cols cix r c) :
    q.1 = cix ∨ q ∈ cols := by
  induction cols with
  | nil =>
    simp only [colsPut, List.mem_singleton] at h
    exact Or.inl (by simp [h])
  | cons p t ih =>
    obtain ⟨k, inner⟩ := p
    simp only [colsPut] at h
    by_cases h1 : cix < k
    · simp only [if_pos h1, List.mem_cons] at h
      rcases h with h | h | h
      · exact Or.inl (by simp [h])
      · exact Or.inr (by simp [h])
      · exact Or.inr (List.mem_cons_of_mem _ h)
    · by_cases h2 : cix = k
      · simp only [if_neg h1, if_pos h2, List.mem_cons] at h
        rcases h with h | h
        · exact Or.inl (by simp [h, h2])
        · exact Or.inr (List.mem_cons_of_mem _ h)
      · simp only [if_neg h1, if_neg h2, List.mem_cons] at h
        rcases h with h | h
        · exact Or.inr (by simp [h])
        · rcases ih h with h | h
          · exact Or.inl h
          · exact Or.inr (List.mem_cons_of_mem _ h)

theorem colsPut_sorted {cols : List (ℕ × List (ℕ × ℚ))} {cix r : ℕ} {c : ℚ}
    (hs : colsSorted cols) : colsSorted (colsPut cols cix r c) := by
  obtain ⟨hso, hsi⟩ := hs
  induction cols with
  | nil =>
    refine ⟨by simp [colsPut, keysSorted], ?_⟩
    intro p hp
    simp only [colsPut, List.mem_singleton] at hp
    subst hp
    simp [keysSorted]
  | cons p t ih =>
    obtain ⟨k, inner⟩ := p
    obtain ⟨hhead, htail⟩ := List.pairwise_cons.mp hso
    have hsit : ∀ q ∈ t, keysSorted q.2 :=
      fun q hq => hsi q (List.mem_cons_of_mem _ hq)
    have hinner : keysSorted inner := hsi (k, inner) (List.mem_cons_self _ _)
    simp only [colsPut]
    by_cases h1 : cix < k
    · rw [if_pos h1]
      refine ⟨List.pairwise_cons.mpr ⟨?_, hso⟩, ?_⟩
      · intro q hq
        rcases List.mem_cons.mp hq with h | h
        · subst h; exact h1
        · have := hhead q h
          simp only at this ⊢
          omega
      · intro q hq
        rcases List.mem_cons.mp hq with h | h
        · subst h; simp [keysSorted]
        · exact hsi q h
    · by_cases h2 : cix = k
      · rw [if_neg h1, if_pos h2]
        refine ⟨List.pairwise_cons.mpr ⟨hhead, htail⟩, ?_⟩
        intro q hq
        rcases List.mem_cons.mp hq with h | h
        · subst h
          exact binsert_sorted hinner
        · exact hsi q (List.mem_cons_of_mem _ h)
      · have h3 : k < cix := by omega
        rw [if_neg h1, if_neg h2]
        obtain ⟨iho, ihi⟩ := ih htail hsit
        refine ⟨List.pairwise_cons.mpr ⟨?_, iho⟩, ?_⟩
        · intro q hq
          rcases mem_colsPut hq with h | h
          · simp only [h]
            exact h3
          · exact hhead q h
        · intro q hq
          rcases List.mem_cons.mp hq with h | h
          · subst h; exact hinner
          · exact ihi q h

theorem alook_colsPut {cols : List (ℕ × List (ℕ × ℚ))} {cix r : ℕ} {c : ℚ}
    (hs : keysSorted cols) (c2 : ℕ) :
    alook (colsPut cols cix r c) c2
      = if c2 = cix then some (binsert ((alook cols cix).getD []) r c)
        else alook cols c2 := by
  induction cols with
  | nil =>
    simp only [colsPut, alook]
    by_cases h : c2 = cix
    · subst h
      simp [binsert]
    · have h2 : ¬ (cix = c2) := fun hh => h hh.symm
      simp [h, h2]
  | cons p t ih =>
    obtain ⟨k, inner⟩ := p
    obtain ⟨hhead, htail⟩ := List.pairwise_cons.mp hs
    simp only [colsPut]
    by_cases h1 : cix < k
    · have hck : alook ((k, inner) :: t) cix = none := by
        apply alook_none_of_lt hs
        intro q hq
        rcases List.mem_cons.mp hq with h | h
        · subst h; exact h1
        · have := hhead q h
          simp only at this
          omega
      rw [if_pos h1]
      by_cases h : c2 = cix
      · subst h
        rw [if_pos rfl, hck]
        simp [alook, binsert]
      · have h2 : ¬ (cix = c2) := fun hh => h hh.symm
        rw [if_neg h]
        simp [alook, h2]
    · by_cases h2 : cix = k
      · subst h2
        rw [if_neg h1, if_pos rfl]
        by_cases h : c2 = cix
        · subst h
          rw [if_pos rfl]
          simp [alook]
        · have h3 : ¬ (cix = c2) := fun hh => h hh.symm
          rw [if_neg h]
          simp [alook, h3]
      · have h3 : k < cix := by omega
        rw [if_neg h1, if_neg h2]
        have hkx : ¬ (k = cix) := by omega
        by_cases h : c2 = cix
        · subst h
          rw [if_pos rfl]
          simp [alook, hkx, ih htail]
        · rw [if_neg h]
          simp only [alook, ih htail, h, if_false]

theorem colsInsert_some_of :
    ∀ (cols : List (ℕ × List (ℕ × ℚ))) (cix r : ℕ) (c : ℚ),
    colsSorted cols → colsCell cols cix r = none →
    colsInsert cols cix r c = some (colsPut cols cix r c) := by
  intro cols
  induction cols with
  | nil => intro cix r c hs hnone; simp [colsInsert, colsPut]
  | cons p t ih =>
    intro cix r c hs hnone
    obtain ⟨k, inner⟩ := p
    obtain ⟨hso, hsi⟩ := hs
    obtain ⟨hhead, htail⟩ := List.pairwise_cons.mp hso
    simp only [colsInsert, colsPut]
    by_cases h1 : cix < k
    · simp [h1]
    · by_cases h2 : cix = k
      · subst h2
        rw [if_neg h1, if_pos rfl, if_neg h1, if_pos rfl]
        have hai : alook ((cix, inner) :: t) cix = some inner := by
          simp [alook]
        simp only [colsCell, hai, Option.bind_some] at hnone
        rw [colInsert_some_of c (hsi (cix, inner) (List.mem_cons_self _ _)) hnone]
        rfl
      · rw [if_neg h1, if_neg h2, if_neg h1, if_neg h2]
        have hkx : ¬ (k = cix) := fun hh => h2 hh.symm
        have hnone2 : colsCell t cix r = none := by
          simpa [colsCell, alook, hkx] using hnone
        rw [ih cix r c ⟨htail, fun q hq => hsi q (List.mem_cons_of_mem _ hq)⟩ hnone2]
        rfl

theorem colsInsert_none_of :
    ∀ (cols : List (ℕ × List (ℕ × ℚ))) (cix r : ℕ) (c v : ℚ),
    colsSorted cols → colsCell cols cix r = some v →
    colsInsert cols cix r c = none := by
  intro cols
  induction cols with
  | nil => intro cix r c v hs hsome; simp [colsCell, alook] at hsome
  | cons p t ih =>
    intro cix r c v hs hsome
    obtain ⟨k, inner⟩ := p
    obtain ⟨hso, hsi⟩ := hs
    obtain ⟨hhead, htail⟩ := List.pairwise_cons.mp hso
    simp only [colsInsert]
    by_cases h1 : cix < k
    · exfalso
      have hck : alook ((k, inner) :: t) cix = none := by
        apply alook_none_of_lt hso
        intro q hq
        rcases List.mem_cons.mp hq with h | h
        · subst h; exact h1
        · have := hhead q h
          simp only at this
          omega
      rw [colsCell, hck] at hsome
      cases hsome
    · by_cases h2 : cix = k
      · subst h2
        rw [if_neg h1, if_pos rfl]
        have hai : alook ((cix, inner) :: t) cix = some inner := by
          simp [alook]
        simp only [colsCell, hai, Option.bind_some] at hsome
        rw [colInsert_none_of (hsi (cix, inner) (List.mem_cons_self _ _)) hsome]
        rfl
      · rw [if_neg h1, if_neg h2]
        have hkx : ¬ (k = cix) := fun hh => h2 hh.symm
        have hsome2 : colsCell t cix r = some v := by
          simpa [colsCell, alook, hkx] using hsome
        rw [ih cix r c v ⟨htail, fun q hq => hsi q (List.mem_cons_of_mem _ hq)⟩ hsome2]
        rfl

theorem colsCell_colsPut {cols : List (ℕ × List (ℕ × ℚ))} {cix r : ℕ} {c : ℚ}
    (hs : keysSorted cols) (c2 r2 : ℕ) :
    colsCell (colsPut cols cix r c) c2 r2
      = if c2 = cix ∧ r2 = r then some c else colsCell cols c2 r2 := by
  simp only [colsCell, alook_colsPut hs]
  by_cases h : c2 = cix
  · subst h
    simp only [if_pos rfl, true_and]
    rcases ha : alook cols c2 with _ | inner
    · simp only [Option.getD_none, Option.some_bind]
      by_cases h2 : r2 = r
      · subst h2
        simp [alook_binsert]
      · have h3 : ¬ (r = r2) := fun hh => h2 hh.symm
        simp [alook_binsert, h2, h3, alook]
    · simp only [Option.getD_some, Option.some_bind]
      by_cases h2 : r2 = r
      · subst h2
        simp [alook_binsert]
      · simp [alook_binsert, h2]
  · simp [h]

/-- The unique nonzero monomial of one row on variable column `c`. -/
def cellOfRow {S : Type} (row : List (Monomial S)) (c : ℕ) : Option ℚ :=
  (row.find? fun m => decide (m.var.index = c) && decide (m.coeff ≠ 0)).map
    (fun m => m.coeff)

theorem cellOfRow_cons_zero {S : Type} {m : Monomial S} {t : List (Monomial S)}
    (hz : m.coeff = 0) (c : ℕ) : cellOfRow (m :: t) c = cellOfRow t c := by
  simp [cellOfRow, List.find?, hz]

theorem cellOfRow_cons_self {S : Type} {m : Monomial S} {t : List (Monomial S)}
    (hz : m.coeff ≠ 0) : cellOfRow (m :: t) m.var.index = some m.coeff := by
  simp [cellOfRow, List.find?, hz]

theorem cellOfRow_cons_other {S : Type} {m : Monomial S} {t : List (Monomial S)}
    {c : ℕ} (hne : m.var.index ≠ c) : cellOfRow (m :: t) c = cellOfRow t c := by
  simp [cellOfRow, List.find?, hne]

theorem cellOfRow_none_of_fresh {S : Type} {t : List (Monomial S)} {c : ℕ}
    (h : ∀ m2 ∈ t.filter (fun m => decide (m.coeff ≠ 0)), c ≠ m2.var.index) :
    cellOfRow t c = none := by
  have : t.find? (fun m => decide (m.var.index = c) && decide (m.coeff ≠ 0)) = none := by
    rw [List.find?_eq_none]
    intro x hx hpx
    simp only [Bool.and_eq_true, decide_eq_true_eq] at hpx
    exact h x (List.mem_filter.mpr ⟨hx, by simpa using hpx.2⟩) hpx.1.symm
  unfold cellOfRow
  rw [this]
  rfl

theorem insertRowTerms_go {S : Type} (rowIx : ℕ) :
    ∀ (row : List (Monomial S)) (cols : List (ℕ × List (ℕ × ℚ))),
    colsSorted cols →
    (∀ m ∈ row, m.coeff ≠ 0 → colsCell cols m.var.index rowIx = none) →
    rowNodup row →
    ∃ cols2, insertRowTerms rowIx row cols = some cols2 ∧ colsSorted cols2 ∧
      (∀ c r2, colsCell cols2 c r2
        = if r2 = rowIx then (cellOfRow row c).or (colsCell cols c r2)
          else colsCell cols c r2) := by
  intro row
  induction row with
  | nil =>
    intro cols hs hdisj hnodup
    refine ⟨cols, rfl, hs, ?_⟩
    intro c r2
    by_cases h : r2 = rowIx <;> simp [cellOfRow, h]
  | cons m t ih =>
    intro cols hs hdisj hnodup
    by_cases hz : m.coeff = 0
    · simp only [insertRowTerms, if_pos hz]
      have hnodup2 : rowNodup t := by
        unfold rowNodup at hnodup ⊢
        simpa [List.filter_cons, hz] using hnodup
      obtain ⟨cols2, h1, h2, h3⟩ :=
        ih cols hs (fun m2 hm2 => hdisj m2 (List.mem_cons_of_mem _ hm2)) hnodup2
      refine ⟨cols2, h1, h2, ?_⟩
      intro c r2
      rw [h3 c r2, cellOfRow_cons_zero hz]
    · simp only [insertRowTerms, if_neg hz]
      have hcell : colsCell cols m.var.index rowIx = none :=
        hdisj m (List.mem_cons_self _ _) hz
      rw [colsInsert_some_of cols m.var.index rowIx m.coeff hs hcell]
      have hfilter : (m :: t).filter (fun m => decide (m.coeff ≠ 0))
          = m :: t.filter (fun m => decide (m.coeff ≠ 0)) := by
        simp [List.filter_cons, hz]
      have hnod := hnodup
      unfold rowNodup at hnod
      rw [hfilter] at hnod
      obtain ⟨hndhead, hndtail⟩ := List.pairwise_cons.mp hnod
      have hs2 : colsSorted (colsPut cols m.var.index rowIx m.coeff) :=
        colsPut_sorted ⟨hs.1, hs.2⟩
      have hdisj2 : ∀ m2 ∈ t, m2.coeff ≠ 0 →
          colsCell (colsPut cols m.var.index rowIx m.coeff) m2.var.index rowIx = none := by
        intro m2 hm2 hnz
        rw [colsCell_colsPut hs.1]
        have hne : ¬ (m2.var.index = m.var.index ∧ rowIx = rowIx) := by
          rintro ⟨hh, -⟩
          exact hndhead m2 (List.mem_filter.mpr ⟨hm2, by simpa using hnz⟩) hh.symm
        rw [if_neg hne]
        exact hdisj m2 (List.mem_cons_of_mem _ hm2) hnz
      obtain ⟨cols2, h1, h2, h3⟩ := ih _ hs2 hdisj2 hndtail
      refine ⟨cols2, by simpa using h1, h2, ?_⟩
      intro c r2
      rw [h3 c r2]
      by_cases hr : r2 = rowIx
      · rw [if_pos hr, if_pos hr, colsCell_colsPut hs.1]
        by_cases hc : c = m.var.index
        · rw [if_pos ⟨hc, hr⟩, hc, cellOfRow_cons_self hz]
          have hnone : cellOfRow t m.var.index = none :=
            cellOfRow_none_of_fresh hndhead
          rw [hnone]
          rfl
        · rw [if_neg (fun hh => hc hh.1), cellOfRow_cons_other (fun hh => hc hh.symm)]
      · rw [if_neg hr, if_neg hr, colsCell_colsPut hs.1, if_neg (fun hh => hr hh.2)]

theorem insertRowTerms_none {S : Type} (rowIx : ℕ) :
    ∀ (row : List (Monomial S)) (cols : List (ℕ × List (ℕ × ℚ))),
    colsSorted cols →
    ((∃ m2 ∈ row, m2.coeff ≠ 0 ∧ colsCell cols m2.var.index rowIx ≠ none) ∨
      ¬ rowNodup row) →
    insertRowTerms rowIx row cols = none := by
  intro row
  induction row with
  | nil =>
    intro cols hs h
    rcases h with ⟨m2, hm2, _⟩ | h
    · cases hm2
    · exact absurd (by unfold rowNodup; simp) h
  | cons m t ih =>
    intro cols hs h
    by_cases hz : m.coeff = 0
    · simp only [insertRowTerms, if_pos hz]
      apply ih cols hs
      rcases h with ⟨m2, hm2, hnz, hcol⟩ | h
      · rcases List.mem_cons.mp hm2 with he | he
        · exact absurd (he ▸ hz) hnz
        · exact Or.inl ⟨m2, he, hnz, hcol⟩
      · refine Or.inr ?_
        unfold rowNodup at h ⊢
        simpa [List.filter_cons, hz] using h
    · simp only [insertRowTerms, if_neg hz]
      rcases hcol : colsCell cols m.var.index rowIx with _ | v
      · rw [colsInsert_some_of cols m.var.index rowIx m.coeff hs hcol]
        show insertRowTerms rowIx t (colsPut cols m.var.index rowIx m.coeff) = none
        apply ih _ (colsPut_sorted ⟨hs.1, hs.2⟩)
        rcases h with ⟨m2, hm2, hnz, hc2⟩ | h
        · rcases List.mem_cons.mp hm2 with he | he
          · exact absurd (he ▸ hcol) (he ▸ hc2)
          · refine Or.inl ⟨m2, he, hnz, ?_⟩
            rw [colsCell_colsPut hs.1]
            by_cases hx : m2.var.index = m.var.index ∧ rowIx = rowIx
            · rw [if_pos hx]; simp
            · rw [if_neg hx]; exact hc2
        · unfold rowNodup at h
          rw [show (m :: t).filter (fun m => decide (m.coeff ≠ 0))
              = m :: t.filter (fun m => decide (m.coeff ≠ 0)) by
              simp [List.filter_cons, hz]] at h
          by_cases hp : (t.filter (fun m => decide (m.coeff ≠ 0))).Pairwise
              (fun m1 m2 => m1.var.index ≠ m2.var.index)
          · have hnall : ¬ ∀ b ∈ t.filter (fun m => decide (m.coeff ≠ 0)),
                m.var.index ≠ b.var.index :=
              fun hall => h (List.pairwise_cons.mpr ⟨hall, hp⟩)
            push_neg at hnall
            obtain ⟨m2, hm2f, heq⟩ := hnall
            obtain ⟨hm2t, hm2nz⟩ := List.mem_filter.mp hm2f
            refine Or.inl ⟨m2, hm2t, by simpa using hm2nz, ?_⟩
            rw [colsCell_colsPut hs.1, if_pos ⟨heq.symm, rfl⟩]
            simp
          · exact Or.inr (by unfold rowNodup; exact hp)
      · rw [colsInsert_none_of cols m.var.index rowIx m.coeff v hs hcol]

theorem buildCols_spec {S : Type} :
    ∀ (rows : List (List (Monomial S))) (rowIx : ℕ)
      (cols : List (ℕ × List (ℕ × ℚ))),
    colsSorted cols →
    (∀ c r2, rowIx ≤ r2 → colsCell cols c r2 = none) →
    (∀ row ∈ rows, rowNodup row) →
    ∃ colsF, buildCols rows rowIx cols = some colsF ∧ colsSorted colsF ∧
      (∀ c r2, colsCell colsF c r2
        = if rowIx ≤ r2 then (rows.get? (r2 - rowIx)).bind (fun row => cellOfRow row c)
          else colsCell cols c r2) := by
  intro rows
  induction rows with
  | nil =>
    intro rowIx cols hs hnone hnodup
    refine ⟨cols, rfl, hs, ?_⟩
    intro c r2
    by_cases h : rowIx ≤ r2
    · simp [h, hnone c r2 h]
    · simp [h]
  | cons row rest ih =>
    intro rowIx cols hs hnone hnodup
    obtain ⟨cols2, h1, h2, h3⟩ := insertRowTerms_go rowIx row cols hs
      (fun m hm hnz => hnone _ _ le_rfl) (hnodup row (List.mem_cons_self _ _))
    have hnone2 : ∀ c r2, rowIx + 1 ≤ r2 → colsCell cols2 c r2 = none := by
      intro c r2 hr
      rw [h3 c r2, if_neg (by omega)]
      exact hnone c r2 (by omega)
    obtain ⟨colsF, g1, g2, g3⟩ := ih (rowIx + 1) cols2 h2 hnone2
      (fun r hr => hnodup r (List.mem_cons_of_mem _ hr))
    refine ⟨colsF, ?_, g2, ?_⟩
    · simp only [buildCols, h1]
      exact g1
    · intro c r2
      rw [g3 c r2]
      by_cases ha : rowIx + 1 ≤ r2
      · rw [if_pos ha, if_pos (by omega)]
        have hsub : r2 - rowIx = (r2 - (rowIx + 1)) + 1 := by omega
        rw [hsub]
        rfl
      · rw [if_neg ha, h3 c r2]
        by_cases hb : r2 = rowIx
        · rw [if_pos hb, if_pos (by omega)]
          have h0 : r2 - rowIx = 0 := by omega
          rw [h0]
          have hcold : colsCell cols c r2 = none := hnone c r2 (by omega)
          rw [hcold]
          show (cellOfRow row c).or none = cellOfRow row c
          rcases cellOfRow row c with _ | q <;> rfl
        · rw [if_neg hb, if_neg (by omega)]

theorem buildCols_none {S : Type} :
    ∀ (rows : List (List (Monomial S))) (rowIx : ℕ)
      (cols : List (ℕ × List (ℕ × ℚ))),
    colsSorted cols →
    (∀ c r2, rowIx ≤ r2 → colsCell cols c r2 = none) →
    (∃ row ∈ rows, ¬ rowNodup row) →
    buildCols rows rowIx cols = none := by
  intro rows
  induction rows with
  | nil =>
    intro rowIx cols hs hnone hbad
    obtain ⟨r, hr, _⟩ := hbad
    cases hr
  | cons row rest ih =>
    intro rowIx cols hs hnone hbad
    by_cases hd : rowNodup row
    · obtain ⟨cols2, h1, h2, h3⟩ := insertRowTerms_go rowIx row cols hs
        (fun m hm hnz => hnone _ _ le_rfl) hd
      have hnone2 : ∀ c r2, rowIx + 1 ≤ r2 → colsCell cols2 c r2 = none := by
        intro c r2 hr
        rw [h3 c r2, if_neg (by omega)]
        exact hnone c r2 (by omega)
      obtain ⟨r, hr, hnd⟩ := hbad
      rcases List.mem_cons.mp hr with he | he
      · exact absurd (he ▸ hd) hnd
      · simp only [buildCols, h1]
        exact ih (rowIx + 1) cols2 h2 hnone2 ⟨r, he, hnd⟩
    · have hn := insertRowTerms_none rowIx row cols hs (Or.inr hd)
      simp only [buildCols, hn]

theorem buildColsDiag_go {S : Type} :
    ∀ (rows : List (Monomial S)) (cols : List (ℕ × List (ℕ × ℚ))),
    colsSorted cols →
    (∀ m ∈ rows, m.coeff ≠ 0 → colsCell cols m.var.index m.var.index = none) →
    rowNodup rows →
    ∃ cols2, buildColsDiag rows cols = some cols2 ∧ colsSorted cols2 ∧
      (∀ c r2, colsCell cols2 c r2
        = if c = r2 then (cellOfRow rows c).or (colsCell cols c r2)
          else colsCell cols c r2) := by
  intro rows
  induction rows with
  | nil =>
    intro cols hs hdisj hnodup
    refine ⟨cols, rfl, hs, ?_⟩
    intro c r2
    by_cases h : c = r2 <;> simp [cellOfRow, h]
  | cons m t ih =>
    intro cols hs hdisj hnodup
    by_cases hz : m.coeff = 0
    · simp only [buildColsDiag, if_pos hz]
      have hnodup2 : rowNodup t := by
        unfold rowNodup at hnodup ⊢
        simpa [List.filter_cons, hz] using hnodup
      obtain ⟨cols2, h1, h2, h3⟩ :=
        ih cols hs (fun m2 hm2 => hdisj m2 (List.mem_cons_of_mem _ hm2)) hnodup2
      refine ⟨cols2, h1, h2, ?_⟩
      intro c r2
      rw [h3 c r2, cellOfRow_cons_zero hz]
    · simp only [buildColsDiag, if_neg hz]
      have hcell : colsCell cols m.var.index m.var.index = none :=
        hdisj m (List.mem_cons_self _ _) hz
      rw [colsInsert_some_of cols m.var.index m.var.index m.coeff hs hcell]
      have hnod := hnodup
      unfold rowNodup at hnod
      rw [show (m :: t).filter (fun m => decide (m.coeff ≠ 0))
          = m :: t.filter (fun m => decide (m.coeff ≠ 0)) by
          simp [List.filter_cons, hz]] at hnod
      obtain ⟨hndhead, hndtail⟩ := List.pairwise_cons.mp hnod
      have hs2 : colsSorted (colsPut cols m.var.index m.var.index m.coeff) :=
        colsPut_sorted ⟨hs.1, hs.2⟩
      have hdisj2 : ∀ m2 ∈ t, m2.coeff ≠ 0 →
          colsCell (colsPut cols m.var.index m.var.index m.coeff)
            m2.var.index m2.var.index = none := by
        intro m2 hm2 hnz
        rw [colsCell_colsPut hs.1]
        have hne : ¬ (m2.var.index = m.var.index ∧ m2.var.index = m.var.index) := by
          rintro ⟨hh, -⟩
          exact hndhead m2 (List.mem_filter.mpr ⟨hm2, by simpa using hnz⟩) hh.symm
        rw [if_neg hne]
        exact hdisj m2 (List.mem_cons_of_mem _ hm2) hnz
      obtain ⟨cols2, h1, h2, h3⟩ := ih _ hs2 hdisj2 hndtail
      refine ⟨cols2, by simpa using h1, h2, ?_⟩
      intro c r2
      rw [h3 c r2]
      by_cases hd : c = r2
      · rw [if_pos hd, if_pos hd, colsCell_colsPut hs.1]
        by_cases hc : c = m.var.index
        · rw [if_pos ⟨hc, hd ▸ hc⟩, hc, cellOfRow_cons_self hz]
          have hnone : cellOfRow t m.var.index = none :=
            cellOfRow_none_of_fresh hndhead
          rw [hnone]
          rfl
        · rw [if_neg (fun hh => hc hh.1), cellOfRow_cons_other (fun hh => hc hh.symm)]
      · rw [if_neg hd, if_neg hd, colsCell_colsPut hs.1,
          if_neg (fun hh => hd (hh.1.trans hh.2.symm))]

theorem buildColsDiag_none {S : Type} :
    ∀ (rows : List (Monomial S)) (cols : List (ℕ × List (ℕ × ℚ))),
    colsSorted cols →
    ((∃ m2 ∈ rows, m2.coeff ≠ 0 ∧ colsCell cols m2.var.index m2.var.index ≠ none) ∨
      ¬ rowNodup rows) →
    buildColsDiag rows cols = none := by
  intro rows
  induction rows with
  | nil =>
    intro cols hs h
    rcases h with ⟨m2, hm2, _⟩ | h
    · cases hm2
    · exact absurd (by unfold rowNodup; simp) h
  | cons m t ih =>
    intro cols hs h
    by_cases hz : m.coeff = 0
    · simp only [buildColsDiag, if_pos hz]
      apply ih cols hs
      rcases h with ⟨m2, hm2, hnz, hcol⟩ | h
      · rcases List.mem_cons.mp hm2 with he | he
        · exact absurd (he ▸ hz) hnz
        · exact Or.inl ⟨m2, he, hnz, hcol⟩
      · refine Or.inr ?_
        unfold rowNodup at h ⊢
        simpa [List.filter_cons, hz] using h
    · simp only [buildColsDiag, if_neg hz]
      rcases hcol : colsCell cols m.var.index m.var.index with _ | v
      · rw [colsInsert_some_of cols m.var.index m.var.index m.coeff hs hcol]
        show buildColsDiag t (colsPut cols m.var.index m.var.index m.coeff) = none
        apply ih _ (colsPut_sorted ⟨hs.1, hs.2⟩)
        rcases h with ⟨m2, hm2, hnz, hc2⟩ | h
        · rcases List.mem_cons.mp hm2 with he | he
          · exact absurd (he ▸ hcol) (he ▸ hc2)
          · refine Or.inl ⟨m2, he, hnz, ?_⟩
            rw [colsCell_colsPut hs.1]
            by_cases hx : m2.var.index = m.var.index ∧ m2.var.index = m.var.index
            · rw [if_pos hx]; simp
            · rw [if_neg hx]; exact hc2
        · unfold rowNodup at h
          rw [show (m :: t).filter (fun m => decide (m.coeff ≠ 0))
              = m :: t.filter (fun m => decide (m.coeff ≠ 0)) by
              simp [List.filter_cons, hz]] at h
          by_cases hp : (t.filter (fun m => decide (m.coeff ≠ 0))).Pairwise
              (fun m1 m2 => m1.var.index ≠ m2.var.index)
          · have hnall : ¬ ∀ b ∈ t.filter (fun m => decide (m.coeff ≠ 0)),
                m.var.index ≠ b.var.index :=
              fun hall => h (List.pairwise_cons.mpr ⟨hall, hp⟩)
            push_neg at hnall
            obtain ⟨m2, hm2f, heq⟩ := hnall
            obtain ⟨hm2t, hm2nz⟩ := List.mem_filter.mp hm2f
            refine Or.inl ⟨m2, hm2t, by simpa using hm2nz, ?_⟩
            rw [colsCell_colsPut hs.1, if_pos ⟨heq.symm, heq.symm⟩]
            simp
          · exact Or.inr (by unfold rowNodup; exact hp)
      · rw [colsInsert_none_of cols m.var.index m.var.index m.coeff v hs hcol]

/-- Number of cells stored strictly before column `c` in the packed layout. -/
def countBefore (cols : List (ℕ × List (ℕ × ℚ))) (c : ℕ) : ℕ :=
  ((cols.filter (fun p => decide (p.1 < c))).map (fun p => p.2.length)).sum

/-- All row indices of the column map, in packing order. -/
def colsFlatRows (cols : List (ℕ × List (ℕ × ℚ))) : List ℕ :=
  (cols.map (fun p => p.2.map Prod.fst)).flatten

/-- All cell values of the column map, in packing order. -/
def colsFlatVals (cols : List (ℕ × List (ℕ × ℚ))) : List ℚ :=
  (cols.map (fun p => p.2.map Prod.snd)).flatten

theorem countBefore_nil (c : ℕ) : countBefore [] c = 0 := rfl

theorem countBefore_cons (k : ℕ) (inner : List (ℕ × ℚ))
    (t : List (ℕ × List (ℕ × ℚ))) (c : ℕ) :
    countBefore ((k, inner) :: t) c
      = (if k < c then inner.length else 0) + countBefore t c := by
  unfold countBefore
  by_cases h : k < c <;> simp [List.filter_cons, h]

theorem countBefore_zero {t : List (ℕ × List (ℕ × ℚ))} {c : ℕ}
    (h : ∀ p ∈ t, ¬ p.1 < c) : countBefore t c = 0 := by
  unfold countBefore
  rw [List.filter_eq_nil_iff.mpr (by intro p hp; simpa using h p hp)]
  rfl

theorem packCols_spec :
    ∀ (cols : List (ℕ × List (ℕ × ℚ))) (cur : ℕ) (ip ind : List ℕ)
      (dat : List ℚ) (N : ℕ),
    keysSorted cols → (∀ p ∈ cols, cur ≤ p.1) → (∀ p ∈ cols, p.1 ≤ N) →
    (packCols cols cur ip ind dat).2.2.1 = ind ++ colsFlatRows cols ∧
    (packCols cols cur ip ind dat).2.2.2 = dat ++ colsFlatVals cols ∧
    (packCols cols cur ip ind dat).2.1
        ++ List.replicate (N + 1 - (packCols cols cur ip ind dat).1)
            (dat ++ colsFlatVals cols).length
      = ip ++ (List.range' cur (N + 1 - cur)).map
          (fun j => dat.length + countBefore cols j) := by
  intro cols
  induction cols with
  | nil =>
    intro cur ip ind dat N _ _ _
    refine ⟨by simp [packCols, colsFlatRows], by simp [packCols, colsFlatVals], ?_⟩
    show ip ++ List.replicate (N + 1 - cur) (dat ++ colsFlatVals []).length
        = ip ++ (List.range' cur (N + 1 - cur)).map (fun j => dat.length + countBefore [] j)
    have : (List.range' cur (N + 1 - cur)).map (fun j => dat.length + countBefore [] j)
        = List.replicate (N + 1 - cur) dat.length := by
      simp only [countBefore_nil, Nat.add_zero]
      rw [List.map_const', List.length_range']
    rw [this]
    simp [colsFlatVals]
  | cons p t ih =>
    intro cur ip ind dat N hs hlo hhi
    obtain ⟨col, inner⟩ := p
    have hcur : cur ≤ col := hlo (col, inner) (List.mem_cons_self _ _)
    have hcolN : col ≤ N := hhi (col, inner) (List.mem_cons_self _ _)
    obtain ⟨hhead, htail⟩ := List.pairwise_cons.mp hs
    have hlo2 : ∀ p ∈ t, col + 1 ≤ p.1 := fun p hp => hhead p hp
    have hhi2 : ∀ p ∈ t, p.1 ≤ N := fun p hp => hhi p (List.mem_cons_of_mem _ hp)
    have hpk : packCols ((col, inner) :: t) cur ip ind dat
        = packCols t (col + 1)
            (ip ++ List.replicate (col + 1 - cur) dat.length)
            (ind ++ inner.map Prod.fst)
            (dat ++ inner.map Prod.snd) := rfl
    obtain ⟨ih1, ih2, ih3⟩ := ih (col + 1)
      (ip ++ List.replicate (col + 1 - cur) dat.length)
      (ind ++ inner.map Prod.fst) (dat ++ inner.map Prod.snd) N htail hlo2 hhi2
    have hflatR : colsFlatRows ((col, inner) :: t)
        = inner.map Prod.fst ++ colsFlatRows t := by
      simp [colsFlatRows]
    have hflatV : colsFlatVals ((col, inner) :: t)
        = inner.map Prod.snd ++ colsFlatVals t := by
      simp [colsFlatVals]
    refine ⟨?_, ?_, ?_⟩
    · rw [hpk, ih1, hflatR, List.append_assoc]
    · rw [hpk, ih2, hflatV, List.append_assoc]
    · rw [hpk, hflatV, show dat ++ (inner.map Prod.snd ++ colsFlatVals t)
          = (dat ++ inner.map Prod.snd) ++ colsFlatVals t from (List.append_assoc _ _ _).symm,
        ih3]
      have hsplit : List.range' cur (N + 1 - cur)
          = List.range' cur (col + 1 - cur) ++ List.range' (col + 1) (N + 1 - (col + 1)) := by
        have h1 := List.range'_append cur (col + 1 - cur) (N + 1 - (col + 1)) 1
        rw [one_mul] at h1
        rw [show cur + (col + 1 - cur) = col + 1 by omega] at h1
        rw [show N + 1 - (col + 1) + (col + 1 - cur) = N + 1 - cur by omega] at h1
        exact h1.symm
      rw [hsplit, List.map_append]
      have hpart1 : (List.range' cur (col + 1 - cur)).map
            (fun j => dat.length + countBefore ((col, inner) :: t) j)
          = List.replicate (col + 1 - cur) dat.length := by
        have hcongr : ∀ j ∈ List.range' cur (col + 1 - cur),
            dat.length + countBefore ((col, inner) :: t) j = dat.length := by
          intro j hj
          have hj2 := List.mem_range'_1.mp hj
          have hjcol : j ≤ col := by omega
          rw [countBefore_cons, if_neg (by omega),
            countBefore_zero (fun p hp => by
              have := hlo2 p hp
              omega)]
          omega
        rw [List.map_congr_left hcongr, List.map_const', List.length_range']
      have hpart2 : (List.range' (col + 1) (N + 1 - (col + 1))).map
            (fun j => dat.length + countBefore ((col, inner) :: t) j)
          = (List.range' (col + 1) (N + 1 - (col + 1))).map
            (fun j => (dat ++ inner.map Prod.snd).length + countBefore t j) := by
        apply List.map_congr_left
        intro j hj
        have hj2 := List.mem_range'_1.mp hj
        rw [countBefore_cons, if_pos (by omega)]
        simp [Nat.add_assoc]
      rw [hpart1, hpart2, List.append_assoc]

theorem packCsc_eq {cols : List (ℕ × List (ℕ × ℚ))} (R N len : ℕ)
    (hs : keysSorted cols) (hk : ∀ p ∈ cols, p.1 ≤ N) :
    packCsc (some R) (some N) len cols
      = ⟨R, N, (List.range' 0 (N + 1)).map (fun j => countBefore cols j),
          colsFlatRows cols, colsFlatVals cols⟩ := by
  obtain ⟨h1, h2, h3⟩ := packCols_spec cols 0 [] [] [] N hs (fun p _ => Nat.zero_le _) hk
  rcases hp : packCols cols 0 [] [] [] with ⟨cur, ip, ind, dat⟩
  rw [hp] at h1 h2 h3
  simp only [List.nil_append, List.length_nil, Nat.zero_add, Nat.sub_zero] at h1 h2 h3
  unfold packCsc
  rw [hp]
  simp only [Option.getD_some, CscMat.mk.injEq]
  subst h1
  subst h2
  simp only [eq_self_iff_true, and_true, true_and]
  exact h3

theorem countBefore_succ_none :
    ∀ (cols : List (ℕ × List (ℕ × ℚ))) (c : ℕ), alook cols c = none →
    countBefore cols (c + 1) = countBefore cols c := by
  intro cols
  induction cols with
  | nil => intro c _; rfl
  | cons p t ih =>
    intro c ha
    obtain ⟨k, inner⟩ := p
    simp only [alook] at ha
    by_cases hk : k = c
    · rw [if_pos hk] at ha; cases ha
    · rw [if_neg hk] at ha
      rw [countBefore_cons, countBefore_cons, ih c ha]
      by_cases h2 : k < c
      · rw [if_pos h2, if_pos (by omega)]
      · rw [if_neg h2, if_neg (by omega)]

theorem countBefore_succ_some :
    ∀ (cols : List (ℕ × List (ℕ × ℚ))) (c : ℕ) (inner : List (ℕ × ℚ)),
    keysSorted cols → alook cols c = some inner →
    countBefore cols (c + 1) = countBefore cols c + inner.length := by
  intro cols
  induction cols with
  | nil => intro c inner _ ha; cases ha
  | cons p t ih =>
    intro c inner hs ha
    obtain ⟨k, kin⟩ := p
    obtain ⟨hhead, htail⟩ := List.pairwise_cons.mp hs
    simp only [alook] at ha
    by_cases hk : k = c
    · rw [if_pos hk] at ha
      injection ha with ha
      subst ha
      subst hk
      rw [countBefore_cons, countBefore_cons, if_pos (by omega), if_neg (by omega),
        countBefore_succ_none t k (alook_none_of_lt htail (fun p hp => hhead p hp))]
      omega
    · rw [if_neg hk] at ha
      rw [countBefore_cons, countBefore_cons, ih c inner htail ha]
      by_cases h2 : k < c
      · rw [if_pos h2, if_pos (by omega)]; omega
      · rw [if_neg h2, if_neg (by omega)]; omega

theorem alook_mem {β : Type} :
    ∀ (l : List (ℕ × β)) (c : ℕ) (v : β), alook l c = some v → (c, v) ∈ l := by
  intro l
  induction l with
  | nil => intro c v h; cases h
  | cons p t ih =>
    intro c v h
    obtain ⟨k, v2⟩ := p
    simp only [alook] at h
    by_cases hk : k = c
    · rw [if_pos hk] at h
      injection h with h
      subst h
      subst hk
      exact List.mem_cons_self _ _
    · rw [if_neg hk] at h
      exact List.mem_cons_of_mem _ (ih c v h)

theorem colsFlat_block :
    ∀ (cols : List (ℕ × List (ℕ × ℚ))) (c : ℕ) (inner : List (ℕ × ℚ)),
    keysSorted cols → alook cols c = some inner →
    ∀ i, i < inner.length →
      (colsFlatRows cols).get? (countBefore cols c + i) = (inner.map Prod.fst).get? i ∧
      (colsFlatVals cols).get? (countBefore cols c + i) = (inner.map Prod.snd).get? i := by
  intro cols
  induction cols with
  | nil => intro c inner _ ha; cases ha
  | cons p t ih =>
    intro c inner hs ha i hi
    obtain ⟨k, kin⟩ := p
    obtain ⟨hhead, htail⟩ := List.pairwise_cons.mp hs
    have hflatR : colsFlatRows ((k, kin) :: t) = kin.map Prod.fst ++ colsFlatRows t := by
      simp [colsFlatRows]
    have hflatV : colsFlatVals ((k, kin) :: t) = kin.map Prod.snd ++ colsFlatVals t := by
      simp [colsFlatVals]
    simp only [alook] at ha
    by_cases hk : k = c
    · rw [if_pos hk] at ha
      injection ha with ha
      subst ha
      subst hk
      have hcb : countBefore ((k, kin) :: t) k = 0 := by
        rw [countBefore_cons, if_neg (by omega),
          countBefore_zero (fun p hp => by have := hhead p hp; omega)]
      rw [hcb, hflatR, hflatV]
      simp only [Nat.zero_add]
      constructor
      · rw [List.get?_append (by simpa using hi)]
      · rw [List.get?_append (by simpa using hi)]
    · rw [if_neg hk] at ha
      have hkc : k < c := by
        have := hhead _ (alook_mem t c inner ha)
        simpa using this
      have hcb : countBefore ((k, kin) :: t) c = kin.length + countBefore t c := by
        rw [countBefore_cons, if_pos hkc]
      obtain ⟨ih1, ih2⟩ := ih c inner htail ha i hi
      rw [hcb, hflatR, hflatV]
      constructor
      · rw [List.get?_append_right (by simp; omega)]
        simpa [Nat.add_assoc] using ih1
      · rw [List.get?_append_right (by simp; omega)]
        simpa [Nat.add_assoc] using ih2

theorem findSome_block (r : ℕ) :
    ∀ (inner : List (ℕ × ℚ)) (lo : ℕ) (ind : List ℕ) (dat : List ℚ),
    (∀ i, i < inner.length → ind.get? (lo + i) = (inner.map Prod.fst).get? i) →
    (∀ i, i < inner.length → dat.get? (lo + i) = (inner.map Prod.snd).get? i) →
    (List.range' lo inner.length).findSome? (fun k =>
      match ind.get? k, dat.get? k with
      | some r2, some v => if r2 = r then some v else none
      | _, _ => none) = alook inner r := by
  intro inner
  induction inner with
  | nil => intro lo ind dat _ _; rfl
  | cons p t ih =>
    intro lo ind dat hind hdat
    obtain ⟨r2, v2⟩ := p
    have h0 : ind.get? lo = some r2 := by
      have := hind 0 (by simp)
      simpa using this
    have h0d : dat.get? lo = some v2 := by
      have := hdat 0 (by simp)
      simpa using this
    have hlen : (r2, v2) :: t = [(r2, v2)] ++ t := rfl
    show (List.range' lo (t.length + 1)).findSome? _ = _
    rw [List.range'_succ, List.findSome?_cons, h0, h0d]
    by_cases hr : r2 = r
    · simp only [if_pos hr, alook, hr]
      rfl
    · simp only [if_neg hr, alook, if_neg hr]
      apply ih (lo + 1)
      · intro i hi
        have := hind (i + 1) (by simpa using Nat.succ_lt_succ hi)
        rw [show lo + (i + 1) = lo + 1 + i by omega] at this
        simpa using this
      · intro i hi
        have := hdat (i + 1) (by simpa using Nat.succ_lt_succ hi)
        rw [show lo + (i + 1) = lo + 1 + i by omega] at this
        simpa using this

theorem cscCell_mk (R N : ℕ) (ipt ind : List ℕ) (dat : List ℚ) (r c : ℕ) :
    cscCell ⟨R, N, ipt, ind, dat⟩ r c
      = match ipt.get? c, ipt.get? (c + 1) with
        | some lo, some hi =>
          (List.range' lo (hi - lo)).findSome? fun k =>
            match ind.get? k, dat.get? k with
            | some r2, some v => if r2 = r then some v else none
            | _, _ => none
        | _, _ => none := rfl

theorem cscCell_packCsc {cols : List (ℕ × List (ℕ × ℚ))} (R N len : ℕ)
    (hs : keysSorted cols) (hk : ∀ p ∈ cols, p.1 ≤ N) (r c : ℕ) (hc : c < N) :
    cscCell (packCsc (some R) (some N) len cols) r c = colsCell cols c r := by
  rw [packCsc_eq R N len hs hk, cscCell_mk]
  have hgc : ((List.range' 0 (N + 1)).map (fun j => countBefore cols j)).get? c
      = some (countBefore cols c) := by
    rw [List.get?_map, List.get?_eq_getElem?, List.getElem?_range' _ _ (by omega), one_mul]
    simp
  have hgc2 : ((List.range' 0 (N + 1)).map (fun j => countBefore cols j)).get? (c + 1)
      = some (countBefore cols (c + 1)) := by
    rw [List.get?_map, List.get?_eq_getElem?, List.getElem?_range' _ _ (by omega), one_mul]
    simp
  rw [hgc, hgc2]
  show (List.range' (countBefore cols c)
      (countBefore cols (c + 1) - countBefore cols c)).findSome? _ = _
  rcases ha : alook cols c with _ | inner
  · rw [countBefore_succ_none cols c ha]
    simp only [Nat.sub_self, List.range']
    show none = colsCell cols c r
    unfold colsCell
    rw [ha]
    rfl
  · rw [countBefore_succ_some cols c inner hs ha]
    rw [show countBefore cols c + inner.length - countBefore cols c = inner.length by omega]
    have hblock := colsFlat_block cols c inner hs ha
    rw [findSome_block r inner (countBefore cols c) (colsFlatRows cols) (colsFlatVals cols)
      (fun i hi => (hblock i hi).1) (fun i hi => (hblock i hi).2)]
    unfold colsCell
    rw [ha]
    rfl

theorem colsInsert_keys :
    ∀ (cols : List (ℕ × List (ℕ × ℚ))) (cix r : ℕ) (c : ℚ)
      (cols2 : List (ℕ × List (ℕ × ℚ))),
    colsInsert cols cix r c = some cols2 →
    ∀ p ∈ cols2, p.1 = cix ∨ ∃ q ∈ cols, p.1 = q.1 := by
  intro cols
  induction cols with
  | nil =>
    intro cix r c cols2 h p hp
    simp only [colsInsert] at h
    injection h with h
    subst h
    rcases List.mem_singleton.mp hp with he
    exact Or.inl (by simp [he])
  | cons q0 t ih =>
    intro cix r c cols2 h p hp
    obtain ⟨k, inner⟩ := q0
    simp only [colsInsert] at h
    by_cases h1 : cix < k
    · rw [if_pos h1] at h
      injection h with h
      subst h
      rcases List.mem_cons.mp hp with he | he
      · exact Or.inl (by simp [he])
      · exact Or.inr ⟨p, he, rfl⟩
    · by_cases h2 : cix = k
      · rw [if_neg h1, if_pos h2] at h
        obtain ⟨inner2, _, he⟩ := Option.map_eq_some'.mp h
        subst he
        rcases List.mem_cons.mp hp with he | he
        · exact Or.inl (by simp [he, h2])
        · exact Or.inr ⟨p, List.mem_cons_of_mem _ he, rfl⟩
      · rw [if_neg h1, if_neg h2] at h
        obtain ⟨t2, ht2, he⟩ := Option.map_eq_some'.mp h
        subst he
        rcases List.mem_cons.mp hp with he | he
        · exact Or.inr ⟨(k, inner), List.mem_cons_self _ _, by simp [he]⟩
        · rcases ih cix r c t2 ht2 p he with hl | ⟨q, hq, he2⟩
          · exact Or.inl hl
          · exact Or.inr ⟨q, List.mem_cons_of_mem _ hq, he2⟩

theorem insertRowTerms_keys {S : Type} (rowIx : ℕ) :
    ∀ (row : List (Monomial S)) (cols cols2 : List (ℕ × List (ℕ × ℚ))),
    insertRowTerms rowIx row cols = some cols2 →
    ∀ p ∈ cols2, (∃ m ∈ row, p.1 = m.var.index) ∨ ∃ q ∈ cols, p.1 = q.1 := by
  intro row
  induction row with
  | nil =>
    intro cols cols2 h p hp
    injection h with h
    subst h
    exact Or.inr ⟨p, hp, rfl⟩
  | cons m t ih =>
    intro cols cols2 h p hp
    simp only [insertRowTerms] at h
    by_cases hz : m.coeff = 0
    · rw [if_pos hz] at h
      rcases ih cols cols2 h p hp with ⟨m2, hm2, he⟩ | hr
      · exact Or.inl ⟨m2, List.mem_cons_of_mem _ hm2, he⟩
      · exact Or.inr hr
    · rw [if_neg hz] at h
      rcases hci : colsInsert cols m.var.index rowIx m.coeff with _ | mid
      · rw [hci] at h; cases h
      · rw [hci] at h
        rcases ih mid cols2 h p hp with ⟨m2, hm2, he⟩ | ⟨q, hq, he⟩
        · exact Or.inl ⟨m2, List.mem_cons_of_mem _ hm2, he⟩
        · rcases colsInsert_keys cols m.var.index rowIx m.coeff mid hci q hq with hl | ⟨q2, hq2, he2⟩
          · exact Or.inl ⟨m, List.mem_cons_self _ _, he ▸ hl⟩
          · exact Or.inr ⟨q2, hq2, he.trans he2⟩

theorem buildCols_keys {S : Type} :
    ∀ (rows : List (List (Monomial S))) (rowIx : ℕ)
      (cols colsF : List (ℕ × List (ℕ × ℚ))),
    buildCols rows rowIx cols = some colsF →
    ∀ p ∈ colsF, (∃ row ∈ rows, ∃ m ∈ row, p.1 = m.var.index) ∨ ∃ q ∈ cols, p.1 = q.1 := by
  intro rows
  induction rows with
  | nil =>
    intro rowIx cols colsF h p hp
    injection h with h
    subst h
    exact Or.inr ⟨p, hp, rfl⟩
  | cons row rest ih =>
    intro rowIx cols colsF h p hp
    simp only [buildCols] at h
    rcases hin : insertRowTerms rowIx row cols with _ | mid
    · rw [hin] at h; cases h
    · rw [hin] at h
      rcases ih (rowIx + 1) mid colsF h p hp with ⟨row2, hr2, hm⟩ | ⟨q, hq, he⟩
      · exact Or.inl ⟨row2, List.mem_cons_of_mem _ hr2, hm⟩
      · rcases insertRowTerms_keys rowIx row cols mid hin q hq with ⟨m2, hm2, he2⟩ | ⟨q2, hq2, he2⟩
        · exact Or.inl ⟨row, List.mem_cons_self _ _, m2, hm2, he.trans he2⟩
        · exact Or.inr ⟨q2, hq2, he.trans he2⟩

theorem buildColsDiag_keys {S : Type} :
    ∀ (rows : List (Monomial S)) (cols colsF : List (ℕ × List (ℕ × ℚ))),
    buildColsDiag rows cols = some colsF →
    ∀ p ∈ colsF, (∃ m ∈ rows, p.1 = m.var.index) ∨ ∃ q ∈ cols, p.1 = q.1 := by
  intro rows
  induction rows with
  | nil =>
    intro cols colsF h p hp
    injection h with h
    subst h
    exact Or.inr ⟨p, hp, rfl⟩
  | cons m t ih =>
    intro cols colsF h p hp
    simp only [buildColsDiag] at h
    by_cases hz : m.coeff = 0
    · rw [if_pos hz] at h
      rcases ih cols colsF h p hp with ⟨m2, hm2, he⟩ | hr
      · exact Or.inl ⟨m2, List.mem_cons_of_mem _ hm2, he⟩
      · exact Or.inr hr
    · rw [if_neg hz] at h
      rcases hci : colsInsert cols m.var.index m.var.index m.coeff with _ | mid
      · rw [hci] at h; cases h
      · rw [hci] at h
        rcases ih mid colsF h p hp with ⟨m2, hm2, he⟩ | ⟨q, hq, he⟩
        · exact Or.inl ⟨m2, List.mem_cons_of_mem _ hm2, he⟩
        · rcases colsInsert_keys cols m.var.index m.var.index m.coeff mid hci q hq with hl | ⟨q2, hq2, he2⟩
          · exact Or.inl ⟨m, List.mem_cons_self _ _, he ▸ hl⟩
          · exact Or.inr ⟨q2, hq2, he.trans he2⟩

theorem pair_sublist_of_get {α : Type} :
    ∀ (l : List α) (i j : ℕ) (a b : α), i < j →
    l.get? i = some a → l.get? j = some b → [a, b].Sublist l := by
  intro l
  induction l with
  | nil => intro i j a b _ ha _; cases ha
  | cons x t ih =>
    intro i j a b hij ha hb
    cases i with
    | zero =>
      simp only [List.get?] at ha
      injection ha with ha
      subst ha
      cases j with
      | zero => omega
      | succ j2 =>
        simp only [List.get?] at hb
        exact List.Sublist.cons₂ _ (List.singleton_sublist.mpr (List.get?_mem hb))
    | succ i2 =>
      cases j with
      | zero => omega
      | succ j2 =>
        simp only [List.get?] at ha hb
        exact List.Sublist.cons _ (ih i2 j2 a b (by omega) ha hb)

theorem not_rowNodup_of_pair {S : Type} {row : List (Monomial S)} {i j : ℕ}
    {mi mj : Monomial S} (hij : i < j) (hi : row.get? i = some mi)
    (hj : row.get? j = some mj) (hnzi : mi.coeff ≠ 0) (hnzj : mj.coeff ≠ 0)
    (hvar : mi.var.index = mj.var.index) : ¬ rowNodup row := by
  intro hnd
  have hnd2 : (row.filter (fun m => decide (m.coeff ≠ 0))).Pairwise
      (fun m1 m2 => m1.var.index ≠ m2.var.index) := hnd
  have hsub : [mi, mj].Sublist row := pair_sublist_of_get row i j mi mj hij hi hj
  have hsubf : [mi, mj].Sublist (row.filter (fun m => decide (m.coeff ≠ 0))) := by
    have h2 := hsub.filter (fun m => decide (m.coeff ≠ 0))
    rwa [show [mi, mj].filter (fun m => decide (m.coeff ≠ 0)) = [mi, mj] by
      simp [List.filter, hnzi, hnzj]] at h2
  obtain ⟨hh, -⟩ := List.pairwise_cons.mp (hnd2.sublist hsubf)
  exact hh mj (List.mem_cons_self _ _) hvar

/-- **C10.** CSC assembly is partial on duplicate variables: `as_csc_matrix`
(and `as_diag_csc_matrix`) asserts that no (column, row) cell is written
twice, so converting a constraint set in which some row contains two
monomials with nonzero coefficients on the same variable panics with
`assertion failed: old.is_none()`; under the precondition that every row's
nonzero-coefficient variables are pairwise distinct (and, for concrete
dimensions, that every variable index is below the column count), the
assertion is unreachable and the emitted matrix contains exactly one entry
per (row, variable), holding that monomial's coefficient — read back cell
by cell, `cscCell` of the result equals `rowCell` of the input (and the
diagonal of `cellOfRow` for the diagonal variant). -/
theorem as_csc_matrix_spec {S : Type} :
    (∀ (nr nc : Option ℕ) (rows : List (List (Monomial S)))
       (row : List (Monomial S)) (i j : ℕ) (mi mj : Monomial S),
      row ∈ rows → i < j → row.get? i = some mi → row.get? j = some mj →
      mi.coeff ≠ 0 → mj.coeff ≠ 0 → mi.var.index = mj.var.index →
      as_csc_matrix nr nc rows = .panicked "assertion failed: old.is_none()") ∧
    (∀ (nr nc : Option ℕ) (rows : List (Monomial S)) (i j : ℕ) (mi mj : Monomial S),
      i < j → rows.get? i = some mi → rows.get? j = some mj →
      mi.coeff ≠ 0 → mj.coeff ≠ 0 → mi.var.index = mj.var.index →
      as_diag_csc_matrix nr nc rows = .panicked "assertion failed: old.is_none()") ∧
    (∀ (R N : ℕ) (rows : List (List (Monomial S))),
      (∀ row ∈ rows, rowNodup row) →
      (∀ row ∈ rows, ∀ m ∈ row, m.var.index < N) →
      ∃ mat, as_csc_matrix (some R) (some N) rows = .ok mat ∧
        ∀ r c, c < N → cscCell mat r c = rowCell rows r c) ∧
    (∀ (R N : ℕ) (rows : List (Monomial S)),
      rowNodup rows →
      (∀ m ∈ rows, m.var.index < N) →
      ∃ mat, as_diag_csc_matrix (some R) (some N) rows = .ok mat ∧
        ∀ r c, c < N → cscCell mat r c
          = if c = r then cellOfRow rows c else none) := by
  have hempty : ∀ (c r2 : ℕ), colsCell ([] : List (ℕ × List (ℕ × ℚ))) c r2 = none := by
    intro c r2; rfl
  have hsempty : colsSorted ([] : List (ℕ × List (ℕ × ℚ))) := by
    constructor
    · exact List.Pairwise.nil
    · intro p hp; cases hp
  refine ⟨?_, ?_, ?_, ?_⟩
  · intro nr nc rows row i j mi mj hrow hij hi hj hnzi hnzj hvar
    have hbad : ¬ rowNodup row := not_rowNodup_of_pair hij hi hj hnzi hnzj hvar
    unfold as_csc_matrix
    rw [buildCols_none rows 0 [] hsempty (fun c r2 _ => hempty c r2) ⟨row, hrow, hbad⟩]
  · intro nr nc rows i j mi mj hij hi hj hnzi hnzj hvar
    have hbad : ¬ rowNodup rows := not_rowNodup_of_pair hij hi hj hnzi hnzj hvar
    unfold as_diag_csc_matrix
    rw [buildColsDiag_none rows [] hsempty (Or.inr hbad)]
  · intro R N rows hnodup hidx
    obtain ⟨colsF, heq, hsF, hcell⟩ :=
      buildCols_spec rows 0 [] hsempty (fun c r2 _ => hempty c r2) hnodup
    have hkeys : ∀ p ∈ colsF, p.1 ≤ N := by
      intro p hp
      rcases buildCols_keys rows 0 [] colsF heq p hp with ⟨row, hrow, m, hm, he⟩ | ⟨q, hq, _⟩
      · exact Nat.le_of_lt (he ▸ hidx row hrow m hm)
      · cases hq
    refine ⟨packCsc (some R) (some N) rows.length colsF, ?_, ?_⟩
    · unfold as_csc_matrix
      rw [heq]
    · intro r c hc
      rw [cscCell_packCsc R N rows.length hsF.1 hkeys r c hc, hcell c r,
        if_pos (Nat.zero_le r)]
      rfl
  · intro R N rows hnodup hidx
    obtain ⟨colsF, heq, hsF, hcell⟩ :=
      buildColsDiag_go rows [] hsempty (fun m _ _ => hempty _ _) hnodup
    have hkeys : ∀ p ∈ colsF, p.1 ≤ N := by
      intro p hp
      rcases buildColsDiag_keys rows [] colsF heq p hp with ⟨m, hm, he⟩ | ⟨q, hq, _⟩
      · exact Nat.le_of_lt (he ▸ hidx m hm)
      · cases hq
    refine ⟨packCsc (some R) (some N) rows.length colsF, ?_, ?_⟩
    · unfold as_diag_csc_matrix
      rw [heq]
    · intro r c hc
      rw [cscCell_packCsc R N rows.length hsF.1 hkeys r c hc, hcell c r]
      by_cases hcr : c = r
      · rw [if_pos hcr, if_pos hcr, hempty, Option.or_none]
      · rw [if_neg hcr, if_neg hcr, hempty]

/-- Concrete runs of `as_csc_matrix`: a duplicated nonzero variable in one
row panics, and a well-formed one-cell system is emitted faithfully. -/
theorem as_csc_matrix_spec_witness :
    (as_csc_matrix (S := ℕ) none none
        [[⟨⟨0, 0⟩, (2:ℚ)⟩, ⟨⟨0, 0⟩, (3:ℚ)⟩]]
      = .panicked "assertion failed: old.is_none()") ∧
    (∃ mat, as_csc_matrix (S := ℕ) (some 1) (some 1) [[⟨⟨0, 0⟩, (2:ℚ)⟩]] = .ok mat ∧
      ∀ r c, c < 1 → cscCell mat r c = rowCell [[⟨⟨0, 0⟩, (2:ℚ)⟩]] r c) := by
  constructor
  · exact as_csc_matrix_spec.1 none none _ _ 0 1 ⟨⟨0, 0⟩, (2:ℚ)⟩ ⟨⟨0, 0⟩, (3:ℚ)⟩
      (List.mem_cons_self _ _) (by omega) rfl rfl (by norm_num) (by norm_num) rfl
  · exact as_csc_matrix_spec.2.2.1 1 1 _
      (by
        intro row hrow
        rcases List.mem_singleton.mp hrow with he
        subst he
        unfold rowNodup
        simp [List.filter])
      (by
        intro row hrow m hm
        rcases List.mem_singleton.mp hrow with he
        subst he
        rcases List.mem_singleton.mp hm with he2
        subst he2
        norm_num)

/-- `layout::miosqp::AnySol`: the solver-variable tags of the crossing
minimizer (`X` ordering variables, `C` crossing variables, `T` auxiliaries). -/
inductive AnySol where
  | X (l a b : ℕ)
  | C (l u1 v1 u2 v2 : ℕ)
  | T (idx : ℕ)
  deriving DecidableEq, Repr

/-- One hop's two horizontal endpoints (`Hop { mhr, nhr, .. }`); the crossing
minimizer reads only these two fields of a `Hop`. -/
structure HopM where
  mhr : ℕ
  nhr : ℕ
  deriving DecidableEq, Repr

/-- The fields of `Placement` read by `minimize_edge_crossing`.  `BTreeMap`s
are key-sorted association lists; `locs_by_level` keeps only each rank's
population (the function reads only `locs.len()` and the index range
`0..locs.len()`); `hops_by_edge` keeps each hop as `(lvl, (mhr, nhr))` and
`node_to_loc` only its `Loc::Node`-keyed entries (the ones this function
looks up). -/
structure PlacementM (V : Type) where
  locs_by_level : List (ℕ × ℕ)
  hops_by_level : List (ℕ × List HopM)
  hops_by_edge : List ((V × V) × List (ℕ × ℕ × ℕ))
  node_to_loc : List (V × ℕ × ℕ)

/-- `hops_by_level.keys().max().unwrap()` (the call site guarantees the map is
nonempty, so the `0` default is never taken). -/
def maxKey {β : Type} (l : List (ℕ × β)) : ℕ :=
  (l.map Prod.fst).foldl max 0

/-- The per-rank ordering constraints (source lines 1846–1873): antisymmetry
rows `1 ≤ x_ab + x_ba ≤ 1` and adapted transitivity rows
`-1 ≤ -x_cb - x_ba + x_ca`. Variable registration order follows the source:
`x_ab`, `x_ba`, then per eligible `c` first `x_ca` then `x_cb`. -/
def rankCsp (st : Vars AnySol × Constraints AnySol) (l n : ℕ) :
    Vars AnySol × Constraints AnySol :=
  (List.range n).foldl (fun st a =>
    (List.range n).foldl (fun st b =>
      if a ≠ b then
        let (xab, v1) := st.1.get (AnySol.X l a b)
        let (xba, v2) := v1.get (AnySol.X l b a)
        let cs1 := st.2.eqc [xab, xba] 1
        (List.range n).foldl (fun st2 c =>
          if b ≠ c ∧ a ≠ c then
            let (xca, w1) := st2.1.get (AnySol.X l c a)
            let (xcb, w2) := w1.get (AnySol.X l c b)
            (w2, st2.2.push (-1, [xcb.neg, xba.neg, xca], .inf))
          else st2) (v2, cs1)
      else st) st) st

/-- The `for (rank, locs) in locs_by_level.iter()` constraint loop. -/
def locsCsp (locs : List (ℕ × ℕ)) : Vars AnySol × Constraints AnySol :=
  locs.foldl (fun st ln => rankCsp st ln.1 ln.2) (⟨[]⟩, ⟨[]⟩)

/-- The per-level crossing constraints (source lines 1874–1893): for each
ordered pair of hops with distinct upper and distinct lower endpoints, the two
covering rows `1 ≤ c + x_{u2,u1} + x_{v1,v2}` and `1 ≤ c + x_{u1,u2} + x_{v2,v1}`. -/
def hopsCsp (hops_by_level : List (ℕ × List HopM)) (max_level : ℕ)
    (st : Vars AnySol × Constraints AnySol) : Vars AnySol × Constraints AnySol :=
  hops_by_level.foldl (fun st kh =>
    if kh.1 ≤ max_level then
      kh.2.foldl (fun st h1 =>
        kh.2.foldl (fun st h2 =>
          if h1.mhr ≠ h2.mhr ∧ h1.nhr ≠ h2.nhr then
            let (c, v1) := st.1.get (AnySol.C kh.1 h1.mhr h1.nhr h2.mhr h2.nhr)
            let (xu21, v2) := v1.get (AnySol.X kh.1 h2.mhr h1.mhr)
            let (xv12, v3) := v2.get (AnySol.X (kh.1 + 1) h1.nhr h2.nhr)
            let (xu12, v4) := v3.get (AnySol.X kh.1 h1.mhr h2.mhr)
            let (xv21, v5) := v4.get (AnySol.X (kh.1 + 1) h2.nhr h1.nhr)
            (v5, (st.2.push (1, [c, xu21, xv12], .inf)).push (1, [c, xu12, xv21], .inf))
          else st) st) st
    else st) st

/-- Whether a solver variable is a crossing variable `C(..)`. -/
def AnySol.isC : AnySol → Bool
  | .C _ _ _ _ _ => true
  | _ => false

/-- The final pass over `vars` (source lines 1894–1902): collect the crossing
variables into the quadratic objective `Q` and push a `0 ≤ v ≤ 1` box row for
every variable.  `Vars` iteration (a `HashMap` in the source) is modelled in
insertion order. -/
def add01AndQ (vars : Vars AnySol) (csp : Constraints AnySol) :
    Constraints AnySol × List (Monomial AnySol) :=
  vars.vars.foldl (fun st q =>
    (st.1.push (0, [⟨q.2, 1⟩], .fin 1),
      if q.1.isC then st.2 ++ [(⟨q.2, 1⟩ : Monomial AnySol)] else st.2)) (csp, [])

/-- The `ohrs.sort_unstable_by` comparator (source lines 1924–1930), reading
the rounded solution of the ordering variable `X(lvl, a, b)`. -/
def cmpX (solutions : List (AnySol × ℚ)) (lvl a b : ℕ) : Ordering :=
  match alook solutions (AnySol.X lvl a b) with
  | some x => if x = 1 then .lt else if x = 0 then .gt else .eq
  | none => .eq

/-- `solved_locs.entry(lvl).or_insert_with(BTreeMap::new).insert(ohr, shr)`. -/
def slInsert (sl : List (ℕ × List (ℕ × ℕ))) (lvl ohr shr : ℕ) :
    List (ℕ × List (ℕ × ℕ)) :=
  updd sl lvl [] (fun m => binsert m ohr shr)

/-- The identity `solved_locs` built by the second fast path
(source lines 1825–1830). -/
def identSolvedLocs (locs : List (ℕ × ℕ)) : List (ℕ × List (ℕ × ℕ)) :=
  locs.foldl (fun sl ln =>
    (List.range ln.2).foldl (fun sl n => slInsert sl ln.1 n n) sl) []

/-- The general path's `solved_locs` (source lines 1918–1934): per rank, sort
the OHRs `0..locs.len()` by the solved ordering variables, then insert
`(ohr, shr)` for each enumerated position. -/
def mkSolvedLocs (solutions : List (AnySol × ℚ)) (locs : List (ℕ × ℕ)) :
    List (ℕ × List (ℕ × ℕ)) :=
  locs.foldl (fun sl ln =>
    let ohrs := insertionSortBy (fun a b => cmpX solutions ln.1 a b) (List.range ln.2)
    ohrs.enum.foldl (fun sl q => slInsert sl ln.1 q.2 q.1) sl) []

/-- All map indexings performed while building the `layout_debug` graph
(source lines 1936–1962); each one panics in Rust when the key is absent. -/
def debugLookupsOk {V : Type} [DecidableEq V]
    (hops_by_edge : List ((V × V) × List (ℕ × ℕ × ℕ)))
    (node_to_loc : List (V × ℕ × ℕ))
    (solved_locs : List (ℕ × List (ℕ × ℕ))) : Bool :=
  hops_by_edge.all fun e =>
    (match alook node_to_loc e.1.1, alook node_to_loc e.1.2 with
     | some vn, some wn =>
       (match alook solved_locs vn.1, alook solved_locs wn.1 with
        | some vm, some wm => (alook vm vn.2).isSome && (alook wm wn.2).isSome
        | _, _ => false)
     | _, _ => false)
    && e.2.all fun h =>
      (match alook solved_locs h.1, alook solved_locs (h.1 + 1) with
       | some m1, some m2 => (alook m1 h.2.1).isSome && (alook m2 h.2.2).isSome
       | _, _ => false)

/-- `layout::miosqp::minimize_edge_crossing`, with the OSQP relaxations
abstracted by the oracle `relax`, the branch randomness by `rand`, and the
branch-and-bound loop fueled (`none` = the loop did not return within `fuel`
steps).  The `layout_debug` graph of source lines 1936–1962 is observable
only through the panics of its map indexings, modelled by `debugLookupsOk`. -/
def minimize_edge_crossing {V : Type} [DecidableEq V] (p : PlacementM V)
    (rand : ℕ → ℕ) (relax : ℕ → Except LError (ℚ × List ℚ)) (fuel : ℕ) :
    Option (Outcome (ℕ × List (ℕ × List (ℕ × ℕ)))) :=
  if p.hops_by_level.isEmpty then some (.ok (0, []))
  else if p.hops_by_level.all (fun kh => kh.2.length ≤ 1) then
    some (.ok (0, identSolvedLocs p.locs_by_level))
  else
    let max_level := maxKey p.hops_by_level
    let st0 := locsCsp p.locs_by_level
    let st1 := hopsCsp p.hops_by_level max_level st0
    let cq := add01AndQ st1.1 st1.2
    match ILP.solve st1.1 cq.1 cq.2 rand relax fuel with
    | none => none
    | some (.error e) => some (.failed e)
    | some (.ok (.Solved _bound xs)) =>
      let solutions := st1.1.vars.map
        (fun q => (q.2.sol, (rustRound (xs.getD q.2.index 0) : ℚ)))
      let solved_locs := mkSolvedLocs solutions p.locs_by_level
      if debugLookupsOk p.hops_by_edge p.node_to_loc solved_locs then
        some (.ok (0, solved_locs))
      else some (.panicked "no entry found for key")
    | some (.ok _) => some (.panicked "ilp not solved")

/-- The identity inner map on `n` horizontal ranks. -/
def identM (n : ℕ) : List (ℕ × ℕ) := (List.range n).map (fun i => (i, i))

/-- `SHR` of a location under a solved-locs map (`0` when absent). -/
def shrOf (sl : List (ℕ × List (ℕ × ℕ))) (l o : ℕ) : ℕ :=
  ((alook sl l).bind (fun m => alook m o)).getD 0

/-- The specification's crossing indicator for two hops of one level under a
solved-locs map: distinct endpoints on both ranks and inverted relative order
on the two adjacent ranks.  This definition follows the spec's crossing-count
formula (for comparison with the code), not the source. -/
def crossedB (sl : List (ℕ × List (ℕ × ℕ))) (l : ℕ) (h1 h2 : HopM) : Bool :=
  decide (h1.mhr ≠ h2.mhr) && decide (h1.nhr ≠ h2.nhr) &&
    ((decide (shrOf sl l h1.mhr < shrOf sl l h2.mhr) &&
        decide (shrOf sl (l + 1) h2.nhr < shrOf sl (l + 1) h1.nhr)) ||
     (decide (shrOf sl l h2.mhr < shrOf sl l h1.mhr) &&
        decide (shrOf sl (l + 1) h1.nhr < shrOf sl (l + 1) h2.nhr)))

/-- The specification's crossing count of a solved-locs map: over each level,
the number of unordered hop pairs that cross.  Spec-modelled, for comparison
with the crossing number the code returns. -/
def numCrossings (hops_by_level : List (ℕ × List HopM))
    (sl : List (ℕ × List (ℕ × ℕ))) : ℕ :=
  (hops_by_level.map (fun kh =>
    ((List.range kh.2.length).map (fun i =>
      ((List.range kh.2.length).filter (fun j => decide (i < j))).countP
        (fun j => crossedB sl kh.1 (kh.2.getD i ⟨0, 0⟩) (kh.2.getD j ⟨0, 0⟩)))).sum)).sum

theorem alook_updd_same {α β : Type} [DecidableEq α] :
    ∀ (l : List (α × β)) (k : α) (d : β) (f : β → β),
    alook (updd l k d f) k = some (f ((alook l k).getD d)) := by
  intro l
  induction l with
  | nil => intro k d f; simp [updd, alook]
  | cons p t ih =>
    intro k d f
    obtain ⟨k2, v⟩ := p
    simp only [updd]
    by_cases h : k2 = k
    · subst h
      simp [alook]
    · rw [if_neg h]
      simp only [alook, h, if_false]
      exact ih k d f

theorem alook_updd_other {α β : Type} [DecidableEq α] :
    ∀ (l : List (α × β)) (k k2 : α) (d : β) (f : β → β), k2 ≠ k →
    alook (updd l k d f) k2 = alook l k2 := by
  intro l
  induction l with
  | nil =>
    intro k k2 d f hne
    simp only [updd, alook]
    rw [if_neg (fun h => hne h.symm)]
  | cons p t ih =>
    intro k k2 d f hne
    obtain ⟨k3, v⟩ := p
    simp only [updd]
    by_cases h : k3 = k
    · subst h
      simp only [alook]
      rw [if_neg (fun h2 => hne h2.symm), if_neg (fun h2 => hne h2.symm)]
    · rw [if_neg h]
      simp only [alook]
      by_cases h2 : k3 = k2
      · simp [h2]
      · rw [if_neg h2, if_neg h2]
        exact ih k k2 d f hne

theorem binsert_append {β : Type} :
    ∀ (m : List (ℕ × β)) (k : ℕ) (v : β), (∀ p ∈ m, p.1 < k) →
    binsert m k v = m ++ [(k, v)] := by
  intro m
  induction m with
  | nil => intro k v _; rfl
  | cons p t ih =>
    intro k v h
    obtain ⟨k2, v2⟩ := p
    have hk2 : k2 < k := by simpa using h (k2, v2) (List.mem_cons_self _ _)
    simp only [binsert]
    rw [if_neg (by omega), if_neg (by omega),
      ih k v (fun p hp => h p (List.mem_cons_of_mem _ hp))]
    simp

theorem slInsertFold_other :
    ∀ (ps : List (ℕ × ℕ)) (sl : List (ℕ × List (ℕ × ℕ))) (lvl r : ℕ), r ≠ lvl →
    alook (ps.foldl (fun sl q => slInsert sl lvl q.1 q.2) sl) r = alook sl r := by
  intro ps
  induction ps with
  | nil => intro sl lvl r _; rfl
  | cons q t ih =>
    intro sl lvl r hne
    show alook (t.foldl _ (slInsert sl lvl q.1 q.2)) r = _
    rw [ih _ lvl r hne]
    exact alook_updd_other _ _ _ _ _ hne

theorem slInsertFold_same :
    ∀ (ps : List (ℕ × ℕ)) (sl : List (ℕ × List (ℕ × ℕ))) (lvl : ℕ), ps ≠ [] →
    alook (ps.foldl (fun sl q => slInsert sl lvl q.1 q.2) sl) lvl
      = some (ps.foldl (fun m q => binsert m q.1 q.2) ((alook sl lvl).getD [])) := by
  intro ps
  induction ps with
  | nil => intro sl lvl h; cases h rfl
  | cons q t ih =>
    intro sl lvl _
    show alook (t.foldl _ (slInsert sl lvl q.1 q.2)) lvl = _
    by_cases ht : t = []
    · subst ht
      show alook (slInsert sl lvl q.1 q.2) lvl = _
      unfold slInsert
      rw [alook_updd_same]
      rfl
    · rw [ih _ lvl ht]
      show some (t.foldl _ ((alook (slInsert sl lvl q.1 q.2) lvl).getD [])) = _
      unfold slInsert
      rw [alook_updd_same]
      rfl

theorem rangeSlFold_eq (lvl n : ℕ) (sl : List (ℕ × List (ℕ × ℕ))) :
    (List.range n).foldl (fun sl i => slInsert sl lvl i i) sl
      = (identM n).foldl (fun sl q => slInsert sl lvl q.1 q.2) sl := by
  unfold identM
  rw [List.foldl_map]

theorem mem_identM {n : ℕ} {p : ℕ × ℕ} (h : p ∈ identM n) : p.1 < n ∧ p.2 = p.1 := by
  unfold identM at h
  obtain ⟨i, hi, he⟩ := List.mem_map.mp h
  subst he
  exact ⟨List.mem_range.mp hi, rfl⟩

theorem identM_ne_nil {n : ℕ} (hn : n ≠ 0) : identM n ≠ [] := by
  unfold identM
  simp [List.map_eq_nil, List.range_eq_nil, hn]

theorem binsertFold_ident : ∀ n : ℕ,
    (identM n).foldl (fun m q => binsert m q.1 q.2) [] = identM n := by
  intro n
  induction n with
  | zero => rfl
  | succ k ih =>
    have hstep : identM (k + 1) = identM k ++ [(k, k)] := by
      unfold identM
      rw [List.range_succ, List.map_append]
      rfl
    rw [hstep, List.foldl_append, ih]
    show binsert (identM k) k k = _
    rw [binsert_append (identM k) k k (fun p hp => (mem_identM hp).1)]

theorem identSolvedLocs_go_other :
    ∀ (locs : List (ℕ × ℕ)) (sl : List (ℕ × List (ℕ × ℕ))) (r : ℕ),
    (∀ p ∈ locs, p.1 ≠ r) →
    alook (locs.foldl (fun sl ln => (List.range ln.2).foldl
      (fun sl i => slInsert sl ln.1 i i) sl) sl) r = alook sl r := by
  intro locs
  induction locs with
  | nil => intro sl r _; rfl
  | cons ln t ih =>
    intro sl r h
    show alook (t.foldl _ ((List.range ln.2).foldl _ sl)) r = _
    rw [ih _ r (fun p hp => h p (List.mem_cons_of_mem _ hp)), rangeSlFold_eq,
      slInsertFold_other _ _ _ _ (fun he => h ln (List.mem_cons_self _ _) he.symm)]

theorem identSolvedLocs_go :
    ∀ (locs : List (ℕ × ℕ)) (sl : List (ℕ × List (ℕ × ℕ))),
    keysSorted locs →
    ∀ r n, (r, n) ∈ locs → n ≠ 0 → alook sl r = none →
    alook (locs.foldl (fun sl ln => (List.range ln.2).foldl
      (fun sl i => slInsert sl ln.1 i i) sl) sl) r = some (identM n) := by
  intro locs
  induction locs with
  | nil => intro sl _ r n hmem; cases hmem
  | cons ln t ih =>
    intro sl hs r n hmem hn hnone
    obtain ⟨r0, n0⟩ := ln
    obtain ⟨hhead, htail⟩ := List.pairwise_cons.mp hs
    show alook (t.foldl _ ((List.range n0).foldl _ sl)) r = _
    rcases List.mem_cons.mp hmem with he | he
    · injection he with he1 he2
      subst he1
      subst he2
      rw [identSolvedLocs_go_other t _ r (fun p hp => by
        have := hhead p hp
        simp only at this
        omega)]
      rw [rangeSlFold_eq, slInsertFold_same (identM n) _ r (identM_ne_nil hn), hnone]
      simp only [Option.getD_none]
      rw [binsertFold_ident n]
    · have hr0 : r ≠ r0 := by
        have := hhead (r, n) he
        simp only at this
        omega
      apply ih _ htail r n he hn
      rw [rangeSlFold_eq, slInsertFold_other _ _ _ _ hr0]
      exact hnone

theorem identSolvedLocs_spec (locs : List (ℕ × ℕ)) (hs : keysSorted locs)
    (r n : ℕ) (hmem : (r, n) ∈ locs) (hn : n ≠ 0) :
    alook (identSolvedLocs locs) r = some (identM n) :=
  identSolvedLocs_go locs [] hs r n hmem hn rfl

/-- **C7.** `minimize_edge_crossing` takes its fast paths exactly as stated:
when `hops_by_level` is empty it returns crossing number 0 and an empty
solved-locs map without consulting the solver; when every rank has at most
one hop it returns crossing number 0 and, for each nonempty rank of
`locs_by_level`, the identity permutation on that rank's OHRs. -/
theorem minimize_edge_crossing_fast_paths {V : Type} [DecidableEq V] :
    (∀ (p : PlacementM V) (rand : ℕ → ℕ)
        (relax : ℕ → Except LError (ℚ × List ℚ)) (fuel : ℕ),
      p.hops_by_level = [] →
      minimize_edge_crossing p rand relax fuel = some (.ok (0, []))) ∧
    (∀ (p : PlacementM V) (rand : ℕ → ℕ)
        (relax : ℕ → Except LError (ℚ × List ℚ)) (fuel : ℕ),
      p.hops_by_level ≠ [] →
      (∀ kh ∈ p.hops_by_level, kh.2.length ≤ 1) →
      minimize_edge_crossing p rand relax fuel
        = some (.ok (0, identSolvedLocs p.locs_by_level)) ∧
      (keysSorted p.locs_by_level →
        ∀ r n, (r, n) ∈ p.locs_by_level → n ≠ 0 →
          alook (identSolvedLocs p.locs_by_level) r = some (identM n))) := by
  constructor
  · intro p rand relax fuel h
    unfold minimize_edge_crossing
    rw [if_pos (by simp [h])]
  · intro p rand relax fuel hne hall
    constructor
    · unfold minimize_edge_crossing
      rw [if_neg (by simp [List.isEmpty_iff, hne]), if_pos (by
        rw [List.all_eq_true]
        intro kh hkh
        exact decide_eq_true (hall kh hkh))]
    · intro hs r n hmem hn
      exact identSolvedLocs_spec _ hs r n hmem hn

/-- Concrete fast-path runs: an empty `hops_by_level`, and a single-hop
placement whose ranks get identity permutations. -/
theorem minimize_edge_crossing_fast_paths_witness :
    minimize_edge_crossing (V := ℕ) ⟨[(0, 1)], [], [], []⟩ (fun _ => 0)
        (fun _ => .error (.osqpError "s")) 0 = some (.ok (0, [])) ∧
    minimize_edge_crossing (V := ℕ) ⟨[(1, 2), (2, 1)], [(1, [⟨0, 0⟩])], [], []⟩
        (fun _ => 0) (fun _ => .error (.osqpError "s")) 0
      = some (.ok (0, identSolvedLocs [(1, 2), (2, 1)])) ∧
    alook (identSolvedLocs [(1, 2), (2, 1)]) 1 = some (identM 2) := by
  refine ⟨?_, ?_, ?_⟩
  · exact (minimize_edge_crossing_fast_paths (V := ℕ)).1
      ⟨[(0, 1)], [], [], []⟩ (fun _ => 0) (fun _ => .error (.osqpError "s")) 0 rfl
  · exact ((minimize_edge_crossing_fast_paths (V := ℕ)).2
      ⟨[(1, 2), (2, 1)], [(1, [⟨0, 0⟩])], [], []⟩ (fun _ => 0)
      (fun _ => .error (.osqpError "s")) 0 (by simp) (by decide)).1
  · exact ((minimize_edge_crossing_fast_paths (V := ℕ)).2
      ⟨[(1, 2), (2, 1)], [(1, [⟨0, 0⟩])], [], []⟩ (fun _ => 0)
      (fun _ => .error (.osqpError "s")) 0 (by simp) (by decide)).2
      (by unfold keysSorted; decide) 1 2 (by decide) (by decide)

theorem binsert_perm {β : Type} :
    ∀ (m : List (ℕ × β)) (k : ℕ) (v : β), (∀ p ∈ m, p.1 ≠ k) →
    (binsert m k v).Perm ((k, v) :: m) := by
  intro m
  induction m with
  | nil => intro k v _; exact List.Perm.refl _
  | cons p t ih =>
    intro k v h
    obtain ⟨k2, v2⟩ := p
    have hne : k2 ≠ k := by simpa using h (k2, v2) (List.mem_cons_self _ _)
    simp only [binsert]
    by_cases h1 : k < k2
    · rw [if_pos h1]
    · rw [if_neg h1, if_neg (fun he => hne he.symm)]
      have := (ih k v (fun p hp => h p (List.mem_cons_of_mem _ hp))).cons (k2, v2)
      exact this.trans (List.Perm.swap _ _ _)

theorem binsertFold_perm :
    ∀ (ps m : List (ℕ × ℕ)), ((m ++ ps).map Prod.fst).Nodup →
    (ps.foldl (fun m q => binsert m q.1 q.2) m).Perm (m ++ ps) := by
  intro ps
  induction ps with
  | nil => intro m _; simp
  | cons q t ih =>
    intro m hnd
    obtain ⟨k, v⟩ := q
    have hknotin : ∀ p ∈ m, p.1 ≠ k := by
      intro p hp he
      rw [List.map_append] at hnd
      have h1 : p.1 ∈ m.map Prod.fst := List.mem_map_of_mem _ hp
      have h2 : k ∈ ((k, v) :: t).map Prod.fst := by simp
      have := List.disjoint_of_nodup_append hnd h1
      exact this (he ▸ h2)
    have hperm1 : (binsert m k v).Perm ((k, v) :: m) := binsert_perm m k v hknotin
    have hnd2 : ((binsert m k v ++ t).map Prod.fst).Nodup := by
      have hp2 : (binsert m k v ++ t).Perm (((k, v) :: m) ++ t) :=
        hperm1.append_right t
      have hp3 : ((binsert m k v ++ t).map Prod.fst).Perm
          ((((k, v) :: m) ++ t).map Prod.fst) := hp2.map _
      apply hp3.nodup_iff.mpr
      have hp4 : (((k, v) :: m) ++ t).Perm (m ++ (k, v) :: t) :=
        List.perm_middle.symm
      exact ((hp4.map Prod.fst).nodup_iff).mpr hnd
    show (t.foldl _ (binsert m k v)).Perm _
    have := ih (binsert m k v) hnd2
    refine this.trans ?_
    have hp2 : (binsert m k v ++ t).Perm (((k, v) :: m) ++ t) := hperm1.append_right t
    refine hp2.trans ?_
    exact List.perm_middle.symm

theorem binsertFold_sorted :
    ∀ (ps m : List (ℕ × ℕ)), keysSorted m →
    keysSorted (ps.foldl (fun m q => binsert m q.1 q.2) m) := by
  intro ps
  induction ps with
  | nil => intro m hs; exact hs
  | cons q t ih =>
    intro m hs
    exact ih _ (binsert_sorted hs)

theorem enumSlFold_eq (lvl : ℕ) (ohrs : List ℕ) (sl : List (ℕ × List (ℕ × ℕ))) :
    ohrs.enum.foldl (fun sl q => slInsert sl lvl q.2 q.1) sl
      = (ohrs.enum.map (fun q => (q.2, q.1))).foldl
          (fun sl q => slInsert sl lvl q.1 q.2) sl := by
  rw [List.foldl_map]

theorem mkSolvedLocs_go_other :
    ∀ (locs : List (ℕ × ℕ)) (solutions : List (AnySol × ℚ))
      (sl : List (ℕ × List (ℕ × ℕ))) (r : ℕ),
    (∀ p ∈ locs, p.1 ≠ r) →
    alook (locs.foldl (fun sl ln =>
      (insertionSortBy (fun a b => cmpX solutions ln.1 a b) (List.range ln.2)).enum.foldl
        (fun sl q => slInsert sl ln.1 q.2 q.1) sl) sl) r = alook sl r := by
  intro locs
  induction locs with
  | nil => intro solutions sl r _; rfl
  | cons ln t ih =>
    intro solutions sl r h
    show alook (t.foldl _ _) r = _
    rw [ih solutions _ r (fun p hp => h p (List.mem_cons_of_mem _ hp))]
    show alook ((insertionSortBy (fun a b => cmpX solutions ln.1 a b)
        (List.range ln.2)).enum.foldl (fun sl q => slInsert sl ln.1 q.2 q.1) sl) r
      = alook sl r
    rw [enumSlFold_eq,
      slInsertFold_other _ _ _ _ (fun he => h ln (List.mem_cons_self _ _) he.symm)]

theorem binsertFold_pair_spec (ohrs : List ℕ) (n : ℕ)
    (hperm : ohrs.Perm (List.range n)) :
    ((ohrs.enum.map (fun q => (q.2, q.1))).foldl
        (fun m q => binsert m q.1 q.2) []).map Prod.fst = List.range n ∧
    (((ohrs.enum.map (fun q => (q.2, q.1))).foldl
        (fun m q => binsert m q.1 q.2) []).map Prod.snd).Perm (List.range n) := by
  have hlen : ohrs.length = n := hperm.length_eq.trans (List.length_range n)
  have hps_fst : (ohrs.enum.map (fun q => (q.2, q.1))).map Prod.fst = ohrs := by
    rw [List.map_map]
    exact List.enum_map_snd ohrs
  have hps_snd : (ohrs.enum.map (fun q => (q.2, q.1))).map Prod.snd = List.range n := by
    rw [List.map_map]
    rw [show (Prod.snd ∘ fun q : ℕ × ℕ => (q.2, q.1)) = Prod.fst from rfl]
    rw [List.enum_map_fst ohrs, hlen]
  have hnd : ((([] : List (ℕ × ℕ)) ++ ohrs.enum.map (fun q => (q.2, q.1))).map
      Prod.fst).Nodup := by
    rw [List.nil_append, hps_fst]
    exact (hperm.nodup_iff).mpr (List.nodup_range n)
  have hmf_perm : ((ohrs.enum.map (fun q => (q.2, q.1))).foldl
      (fun m q => binsert m q.1 q.2) []).Perm (ohrs.enum.map (fun q => (q.2, q.1))) := by
    simpa using binsertFold_perm (ohrs.enum.map (fun q => (q.2, q.1))) [] hnd
  have hms : keysSorted ((ohrs.enum.map (fun q => (q.2, q.1))).foldl
      (fun m q => binsert m q.1 q.2) []) :=
    binsertFold_sorted _ [] List.Pairwise.nil
  have hfst_perm : ((ohrs.enum.map (fun q => (q.2, q.1))).map Prod.fst).Perm
      (List.range n) := by
    rw [hps_fst]
    exact hperm
  have hsnd_perm : ((ohrs.enum.map (fun q => (q.2, q.1))).map Prod.snd).Perm
      (List.range n) := by
    rw [hps_snd]
  constructor
  · exact List.eq_of_perm_of_sorted ((hmf_perm.map Prod.fst).trans hfst_perm)
      ((List.pairwise_map.mpr hms).imp le_of_lt)
      ((List.pairwise_lt_range n).imp le_of_lt)
  · exact (hmf_perm.map Prod.snd).trans hsnd_perm

theorem mkSolvedLocs_go :
    ∀ (locs : List (ℕ × ℕ)) (solutions : List (AnySol × ℚ))
      (sl : List (ℕ × List (ℕ × ℕ))),
    keysSorted locs →
    ∀ r n, (r, n) ∈ locs → n ≠ 0 → alook sl r = none →
    ∃ m, alook (locs.foldl (fun sl ln =>
        (insertionSortBy (fun a b => cmpX solutions ln.1 a b) (List.range ln.2)).enum.foldl
          (fun sl q => slInsert sl ln.1 q.2 q.1) sl) sl) r = some m ∧
      m.map Prod.fst = List.range n ∧ (m.map Prod.snd).Perm (List.range n) := by
  intro locs
  induction locs with
  | nil => intro solutions sl _ r n hmem; cases hmem
  | cons ln t ih =>
    intro solutions sl hs r n hmem hn hnone
    obtain ⟨r0, n0⟩ := ln
    obtain ⟨hhead, htail⟩ := List.pairwise_cons.mp hs
    show ∃ m, alook (t.foldl _ _) r = some m ∧ _
    rcases List.mem_cons.mp hmem with he | he
    · injection he with he1 he2
      subst he1
      subst he2
      have hperm : (insertionSortBy (fun a b => cmpX solutions r a b)
          (List.range n)).Perm (List.range n) := insertionSortBy_perm _ _
      have hlen : (insertionSortBy (fun a b => cmpX solutions r a b)
          (List.range n)).length = n := hperm.length_eq.trans (List.length_range n)
      have hne : (insertionSortBy (fun a b => cmpX solutions r a b)
          (List.range n)).enum.map (fun q => (q.2, q.1)) ≠ [] := by
        intro hc
        have := congrArg List.length hc
        simp [hlen] at this
        omega
      rw [mkSolvedLocs_go_other t solutions _ r (fun p hp => by
        have := hhead p hp
        simp only at this
        omega)]
      beta_reduce
      rw [enumSlFold_eq, slInsertFold_same _ _ _ hne, hnone]
      simp only [Option.getD_none]
      obtain ⟨h1, h2⟩ := binsertFold_pair_spec _ n hperm
      exact ⟨_, rfl, h1, h2⟩
    · have hr0 : r ≠ r0 := by
        have := hhead (r, n) he
        simp only at this
        omega
      apply ih solutions _ htail r n he hn
      beta_reduce
      rw [enumSlFold_eq, slInsertFold_other _ _ _ _ hr0]
      exact hnone

theorem mkSolvedLocs_spec (solutions : List (AnySol × ℚ)) (locs : List (ℕ × ℕ))
    (hs : keysSorted locs) (r n : ℕ) (hmem : (r, n) ∈ locs) (hn : n ≠ 0) :
    ∃ m, alook (mkSolvedLocs solutions locs) r = some m ∧
      m.map Prod.fst = List.range n ∧ (m.map Prod.snd).Perm (List.range n) :=
  mkSolvedLocs_go locs solutions [] hs r n hmem hn rfl

/-- **C2 (amended).** On every run of `minimize_edge_crossing` that succeeds
and actually had hops to order (`hops_by_level` nonempty — the empty fast
path returns an empty solved-locs map that drops every rank), each nonempty
rank `(r, n)` of `locs_by_level` receives an inner map whose keys are exactly
the OHRs `0..n-1` and whose values are a permutation of `0..n-1`. -/
theorem minimize_edge_crossing_perm {V : Type} [DecidableEq V]
    (p : PlacementM V) (rand : ℕ → ℕ) (relax : ℕ → Except LError (ℚ × List ℚ))
    (fuel cn : ℕ) (sl : List (ℕ × List (ℕ × ℕ)))
    (hs : keysSorted p.locs_by_level) (hne : p.hops_by_level ≠ [])
    (heq : minimize_edge_crossing p rand relax fuel = some (.ok (cn, sl))) :
    ∀ r n, (r, n) ∈ p.locs_by_level → n ≠ 0 →
    ∃ m, alook sl r = some m ∧
      m.map Prod.fst = List.range n ∧ (m.map Prod.snd).Perm (List.range n) := by
  intro r n hmem hn
  unfold minimize_edge_crossing at heq
  rw [if_neg (by simp [List.isEmpty_iff, hne])] at heq
  by_cases hfast : p.hops_by_level.all (fun kh => decide (kh.2.length ≤ 1))
  · rw [if_pos hfast] at heq
    simp only [Option.some.injEq, Outcome.ok.injEq, Prod.mk.injEq] at heq
    obtain ⟨-, hsl⟩ := heq
    refine ⟨identM n, ?_, ?_, ?_⟩
    · rw [← hsl]
      exact identSolvedLocs_spec _ hs r n hmem hn
    · unfold identM
      rw [List.map_map, show (Prod.fst ∘ fun i : ℕ => (i, i)) = id from rfl,
        List.map_id]
    · unfold identM
      rw [List.map_map, show (Prod.snd ∘ fun i : ℕ => (i, i)) = id from rfl,
        List.map_id]
  · rw [if_neg hfast] at heq
    simp only [] at heq
    split at heq
    · exact absurd heq (by simp)
    · exact absurd heq (by simp)
    · rename_i b xs hsolve
      split at heq
      · simp only [Option.some.injEq, Outcome.ok.injEq, Prod.mk.injEq] at heq
        obtain ⟨-, hsl⟩ := heq
        rw [← hsl]
        exact mkSolvedLocs_spec _ _ hs r n hmem hn
      · exact absurd heq (by simp)
    · exact absurd heq (by simp)

/-- A successful run of `minimize_edge_crossing` (the empty-`hops_by_level`
fast path) that returns an empty solved-locs map although rank 0 is present
in `locs_by_level` with one location: no permutation is returned for it. -/
theorem minimize_edge_crossing_rank_dropped :
    ∃ sl, minimize_edge_crossing (V := ℕ) ⟨[(0, 1)], [], [], []⟩ (fun _ => 0)
        (fun _ => .error (.osqpError "s")) 1 = some (.ok (0, sl)) ∧
      (0, 1) ∈ (⟨[(0, 1)], [], [], []⟩ : PlacementM ℕ).locs_by_level ∧
      alook sl 0 = none :=
  ⟨[], rfl, by decide, rfl⟩

/-- A concrete run through `minimize_edge_crossing_perm`: the single-hop fast
path on a rank with two locations yields the keys `[0, 1]` with a
permutation of `[0, 1]` as values. -/
theorem minimize_edge_crossing_perm_witness :
    ∃ m, alook (identSolvedLocs [(1, 2)]) 1 = some m ∧
      m.map Prod.fst = List.range 2 ∧ (m.map Prod.snd).Perm (List.range 2) :=
  minimize_edge_crossing_perm (V := ℕ) ⟨[(1, 2)], [(1, [⟨0, 0⟩])], [], []⟩
    (fun _ => 0) (fun _ => .error (.osqpError "s")) 1 0 (identSolvedLocs [(1, 2)])
    (by unfold keysSorted; decide) (by simp) rfl 1 2 (by decide) (by decide)

/-- The forced-crossing placement of scenario S2: nodes `a, b` (labels 0, 1)
at rank 1, `c, d` (labels 2, 3) at rank 2, edges `a → d` (hop mhr 0 → nhr 1)
and `b → c` (hop mhr 1 → nhr 0). -/
def placementS2 : PlacementM ℕ :=
  ⟨[(1, 2), (2, 2)],
   [(1, [⟨0, 1⟩, ⟨1, 0⟩])],
   [((0, 3), [(1, 0, 1)]), ((1, 2), [(1, 1, 0)])],
   [(0, (1, 0)), (1, (1, 1)), (2, (2, 0)), (3, (2, 1))]⟩

/-- A relaxation oracle for `placementS2`: the integral point with identity
orderings on both ranks and both crossing variables at 1 (objective 2),
acceptable to `ILPInstance::solve` at every branch-and-bound step. -/
def relaxS2 : ℕ → Except LError (ℚ × List ℚ) := fun _ => .ok (2, [1, 0, 1, 0, 1, 1])

/-- **C1 (code bug).** The crossing number returned by
`minimize_edge_crossing` is the hard-coded literal `0` on every success path:
source line 1968 returns `Ok((0, solved_locs))`, the intended
`Ok((crossing_number, solved_locs))` on line 1967 being commented out.  In
particular, on the forced-crossing scenario-S2 input the function succeeds
with crossing number 0 although the returned permutation has exactly one hop
crossing, so the returned count does not equal the crossing count of the
returned SHR permutation. -/
theorem minimize_edge_crossing_count_is_zero :
    (∀ {V : Type} [DecidableEq V] (p : PlacementM V) (rand : ℕ → ℕ)
        (relax : ℕ → Except LError (ℚ × List ℚ)) (fuel cn : ℕ)
        (sl : List (ℕ × List (ℕ × ℕ))),
      minimize_edge_crossing p rand relax fuel = some (.ok (cn, sl)) → cn = 0) ∧
    (∃ sl, minimize_edge_crossing placementS2 (fun _ => 0) relaxS2 2
        = some (.ok (0, sl)) ∧ numCrossings placementS2.hops_by_level sl = 1) := by
  constructor
  · intro V _ p rand relax fuel cn sl heq
    unfold minimize_edge_crossing at heq
    by_cases h1 : p.hops_by_level.isEmpty
    · rw [if_pos h1] at heq
      simp only [Option.some.injEq, Outcome.ok.injEq, Prod.mk.injEq] at heq
      exact heq.1.symm
    · rw [if_neg h1] at heq
      by_cases h2 : p.hops_by_level.all (fun kh => decide (kh.2.length ≤ 1))
      · rw [if_pos h2] at heq
        simp only [Option.some.injEq, Outcome.ok.injEq, Prod.mk.injEq] at heq
        exact heq.1.symm
      · rw [if_neg h2] at heq
        simp only [] at heq
        split at heq
        · exact absurd heq (by simp)
        · exact absurd heq (by simp)
        · split at heq
          · simp only [Option.some.injEq, Outcome.ok.injEq, Prod.mk.injEq] at heq
            exact heq.1.symm
          · exact absurd heq (by simp)
        · exact absurd heq (by simp)
  · exact ⟨[(1, [(0, 0), (1, 1)]), (2, [(0, 0), (1, 1)])],
      by with_unfolding_all rfl, by with_unfolding_all rfl⟩

/-- The universal zero-count statement applied to the concrete S2 run. -/
theorem minimize_edge_crossing_count_is_zero_witness : (0 : ℕ) = 0 :=
  minimize_edge_crossing_count_is_zero.1 placementS2 (fun _ => 0) relaxS2 2 0
    [(1, [(0, 0), (1, 1)]), (2, [(0, 0), (1, 1)])] (by with_unfolding_all rfl)

/-- `Loc`: a location is either a node or an edge's intermediate hop point. -/
inductive LocL (V : Type) where
  | Node (vl : V)
  | Hop (lvl : ℕ) (vl wl : V)
  deriving DecidableEq

/-- A full `Hop` record (`Hop { mhr, nhr, vl, wl, lvl }`). -/
structure HopE (V : Type) where
  mhr : ℕ
  nhr : ℕ
  vl : V
  wl : V
  lvl : ℕ
  deriving DecidableEq

/-- The derived lexicographic `Ord` of `Hop` (field declaration order). -/
def HopE.cmp {V : Type} [Ord V] (a b : HopE V) : Ordering :=
  (compare a.mhr b.mhr).then ((compare a.nhr b.nhr).then
    ((compare a.vl b.vl).then ((compare a.wl b.wl).then (compare a.lvl b.lvl))))

/-- `HashMap::insert` on an association list: replace or append. -/
def hinsert {α β : Type} [DecidableEq α] (l : List (α × β)) (k : α) (v : β) :
    List (α × β) :=
  updd l k v (fun _ => v)

/-- The mutable state threaded through the per-edge loop of
`calculate_locs_and_hops` (source lines 1483–1519). -/
structure EdgeState (V : Type) where
  locs_by_level : List (ℕ × List ℕ)
  loc_to_node : List ((ℕ × ℕ) × LocL V)
  node_to_loc : List (LocL V × (ℕ × ℕ))
  hops_by_level : List (ℕ × List (HopE V))
  hops_by_edge : List ((V × V) × List (ℕ × ℕ × ℕ))

/-- One iteration of the `for mid_level in (vvr+1).0..(wvr.0)` loop (source
lines 1492–1499): allocate a fresh intermediate OHR (the current length of
`locs_by_level[mid_level]`, `0` when the rank is absent), push it, record the
hop location, and append the OHR to `mhrs`. -/
def midStep {V : Type} [DecidableEq V] (vl wl : V)
    (acc : EdgeState V × List ℕ) (mid_level : ℕ) : EdgeState V × List ℕ :=
  let mhr := ((alook acc.1.locs_by_level mid_level).map List.length).getD 0
  ({ acc.1 with
      locs_by_level := updd acc.1.locs_by_level mid_level [] (fun v => v ++ [mhr]),
      loc_to_node := hinsert acc.1.loc_to_node (mid_level, mhr) (.Hop mid_level vl wl),
      node_to_loc := hinsert acc.1.node_to_loc (.Hop mid_level vl wl) (mid_level, mhr) },
    acc.2 ++ [mhr])

/-- One iteration of the `for lvl in vvr.0..wvr.0` loop (source lines
1504–1518): register the hop `(mhrs[lvl-vvr], mhrs[lvl+1-vvr])` under level
`lvl` and under the edge `(vl, wl)`.  The source indexes `mhrs` directly; at
every call site both indices are in range, so the `getD 0` default is never
taken. -/
def hopStep {V : Type} [DecidableEq V] [Ord V] (vl wl : V) (vvr : ℕ)
    (mhrs : List ℕ) (st : EdgeState V) (lvl : ℕ) : EdgeState V :=
  let mhr := mhrs.getD (lvl - vvr) 0
  let nhr := mhrs.getD (lvl + 1 - vvr) 0
  { st with
      hops_by_level := updd st.hops_by_level lvl []
        (fun hs => insertBy HopE.cmp ⟨mhr, nhr, vl, wl, lvl⟩ hs),
      hops_by_edge := updd st.hops_by_edge (vl, wl) []
        (fun m => binsert m lvl (mhr, nhr)) }

/-- The body of `for (vl, wl, _) in sorted_condensed_edges.iter()` (source
lines 1485–1518), for one condensed edge with the ranks and endpoint OHRs
already looked up. -/
def processEdge {V : Type} [DecidableEq V] [Ord V] (st : EdgeState V)
    (vl wl : V) (vvr wvr vhr whr : ℕ) : EdgeState V :=
  let mid := (List.range' (vvr + 1) (wvr - (vvr + 1))).foldl (midStep vl wl) (st, [vhr])
  let mhrs := mid.2 ++ [whr]
  (List.range' vvr (wvr - vvr)).foldl (hopStep vl wl vvr mhrs) mid.1

theorem midFold_spec {V : Type} [DecidableEq V] (vl wl : V) :
    ∀ (levels : List ℕ) (st : EdgeState V) (acc : List ℕ),
    levels.Nodup →
    (levels.foldl (midStep vl wl) (st, acc)).2
      = acc ++ levels.map (fun l => ((alook st.locs_by_level l).map List.length).getD 0) ∧
    (levels.foldl (midStep vl wl) (st, acc)).1.hops_by_edge = st.hops_by_edge ∧
    (levels.foldl (midStep vl wl) (st, acc)).1.hops_by_level = st.hops_by_level ∧
    (∀ l, l ∉ levels →
      alook (levels.foldl (midStep vl wl) (st, acc)).1.locs_by_level l
        = alook st.locs_by_level l) ∧
    (∀ l ∈ levels,
      alook (levels.foldl (midStep vl wl) (st, acc)).1.locs_by_level l
        = some (((alook st.locs_by_level l).getD [])
            ++ [((alook st.locs_by_level l).map List.length).getD 0])) := by
  intro levels
  induction levels with
  | nil =>
    intro st acc _
    exact ⟨by simp, rfl, rfl, fun l _ => rfl, fun l hl => absurd hl (List.not_mem_nil _)⟩
  | cons l ls ih =>
    intro st acc hnd
    obtain ⟨hhead, htail⟩ := List.nodup_cons.mp hnd
    have hstep : (l :: ls).foldl (midStep vl wl) (st, acc)
        = ls.foldl (midStep vl wl) (midStep vl wl (st, acc) l) := rfl
    have hst'locs_other : ∀ l2, l2 ≠ l →
        alook (midStep vl wl (st, acc) l).1.locs_by_level l2
          = alook st.locs_by_level l2 := by
      intro l2 hne
      show alook (updd st.locs_by_level l [] _) l2 = _
      exact alook_updd_other _ _ _ _ _ hne
    have hst'locs_same : alook (midStep vl wl (st, acc) l).1.locs_by_level l
        = some (((alook st.locs_by_level l).getD [])
            ++ [((alook st.locs_by_level l).map List.length).getD 0]) := by
      show alook (updd st.locs_by_level l [] _) l = _
      rw [alook_updd_same]
    obtain ⟨ih1, ih2, ih3, ih4, ih5⟩ :=
      ih (midStep vl wl (st, acc) l).1 (midStep vl wl (st, acc) l).2 htail
    refine ⟨?_, ?_, ?_, ?_, ?_⟩
    · rw [hstep, ih1]
      have hmap : ls.map (fun l2 =>
            ((alook (midStep vl wl (st, acc) l).1.locs_by_level l2).map List.length).getD 0)
          = ls.map (fun l2 => ((alook st.locs_by_level l2).map List.length).getD 0) := by
        apply List.map_congr_left
        intro l2 hl2
        rw [hst'locs_other l2 (fun he => hhead (he ▸ hl2))]
      rw [hmap]
      show (acc ++ [((alook st.locs_by_level l).map List.length).getD 0]) ++ _ = _
      rw [List.map_cons, List.append_assoc]
      rfl
    · rw [hstep, ih2]
      rfl
    · rw [hstep, ih3]
      rfl
    · intro l2 hl2
      rw [hstep, ih4 l2 (fun h => hl2 (List.mem_cons_of_mem _ h)),
        hst'locs_other l2 (fun he => hl2 (he ▸ List.mem_cons_self _ _))]
    · intro l2 hl2
      rcases List.mem_cons.mp hl2 with he | he
      · subst he
        rw [hstep, ih4 l2 hhead, hst'locs_same]
      · rw [hstep, ih5 l2 he,
          hst'locs_other l2 (fun h => hhead (h ▸ he))]

theorem hopFold_spec {V : Type} [DecidableEq V] [Ord V] (vl wl : V) (vvr : ℕ)
    (mhrs : List ℕ) :
    ∀ (lvls : List ℕ) (st : EdgeState V),
    lvls.Pairwise (· < ·) →
    (∀ p ∈ (alook st.hops_by_edge (vl, wl)).getD ([] : List (ℕ × ℕ × ℕ)),
      ∀ l ∈ lvls, p.1 < l) →
    lvls ≠ [] →
    alook (lvls.foldl (hopStep vl wl vvr mhrs) st).hops_by_edge (vl, wl)
      = some ((alook st.hops_by_edge (vl, wl)).getD []
          ++ lvls.map (fun lvl =>
              (lvl, (mhrs.getD (lvl - vvr) 0, mhrs.getD (lvl + 1 - vvr) 0)))) ∧
    (lvls.foldl (hopStep vl wl vvr mhrs) st).locs_by_level = st.locs_by_level := by
  intro lvls
  induction lvls with
  | nil => intro st _ _ hne; cases hne rfl
  | cons lvl ls ih =>
    intro st hp hk _
    obtain ⟨hhead, htail⟩ := List.pairwise_cons.mp hp
    have hentry : alook (hopStep vl wl vvr mhrs st lvl).hops_by_edge (vl, wl)
        = some (((alook st.hops_by_edge (vl, wl)).getD [])
            ++ [(lvl, (mhrs.getD (lvl - vvr) 0, mhrs.getD (lvl + 1 - vvr) 0))]) := by
      show alook (updd st.hops_by_edge (vl, wl) [] _) (vl, wl) = _
      rw [alook_updd_same,
        binsert_append _ _ _ (fun p hp2 => hk p hp2 lvl (List.mem_cons_self _ _))]
    have hlocs2 : (hopStep vl wl vvr mhrs st lvl).locs_by_level = st.locs_by_level := rfl
    have hstep : (lvl :: ls).foldl (hopStep vl wl vvr mhrs) st
        = ls.foldl (hopStep vl wl vvr mhrs) (hopStep vl wl vvr mhrs st lvl) := rfl
    by_cases hls : ls = []
    · subst hls
      rw [hstep]
      exact ⟨by simpa using hentry, hlocs2⟩
    · have hk2 : ∀ p ∈ (alook (hopStep vl wl vvr mhrs st lvl).hops_by_edge
          (vl, wl)).getD ([] : List (ℕ × ℕ × ℕ)), ∀ l ∈ ls, p.1 < l := by
        intro p hp2 l hl
        rw [hentry] at hp2
        simp only [Option.getD_some, List.mem_append, List.mem_singleton] at hp2
        rcases hp2 with hp2 | hp2
        · exact hk p hp2 l (List.mem_cons_of_mem _ hl)
        · subst hp2
          exact hhead l hl
      obtain ⟨ihe, ihl⟩ := ih (hopStep vl wl vvr mhrs st lvl) htail hk2 hls
      constructor
      · rw [hstep, ihe, hentry]
        simp [List.append_assoc]
      · rw [hstep, ihl, hlocs2]

theorem map_range'_getD (f : ℕ → ℕ) (s n i : ℕ) (h : i < n) :
    ((List.range' s n).map f).getD i 0 = f (s + i) := by
  rw [List.getD_eq_getElem?_getD, List.getElem?_map, List.getElem?_range' _ _ h, one_mul]
  rfl

/-- **C5.** For one condensed edge `(vl, wl)` processed by the per-edge loop
of `calculate_locs_and_hops` from any reached state in which that edge has no
hops yet, with `vl` at rank `vvr` and `wl` at rank `wvr > vvr`: exactly
`wvr − vvr` hops are created for the edge, keyed by the contiguous ranks
`vvr..wvr-1`; the hops chain endpoint-to-endpoint through one list `mhrs`
(the hop at rank `lvl` is `(mhrs[lvl−vvr], mhrs[lvl+1−vvr])`, so each hop's
lower OHR is the next hop's upper OHR) which starts at `vl`'s OHR and ends at
`wl`'s OHR; and each freshly allocated intermediate OHR at rank `vvr+j`
equals the length of `locs_by_level[vvr+j]` just before the insertion (0 when
the rank was absent), the fresh OHR being appended to that rank. -/
theorem processEdge_spec {V : Type} [DecidableEq V] [Ord V] (st : EdgeState V)
    (vl wl : V) (vvr wvr vhr whr : ℕ) (hlt : vvr < wvr)
    (hfresh : alook st.hops_by_edge (vl, wl) = none) :
    ∃ mhrs : List ℕ,
      mhrs.length = wvr - vvr + 1 ∧
      mhrs.head? = some vhr ∧
      mhrs.getLast? = some whr ∧
      alook (processEdge st vl wl vvr wvr vhr whr).hops_by_edge (vl, wl)
        = some ((List.range' vvr (wvr - vvr)).map
            (fun lvl => (lvl, (mhrs.getD (lvl - vvr) 0, mhrs.getD (lvl + 1 - vvr) 0)))) ∧
      ∀ j, 0 < j → j < wvr - vvr →
        mhrs.getD j 0 = ((alook st.locs_by_level (vvr + j)).map List.length).getD 0 ∧
        alook (processEdge st vl wl vvr wvr vhr whr).locs_by_level (vvr + j)
          = some (((alook st.locs_by_level (vvr + j)).getD [])
              ++ [((alook st.locs_by_level (vvr + j)).map List.length).getD 0]) := by
  obtain ⟨hm1, hm2, hm3, hm4, hm5⟩ := midFold_spec vl wl
    (List.range' (vvr + 1) (wvr - (vvr + 1))) st [vhr] (List.nodup_range' ..)
  have hlvls_ne : List.range' vvr (wvr - vvr) ≠ [] := by
    intro h
    have := congrArg List.length h
    simp only [List.length_range', List.length_nil] at this
    omega
  have hpair : (List.range' vvr (wvr - vvr)).Pairwise (· < ·) :=
    List.pairwise_lt_range' vvr (wvr - vvr) 1 (by omega)
  have hkeys : ∀ p ∈ (alook ((List.range' (vvr + 1) (wvr - (vvr + 1))).foldl
      (midStep vl wl) (st, [vhr])).1.hops_by_edge (vl, wl)).getD
        ([] : List (ℕ × ℕ × ℕ)), ∀ l ∈ List.range' vvr (wvr - vvr), p.1 < l := by
    intro p hp
    rw [hm2, hfresh] at hp
    cases hp
  obtain ⟨hh1, hh2⟩ := hopFold_spec vl wl vvr
    (((List.range' (vvr + 1) (wvr - (vvr + 1))).foldl (midStep vl wl) (st, [vhr])).2 ++ [whr])
    (List.range' vvr (wvr - vvr))
    ((List.range' (vvr + 1) (wvr - (vvr + 1))).foldl (midStep vl wl) (st, [vhr])).1
    hpair hkeys hlvls_ne
  refine ⟨((List.range' (vvr + 1) (wvr - (vvr + 1))).foldl (midStep vl wl) (st, [vhr])).2
      ++ [whr], ?_, ?_, ?_, ?_, ?_⟩
  · rw [hm1]
    simp only [List.length_append, List.length_map, List.length_range',
      List.length_cons, List.length_nil]
    omega
  · rw [hm1]
    simp
  · exact List.getLast?_concat _
  · show alook ((List.range' vvr (wvr - vvr)).foldl (hopStep vl wl vvr
      (((List.range' (vvr + 1) (wvr - (vvr + 1))).foldl (midStep vl wl) (st, [vhr])).2
        ++ [whr]))
      ((List.range' (vvr + 1) (wvr - (vvr + 1))).foldl (midStep vl wl)
        (st, [vhr])).1).hops_by_edge (vl, wl) = _
    rw [hh1, hm2, hfresh]
    simp only [Option.getD_none, List.nil_append]
  · intro j hj0 hjlt
    obtain ⟨j2, rfl⟩ : ∃ j2, j = j2 + 1 := ⟨j - 1, by omega⟩
    constructor
    · rw [hm1]
      show ((vhr :: ((List.range' (vvr + 1) (wvr - (vvr + 1))).map
          (fun l => ((alook st.locs_by_level l).map List.length).getD 0)
            ++ [whr]))).getD (j2 + 1) 0 = _
      rw [List.getD_cons_succ, List.getD_eq_getElem?_getD,
        List.getElem?_append_left (by
          simp only [List.length_map, List.length_range']
          omega),
        ← List.getD_eq_getElem?_getD,
        map_range'_getD _ _ _ _ (by omega),
        show vvr + 1 + j2 = vvr + (j2 + 1) by omega]
    · show alook ((List.range' vvr (wvr - vvr)).foldl (hopStep vl wl vvr
        (((List.range' (vvr + 1) (wvr - (vvr + 1))).foldl (midStep vl wl) (st, [vhr])).2
          ++ [whr]))
        ((List.range' (vvr + 1) (wvr - (vvr + 1))).foldl (midStep vl wl)
          (st, [vhr])).1).locs_by_level (vvr + (j2 + 1)) = _
      rw [hh2]
      exact hm5 (vvr + (j2 + 1)) (List.mem_range'_1.mpr ⟨by omega, by omega⟩)

/-- `processEdge_spec` at a concrete run: the empty state, edge `(0, 1)`
spanning ranks 0 → 2 with both endpoint OHRs 0. -/
theorem processEdge_spec_witness :
    ∃ mhrs : List ℕ,
      mhrs.length = 2 - 0 + 1 ∧
      mhrs.head? = some 0 ∧
      mhrs.getLast? = some 0 ∧
      alook (processEdge (V := ℕ) ⟨[], [], [], [], []⟩ 0 1 0 2 0 0).hops_by_edge (0, 1)
        = some ((List.range' 0 (2 - 0)).map
            (fun lvl => (lvl, (mhrs.getD (lvl - 0) 0, mhrs.getD (lvl + 1 - 0) 0)))) ∧
      ∀ j, 0 < j → j < 2 - 0 →
        mhrs.getD j 0 = ((alook ([] : List (ℕ × List ℕ)) (0 + j)).map List.length).getD 0 ∧
        alook (processEdge (V := ℕ) ⟨[], [], [], [], []⟩ 0 1 0 2 0 0).locs_by_level (0 + j)
          = some (((alook ([] : List (ℕ × List ℕ)) (0 + j)).getD [])
              ++ [((alook ([] : List (ℕ × List ℕ)) (0 + j)).map List.length).getD 0]) :=
  processEdge_spec ⟨[], [], [], [], []⟩ 0 1 0 2 0 0 (by omega) rfl

/-- `geometry::AnySol`: left/right box boundaries, hop spans, auxiliaries. -/
inductive GSol where
  | L (n : ℕ)
  | R (n : ℕ)
  | S (n : ℕ)
  | T (idx : ℕ)
  deriving DecidableEq, Repr

/-- Map lookup that panics (`map[key]` / `.unwrap()`) when the key is absent. -/
def mlook {α β : Type} [DecidableEq α] (l : List (α × β)) (k : α) :
    Outcome β :=
  match alook l k with
  | some v => .ok v
  | none => .panicked "no entry found for key"

/-- `geometry::Loc2`, the per-cell objects collected into `level_to_object`. -/
inductive Loc2M (V : Type) where
  | Node (vl : V) (loc : ℕ × ℕ) (shr : ℕ) (sol : ℕ)
  | Hop (vl wl : V) (loc : ℕ × ℕ) (shr : ℕ) (sol : ℕ) (pshr : Option ℕ)
  deriving DecidableEq

/-- One row of `all_locs` (`LocRow { ovr, ohr, loc, .. }`). -/
structure LocRowM (V : Type) where
  ovr : ℕ
  ohr : ℕ
  loc : LocL V

/-- One row of `all_hops` (`HopRow { lvl, mhr, nhr, vl, wl, .. }`). -/
structure HopRowM (V : Type) where
  lvl : ℕ
  mhr : ℕ
  nhr : ℕ
  vl : V
  wl : V

/-- The inputs `position_sols` reads: the layout problem's maps, the
placement's `hops_by_edge`/`node_to_loc`, the crossing minimizer's
`solved_locs`, and the `Vcg` dag's adjacency (`edges_directed` followed by
`node_weight`, modelled as total neighbour-label functions: the
"missing node weight" error of lines 2301/2311 can only fire on an
internally inconsistent petgraph and is not modelled). -/
structure GCtx (V : Type) where
  solved_locs : List (ℕ × List (ℕ × ℕ))
  sol_by_loc : List ((ℕ × ℕ) × ℕ)
  sol_by_hop : List ((ℕ × ℕ × V × V) × ℕ)
  width_by_loc : List ((ℕ × ℕ) × ℚ)
  width_by_hop : List ((ℕ × ℕ × V × V) × (ℚ × ℚ))
  hops_by_edge : List ((V × V) × List (ℕ × ℕ × ℕ))
  node_to_loc : List (LocL V × (ℕ × ℕ))
  vcgOut : V → List V
  vcgIn : V → List V

/-- `level_to_object.entry(lvl).or_default().entry(shr).or_default().insert(o)`. -/
def ltoInsert {V : Type} [DecidableEq V]
    (lto : List (ℕ × List (ℕ × List (Loc2M V)))) (lvl shr : ℕ) (o : Loc2M V) :
    List (ℕ × List (ℕ × List (Loc2M V))) :=
  updd lto lvl [] (fun m => updd m shr [] (fun s => setInsert s o))

/-- The `level_to_object` construction (source lines 2248–2278): for each
edge, its two endpoint nodes and, per hop, its source and destination points;
every map indexing panics when the key is absent. -/
def mkLevelToObject {V : Type} [DecidableEq V] (ctx : GCtx V) :
    Outcome (List (ℕ × List (ℕ × List (Loc2M V)))) :=
  ctx.hops_by_edge.foldlM (fun lto e => do
    let (vl, wl) := e.1
    let vn ← mlook ctx.node_to_loc (.Node vl)
    let wn ← mlook ctx.node_to_loc (.Node wl)
    let vshr ← mlook ctx.solved_locs vn.1 >>= fun m => mlook m vn.2
    let wshr ← mlook ctx.solved_locs wn.1 >>= fun m => mlook m wn.2
    let vsol ← mlook ctx.sol_by_loc vn
    let wsol ← mlook ctx.sol_by_loc wn
    let lto := ltoInsert lto vn.1 vshr (.Node vl vn vshr vsol)
    let lto := ltoInsert lto wn.1 wshr (.Node wl wn wshr wsol)
    e.2.foldlM (fun lto h => do
      let (lvl, mhr, nhr) := h
      let shr ← mlook ctx.solved_locs lvl >>= fun m => mlook m mhr
      let shrd ← mlook ctx.solved_locs (lvl + 1) >>= fun m => mlook m nhr
      let src_sol ← mlook ctx.sol_by_hop (lvl, mhr, vl, wl)
      let dst_sol ← mlook ctx.sol_by_hop (lvl + 1, nhr, vl, wl)
      let lto := ltoInsert lto lvl shr (.Hop vl wl (lvl, mhr) shr src_sol none)
      pure (ltoInsert lto (lvl + 1) shrd (.Hop vl wl (lvl + 1, nhr) shrd dst_sol (some shr)))
      ) lto) []

/-- `Option::unwrap`. -/
def ounwrap {α : Type} : Option α → Outcome α
  | some a => Outcome.ok a
  | none => Outcome.panicked "called Option::unwrap on None"

/-- Adjacent deduplication of a sorted vector (`Vec::dedup`). -/
def dedupAdj {α : Type} [DecidableEq α] : List α → List α
  | [] => []
  | [a] => [a]
  | a :: b :: t => if a = b then dedupAdj (b :: t) else a :: dedupAdj (b :: t)

/-- The neighbour-width computation of the Node branch (source lines
2293–2368): collect the neighbour labels, `sort(); dedup();`, re-sort by
`(shr, -svr)` (whose key lookups panic on a missing entry), take each edge's
first (outgoing) or last (incoming) hop from `hops_by_edge` (indexing and
`unwrap` panic), and sum `width_by_hop[idx].0 + width_by_hop[idx].1` — this
indexing panics when the hop has no measured width. -/
def neighbourHopWidthSum {V : Type} [DecidableEq V] [Ord V] (ctx : GCtx V)
    (vl : V) (raw : List V) (outgoing : Bool) : Outcome ℚ := do
  let base := dedupAdj (insertionSortBy compare raw)
  let keyed ← base.mapM (fun d => do
    let dn ← mlook ctx.node_to_loc (.Node d)
    let m ← mlook ctx.solved_locs dn.1
    let dshr ← mlook m dn.2
    pure (d, dshr, -(dn.1 : ℤ)))
  let sorted := insertionSortBy
    (fun a b => (compare a.2.1 b.2.1).then (compare a.2.2 b.2.2)) keyed
  let pairs := sorted.map (fun p => if outgoing then (vl, p.1) else (p.1, vl))
  let hops ← pairs.mapM (fun e => do
    let hs ← mlook ctx.hops_by_edge e
    let h ← ounwrap (if outgoing then hs.head? else hs.getLast?)
    pure (h.1, h.2.1, e.1, e.2))
  let ws ← hops.mapM (fun idx => mlook ctx.width_by_hop idx)
  pure ((ws.map (fun w => w.1 + w.2)).sum)

/-- One iteration of the `for LocRow{ovr, ohr, loc, ..} in all_locs.iter()`
loop (source lines 2282–2411): panicking `solved_locs`/`sol_by_loc` lookups,
the `width_by_loc` check that is the function's only early `Err`, the Node
min-width maximum over the rounded label width and rounded summed
first/last-hop widths, the Hop `l ≤ s ≤ r` rows, the root-bounding rows, the
min-width row `min_width ≤ R(n) − L(n)`, and the two neighbour rows. -/
def processLocRow {V : Type} [DecidableEq V] [Ord V] (ctx : GCtx V)
    (root_n : ℕ) (st : Vars GSol × Constraints GSol) (row : LocRowM V) :
    Outcome (Vars GSol × Constraints GSol) := do
  let locs ← mlook ctx.solved_locs row.ovr
  let shr ← mlook locs row.ohr
  let n ← mlook ctx.sol_by_loc (row.ovr, row.ohr)
  let w0 ← match alook ctx.width_by_loc (row.ovr, row.ohr) with
    | some w => Outcome.ok w
    | none => Outcome.failed (.osqpError "missing node width")
  let mw0 := roundUsize w0
  let min_width ← match row.loc with
    | .Node vl => do
      let out_width ← neighbourHopWidthSum ctx vl (ctx.vcgOut vl) true
      let in_width ← neighbourHopWidthSum ctx vl (ctx.vcgIn vl) false
      pure (max mw0 (max (roundUsize in_width) (roundUsize out_width)))
    | .Hop _ _ _ => pure mw0
  let st2 ← match row.loc with
    | .Hop _ vl wl => do
      let ns ← mlook ctx.sol_by_hop (row.ovr, row.ohr, vl, wl)
      let s1 := st.2.leq st.1 (GSol.L n) (GSol.S ns)
      pure (s1.2.leq s1.1 (GSol.S ns) (GSol.R n))
    | _ => pure st
  let s3 := st2.2.leq st2.1 (GSol.L root_n) (GSol.L n)
  let s4 := s3.2.leq s3.1 (GSol.R n) (GSol.R root_n)
  let s5 := s4.2.leqc s4.1 (GSol.L n) (GSol.R n) (min_width : ℚ)
  let st3 ←
    if 0 < shr then do
      let i ← ounwrap (locs.findIdx? (fun p => decide (p.2 = shr - 1)))
      let np ← mlook ctx.sol_by_loc (row.ovr, i)
      let _shrp ← mlook locs i
      pure (s5.2.leqc s5.1 (GSol.R np) (GSol.L n) 20)
    else pure s5
  if shr < locs.length - 1 then do
    let i2 ← ounwrap (locs.findIdx? (fun p => decide (p.2 = shr + 1)))
    let nn ← mlook ctx.sol_by_loc (row.ovr, i2)
    let _shrn ← mlook locs i2
    pure (st3.2.leqc st3.1 (GSol.R n) (GSol.L nn) 20)
  else pure st3

/-- `num_objects` (source line 2431): the total number of collected objects. -/
def numObjects {V : Type} (lto : List (ℕ × List (ℕ × List (Loc2M V)))) : ℕ :=
  (lto.map (fun row => (row.2.map (fun cell => cell.2.length)).sum)).sum

/-- Whether a `Loc2` is a `Node`. -/
def Loc2M.isNode {V : Type} : Loc2M V → Bool
  | .Node _ _ _ _ => true
  | _ => false

/-- `width_by_hop.get(key).unwrap_or(&default_hop_width)` (source lines
2433–2436 and the analogous sites in the neighbour chains). -/
def hopWidthLookup {V : Type} [DecidableEq V] (ctx : GCtx V)
    (k : ℕ × ℕ × V × V) : ℚ × ℚ :=
  (alook ctx.width_by_hop k).getD (20, 20)

/-- The left/right neighbour chain over a filtered, sorted hop list (source
lines 2473–2493 and 2513–2532): for each hop, a spacing row against its left
neighbour and one against its right neighbour, widths defaulting to
`(20, 20)`. -/
def neighbourChain {V : Type} [DecidableEq V] (ctx : GCtx V)
    (hops : List (Loc2M V)) (st : Vars GSol × Constraints GSol) :
    Vars GSol × Constraints GSol :=
  hops.enum.foldl (fun st p =>
    match p.2 with
    | .Hop ovl owl oloc _ onc _ =>
      let ow := hopWidthLookup ctx (oloc.1, oloc.2, ovl, owl)
      let stL :=
        if p.1 = 0 then st
        else match hops.get? (p.1 - 1) with
          | some (.Hop ovll owll olocl _ onl _) =>
            let owl2 := hopWidthLookup ctx (olocl.1, olocl.2, ovll, owll)
            st.2.leqc st.1 (GSol.S onl) (GSol.S onc) (20 + owl2.2 + ow.1)
          | _ => st
      match hops.get? (p.1 + 1) with
      | some (.Hop ovlr owlr olocr _ onr _) =>
        let owr := hopWidthLookup ctx (olocr.1, olocr.2, ovlr, owlr)
        stL.2.leqc stL.1 (GSol.S onc) (GSol.S onr) (20 + owr.1 + ow.2)
      | _ => stL
    | _ => st) st

/-- One iteration of the `for hop_row in all_hops.iter()` loop (source lines
2413–2570): panicking `solved_locs`/`sol_by_hop`/`level_to_object` lookups,
the root-distance rows, the symmetry penalty towards the hop's downward
successor when not terminal, the node-attachment rows plus the
terminal/initial neighbour chains, and the left/right-object spacing rows.
All hop widths are read with `hopWidthLookup` (default `(20, 20)`); this loop
constructs no `Err`. -/
def processHopRow {V : Type} [DecidableEq V] [Ord V] (ctx : GCtx V)
    (root_n : ℕ) (lto : List (ℕ × List (ℕ × List (Loc2M V))))
    (st : Vars GSol × Constraints GSol × List (Monomial GSol)) (hr : HopRowM V) :
    Outcome (Vars GSol × Constraints GSol × List (Monomial GSol)) := do
  let locs ← mlook ctx.solved_locs hr.lvl
  let shr ← mlook locs hr.mhr
  let n ← mlook ctx.sol_by_hop (hr.lvl, hr.mhr, hr.vl, hr.wl)
  let same_height ← mlook lto hr.lvl
  let all_objects ← mlook same_height shr
  let node := all_objects.find? Loc2M.isNode
  let num_objects := numObjects lto
  let terminal := decide (num_objects < hr.nhr)
  let aw := (hopWidthLookup ctx (hr.lvl, hr.mhr, hr.vl, hr.wl)).1
  let pw := (hopWidthLookup ctx (hr.lvl, hr.mhr, hr.vl, hr.wl)).2
  let s1 := st.2.1.leqc st.1 (GSol.L root_n) (GSol.S n) aw
  let s2 := s1.2.leqc s1.1 (GSol.S n) (GSol.R root_n) pw
  let t3 ←
    if terminal then pure (s2.1, s2.2, st.2.2)
    else do
      let nd ← mlook ctx.sol_by_hop (hr.lvl + 1, hr.nhr, hr.vl, hr.wl)
      pure (s2.2.sym s2.1 st.2.2 GSol.T (GSol.S n) (GSol.S nd))
  let s8 ←
    match node with
    | some (.Node _ _ _ nd) => do
      let s4 := t3.2.1.geqc t3.1 (GSol.S n) (GSol.L nd) (20 + aw)
      let s5 := s4.2.leqc s4.1 (GSol.S n) (GSol.R nd) (20 + pw)
      if terminal then
        let th := all_objects.filter (fun o => match o with
          | .Hop _ owl _ _ _ pshr => decide (owl = hr.wl) && pshr.isSome
          | _ => false)
        let th2 := insertionSortBy (fun a b =>
          match a, b with
          | .Hop _ _ _ _ _ pa, .Hop _ _ _ _ _ pb => compare (pa.getD 0) (pb.getD 0)
          | _, _ => Ordering.eq) th
        pure (neighbourChain ctx th2 s5)
      else do
        let ih := all_objects.filter (fun o => match o with
          | .Hop ovl _ oloc _ _ _ => decide (ovl = hr.vl) && decide (oloc.2 ≤ num_objects)
          | _ => false)
        let keyed ← ih.mapM (fun o => do
          match o with
          | .Hop hvl hwl _ _ _ _ => do
            let hs ← mlook ctx.hops_by_edge (hvl, hwl)
            let h ← ounwrap hs.head?
            let m ← mlook ctx.solved_locs (h.1 + 1)
            let k ← mlook m h.2.2
            pure (o, k)
          | _ => pure (o, 0))
        let ih2 := (insertionSortBy (fun a b => compare a.2 b.2) keyed).map Prod.fst
        pure (neighbourChain ctx ih2 s5)
    | _ => pure (t3.1, t3.2.1)
  let s9 :=
    if shr = 0 then s8
    else match alook same_height (shr - 1) with
      | some los =>
        los.foldl (fun (st : Vars GSol × Constraints GSol) (lo : Loc2M V) =>
          match lo with
          | .Node _ _ _ ln => st.2.geqc st.1 (GSol.S n) (GSol.L ln) (20 + aw)
          | .Hop lvl2 lwl loc2 _ ln _ =>
            let wl2 := hopWidthLookup ctx (loc2.1, loc2.2, lvl2, lwl)
            st.2.geqc st.1 (GSol.S n) (GSol.S ln) (2 * 20 + wl2.2 + aw)) s8
      | none => s8
  let s10 :=
    match alook same_height (shr + 1) with
    | some ros =>
      ros.foldl (fun (st : Vars GSol × Constraints GSol) (ro : Loc2M V) =>
        match ro with
        | .Node _ _ _ rn => st.2.leqc st.1 (GSol.S n) (GSol.L rn) (20 + aw)
        | .Hop rvl rwl rloc _ rn _ =>
          let wr2 := hopWidthLookup ctx (rloc.1, rloc.2, rvl, rwl)
          st.2.leqc st.1 (GSol.S n) (GSol.S rn) (2 * 20 + wr2.1 + pw)) s9
    | none => s9
  pure (s10.1, s10.2, t3.2.2)

/-- Whether a solver variable enters the non-negativity loop (source lines
2574–2578). -/
def GSol.isLRS : GSol → Bool
  | .T _ => false
  | _ => true

/-- `geometry::position_sols`, up to the raw OSQP solution vector.  The OSQP
call (`Problem::new` + `solve`, source lines 2642–2654) is the oracle
`solver`, whose `Except` covers both the setup error and the
"failed to solve problem" statuses.  The final repackaging of the solution
into `LayoutSolution` (pure rearrangement, source lines 2657–2710) and the
`row_height_offsets` preamble feeding only `ts` (lines 2203–2221) are outside
the modelled scope, which ends at the solved vector `x`. -/
def position_sols {V : Type} [DecidableEq V] [Ord V] (ctx : GCtx V)
    (all_locs : List (LocRowM V)) (all_hops : List (HopRowM V))
    (solver : CscMat → List ℚ → CscMat → List ℚ → List FVal →
      Except LError (List ℚ)) : Outcome (List ℚ) := do
  let root_n ← mlook ctx.sol_by_loc (0, 0)
  let gq := (⟨[]⟩ : Vars GSol).get (GSol.R root_n)
  let lto ← mkLevelToObject ctx
  let st1 ← all_locs.foldlM (processLocRow ctx root_n) (gq.2, (⟨[]⟩ : Constraints GSol))
  let st2 ← all_hops.foldlM (processHopRow ctx root_n lto) (st1.1, st1.2, [])
  let csp := st2.1.vars.foldl (fun c p =>
    if p.1.isLRS then c.push (0, [⟨p.2, 1⟩], .inf) else c) st2.2.1
  let nV := st2.1.len
  let P2 ← as_diag_csc_matrix (some nV) (some nV) st2.2.2
  let Q2 := [gq.1].foldl
    (fun acc m => acc.set m.var.index ((acc.getD m.var.index 0) + m.coeff))
    (List.replicate nV (0 : ℚ))
  let A2 ← as_csc_matrix none none (csp.constrs.map (fun r => r.2.1))
  match solver P2 Q2 A2 (csp.constrs.map (fun r => r.1))
      (csp.constrs.map (fun r => r.2.2)) with
  | .error e => Outcome.failed e
  | .ok xs => Outcome.ok xs

theorem ok_bind {α β : Type} (a : α) (f : α → Outcome β) :
    (Outcome.ok a >>= f) = f a := rfl

theorem pure_eq_ok {α : Type} (a : α) : (pure a : Outcome α) = Outcome.ok a := rfl

/-- An outcome that cannot be an `Err` return (it may still panic). -/
def NoFail {α : Type} (o : Outcome α) : Prop := ∀ e, o ≠ Outcome.failed e

theorem noFail_ok {α : Type} (a : α) : NoFail (Outcome.ok a) :=
  fun _ h => by cases h

theorem noFail_panicked {α : Type} (m : String) :
    NoFail (Outcome.panicked m : Outcome α) :=
  fun _ h => by cases h

theorem noFail_pure {α : Type} (a : α) : NoFail (pure a : Outcome α) :=
  noFail_ok a

theorem noFail_mlook {α β : Type} [DecidableEq α] (l : List (α × β)) (k : α) :
    NoFail (mlook l k) := by
  unfold mlook
  rcases alook l k with _ | v
  · exact noFail_panicked _
  · exact noFail_ok _

theorem noFail_ounwrap {α : Type} (o : Option α) : NoFail (ounwrap o) := by
  cases o
  · exact noFail_panicked _
  · exact noFail_ok _

theorem noFail_bind {α β : Type} {ma : Outcome α} {f : α → Outcome β}
    (h1 : NoFail ma) (h2 : ∀ a, NoFail (f a)) : NoFail (ma >>= f) := by
  cases ma with
  | ok a => exact h2 a
  | failed e => exact absurd rfl (h1 e)
  | panicked m => exact noFail_panicked m

theorem noFail_mapM_loop {α β : Type} (f : α → Outcome β) :
    ∀ (l : List α) (acc : List β), (∀ a ∈ l, NoFail (f a)) →
    NoFail (List.mapM.loop f l acc) := by
  intro l
  induction l with
  | nil => intro acc _; exact noFail_pure _
  | cons a t ih =>
    intro acc h
    show NoFail (f a >>= fun b => List.mapM.loop f t (b :: acc))
    exact noFail_bind (h a (List.mem_cons_self _ _))
      (fun b => ih (b :: acc) (fun x hx => h x (List.mem_cons_of_mem _ hx)))

theorem noFail_mapM {α β : Type} (f : α → Outcome β) (l : List α)
    (h : ∀ a ∈ l, NoFail (f a)) : NoFail (l.mapM f) :=
  noFail_mapM_loop f l [] h

theorem noFail_foldlM {α σ : Type} (f : σ → α → Outcome σ) :
    ∀ (l : List α), (∀ s a, a ∈ l → NoFail (f s a)) →
    ∀ init, NoFail (l.foldlM f init) := by
  intro l
  induction l with
  | nil => intro _ init; exact noFail_pure _
  | cons a t ih =>
    intro h init
    show NoFail (f init a >>= fun s => t.foldlM f s)
    exact noFail_bind (h init a (List.mem_cons_self _ _))
      (fun s => ih (fun s2 a2 h2 => h s2 a2 (List.mem_cons_of_mem _ h2)) s)

theorem bind_eq_failed {α β : Type} {ma : Outcome α} {f : α → Outcome β}
    {e : LError} :
    (ma >>= f) = Outcome.failed e ↔
      (ma = Outcome.failed e ∨ ∃ a, ma = Outcome.ok a ∧ f a = Outcome.failed e) := by
  cases ma with
  | ok a =>
    show Outcome.bind _ _ = _ ↔ _
    simp [Outcome.bind]
  | failed e2 =>
    show Outcome.bind _ _ = _ ↔ _
    simp [Outcome.bind]
  | panicked m =>
    show Outcome.bind _ _ = _ ↔ _
    simp [Outcome.bind]

theorem noFail_neighbourHopWidthSum {V : Type} [DecidableEq V] [Ord V]
    (ctx : GCtx V) (vl : V) (raw : List V) (og : Bool) :
    NoFail (neighbourHopWidthSum ctx vl raw og) := by
  unfold neighbourHopWidthSum
  apply noFail_bind
  · apply noFail_mapM
    intro d _
    apply noFail_bind (noFail_mlook _ _)
    intro dn
    apply noFail_bind (noFail_mlook _ _)
    intro m
    apply noFail_bind (noFail_mlook _ _)
    intro dshr
    exact noFail_pure _
  · intro keyed
    apply noFail_bind
    · apply noFail_mapM
      intro e _
      apply noFail_bind (noFail_mlook _ _)
      intro hs
      apply noFail_bind (noFail_ounwrap _)
      intro h
      exact noFail_pure _
    · intro hops
      apply noFail_bind
      · apply noFail_mapM
        intro idx _
        exact noFail_mlook _ _
      · intro ws
        exact noFail_pure _

theorem noFail_processHopRow {V : Type} [DecidableEq V] [Ord V] (ctx : GCtx V)
    (root_n : ℕ) (lto : List (ℕ × List (ℕ × List (Loc2M V))))
    (st : Vars GSol × Constraints GSol × List (Monomial GSol)) (hr : HopRowM V) :
    NoFail (processHopRow ctx root_n lto st hr) := by
  unfold processHopRow
  apply noFail_bind (noFail_mlook _ _)
  intro locs
  apply noFail_bind (noFail_mlook _ _)
  intro shr
  apply noFail_bind (noFail_mlook _ _)
  intro n
  apply noFail_bind (noFail_mlook _ _)
  intro same_height
  apply noFail_bind (noFail_mlook _ _)
  intro all_objects
  simp only []
  repeat' first
    | exact noFail_pure _
    | exact noFail_ok _
    | exact noFail_panicked _
    | exact noFail_mlook _ _
    | exact noFail_ounwrap _
    | (apply noFail_mapM; intro _ _)
    | apply noFail_bind
    | split
    | (intro _)

theorem failed_bind {α β : Type} (e : LError) (f : α → Outcome β) :
    (Outcome.failed e >>= f) = Outcome.failed e := rfl

/-- **C9 (amended).** `position_sols` returns the `OsqpError` mentioning the
missing node width whenever `width_by_loc` lacks an entry for a processed loc
(and that is its only `Err` in the per-loc loop); a phase-1 failure is the
function's result for every solver oracle, so the check precedes any solver
call.  In the hop-positioning loop a missing `width_by_hop` entry never
causes an error: the default `(20, 20)` is substituted and the loop can only
succeed or panic — but in the node min-width computation of the per-loc loop
(source line 2358) `width_by_hop` is indexed directly and a missing entry
panics instead of defaulting. -/
theorem position_sols_missing_width {V : Type} [DecidableEq V] [Ord V] :
    (∀ (ctx : GCtx V) (root_n : ℕ) (st : Vars GSol × Constraints GSol)
       (row : LocRowM V) (e : LError),
      processLocRow ctx root_n st row = .failed e →
      e = .osqpError "missing node width" ∧
        alook ctx.width_by_loc (row.ovr, row.ohr) = none) ∧
    (∀ (ctx : GCtx V) (root_n : ℕ) (st : Vars GSol × Constraints GSol)
       (row : LocRowM V) (locs : List (ℕ × ℕ)) (shr n : ℕ),
      alook ctx.solved_locs row.ovr = some locs →
      alook locs row.ohr = some shr →
      alook ctx.sol_by_loc (row.ovr, row.ohr) = some n →
      alook ctx.width_by_loc (row.ovr, row.ohr) = none →
      processLocRow ctx root_n st row = .failed (.osqpError "missing node width")) ∧
    (∀ (ctx : GCtx V) (root_n : ℕ) (lto : List (ℕ × List (ℕ × List (Loc2M V))))
       (st : Vars GSol × Constraints GSol × List (Monomial GSol))
       (hr : HopRowM V) (e : LError),
      processHopRow ctx root_n lto st hr ≠ .failed e) ∧
    (∀ (ctx : GCtx V) (k : ℕ × ℕ × V × V),
      alook ctx.width_by_hop k = none → hopWidthLookup ctx k = (20, 20)) ∧
    (∀ (ctx : GCtx V) (all_locs : List (LocRowM V)) (all_hops : List (HopRowM V))
       (solver : CscMat → List ℚ → CscMat → List ℚ → List FVal →
         Except LError (List ℚ))
       (root_n : ℕ) (lto : List (ℕ × List (ℕ × List (Loc2M V)))) (e : LError),
      alook ctx.sol_by_loc (0, 0) = some root_n →
      mkLevelToObject ctx = .ok lto →
      all_locs.foldlM (processLocRow ctx root_n)
        (((⟨[]⟩ : Vars GSol).get (GSol.R root_n)).2, (⟨[]⟩ : Constraints GSol))
        = .failed e →
      position_sols ctx all_locs all_hops solver = .failed e) := by
  refine ⟨?_, ?_, ?_, ?_, ?_⟩
  · intro ctx root_n st row e heq
    unfold processLocRow at heq
    rcases bind_eq_failed.mp heq with h | ⟨locs, -, heq⟩
    · exact absurd h (noFail_mlook _ _ e)
    rcases bind_eq_failed.mp heq with h | ⟨shr, -, heq⟩
    · exact absurd h (noFail_mlook _ _ e)
    rcases bind_eq_failed.mp heq with h | ⟨n, -, heq⟩
    · exact absurd h (noFail_mlook _ _ e)
    rcases halook : alook ctx.width_by_loc (row.ovr, row.ohr) with _ | w
    · rw [halook] at heq
      simp only [] at heq
      rw [failed_bind] at heq
      injection heq with heq
      exact ⟨heq.symm, rfl⟩
    · rw [halook] at heq
      simp only [] at heq
      rw [ok_bind] at heq
      exfalso
      refine (show NoFail _ from ?_) e heq
      repeat' first
        | exact noFail_pure _
        | exact noFail_ok _
        | exact noFail_panicked _
        | exact noFail_mlook _ _
        | exact noFail_ounwrap _
        | exact noFail_neighbourHopWidthSum _ _ _ _
        | (apply noFail_mapM; intro _ _)
        | apply noFail_bind
        | split
        | (intro _)
  · intro ctx root_n st row locs shr n hlocs hshr hn hwnone
    unfold processLocRow
    rw [show mlook ctx.solved_locs row.ovr = Outcome.ok locs by
        unfold mlook; rw [hlocs], ok_bind]
    rw [show mlook locs row.ohr = Outcome.ok shr by
        unfold mlook; rw [hshr], ok_bind]
    rw [show mlook ctx.sol_by_loc (row.ovr, row.ohr) = Outcome.ok n by
        unfold mlook; rw [hn], ok_bind]
    rw [hwnone]
    rfl
  · intro ctx root_n lto st hr e
    exact noFail_processHopRow ctx root_n lto st hr e
  · intro ctx k h
    unfold hopWidthLookup
    rw [h]
    rfl
  · intro ctx all_locs all_hops solver root_n lto e hroot hlto hfold
    unfold position_sols
    rw [show mlook ctx.sol_by_loc (0, 0) = Outcome.ok root_n by
        unfold mlook; rw [hroot], ok_bind]
    simp only []
    rw [hlto, ok_bind, hfold, failed_bind]

/-- A context whose only node has a measured label width but whose single
outgoing edge's first hop has no measured width. -/
def gctxMissingHopWidth : GCtx ℕ :=
  { solved_locs := [(0, [(0, 0)]), (1, [(0, 0)])],
    sol_by_loc := [((0, 0), 0)],
    sol_by_hop := [],
    width_by_loc := [((0, 0), 5)],
    width_by_hop := [],
    hops_by_edge := [((0, 1), [(0, 0, 0)])],
    node_to_loc := [(.Node 1, (1, 0))],
    vcgOut := fun v => if v = 0 then [1] else [],
    vcgIn := fun _ => [] }

/-- A context whose node has no measured label width at all. -/
def gctxMissingLocWidth : GCtx ℕ :=
  { solved_locs := [(0, [(0, 0)])],
    sol_by_loc := [((0, 0), 0)],
    sol_by_hop := [],
    width_by_loc := [],
    width_by_hop := [],
    hops_by_edge := [],
    node_to_loc := [],
    vcgOut := fun _ => [],
    vcgIn := fun _ => [] }

/-- A run refuting the claim that a missing `width_by_hop` entry is always
replaced by the default `(20, 20)`: in the node min-width computation the
map is indexed directly, so the loc row's processing panics even though
`width_by_loc` is complete. -/
theorem processLocRow_hop_width_panic :
    alook gctxMissingHopWidth.width_by_loc (0, 0) = some 5 ∧
    processLocRow gctxMissingHopWidth 0 (⟨[]⟩, ⟨[]⟩) ⟨0, 0, .Node 0⟩
      = .panicked "no entry found for key" := by
  constructor
  · with_unfolding_all rfl
  · with_unfolding_all rfl

/-- The missing-node-width error on a concrete context, through
`position_sols_missing_width`. -/
theorem position_sols_missing_width_witness :
    processLocRow gctxMissingLocWidth 0 (⟨[]⟩, ⟨[]⟩) ⟨0, 0, .Node 0⟩
      = .failed (.osqpError "missing node width") :=
  position_sols_missing_width.2.1 gctxMissingLocWidth 0 (⟨[]⟩, ⟨[]⟩)
    ⟨0, 0, .Node 0⟩ [(0, 0)] 0 0 rfl rfl rfl rfl

theorem alook_mem2 {α β : Type} [DecidableEq α] :
    ∀ (l : List (α × β)) (c : α) (v : β), alook l c = some v → (c, v) ∈ l := by
  intro l
  induction l with
  | nil => intro c v h; cases h
  | cons p t ih =>
    intro c v h
    obtain ⟨k, v2⟩ := p
    simp only [alook] at h
    by_cases hk : k = c
    · rw [if_pos hk] at h
      injection h with h
      subst h
      subst hk
      exact List.mem_cons_self _ _
    · rw [if_neg hk] at h
      exact List.mem_cons_of_mem _ (ih c v h)

/-- Every registered variable's `sol` tag is its map key (an invariant of
`Vars::get`, which only ever inserts `Var { index: len, sol: index }`). -/
def VarsWF {S : Type} (v : Vars S) : Prop := ∀ p ∈ v.vars, p.2.sol = p.1

theorem Vars.get_wf {S : Type} [DecidableEq S] {v : Vars S} (h : VarsWF v)
    (ix : S) : VarsWF (v.get ix).2 := by
  unfold Vars.get
  rcases ha : alook v.vars ix with _ | var
  · intro p hp
    simp only at hp
    rcases List.mem_append.mp hp with hp | hp
    · exact h p hp
    · rcases List.mem_singleton.mp hp with he
      subst he
      rfl
  · exact h

theorem Vars.get_fst {S : Type} [DecidableEq S] {v : Vars S} (h : VarsWF v)
    (ix : S) : (v.get ix).1.var.sol = ix ∧ (v.get ix).1.coeff = 1 := by
  unfold Vars.get
  rcases ha : alook v.vars ix with _ | var
  · exact ⟨rfl, rfl⟩
  · exact ⟨h (ix, var) (alook_mem2 _ _ _ ha), rfl⟩

theorem Constraints.leq_ne {S : Type} [DecidableEq S] (c : Constraints S)
    (v : Vars S) (lhs rhs : S) (hne : ¬ lhs = rhs) :
    c.leq v lhs rhs
      = (((v.get lhs).2.get rhs).2,
         c.push (0, [(v.get lhs).1.neg, ((v.get lhs).2.get rhs).1], .inf)) := by
  unfold Constraints.leq
  rw [if_neg hne]

theorem Constraints.leq_self {S : Type} [DecidableEq S] (c : Constraints S)
    (v : Vars S) (lhs rhs : S) (he : lhs = rhs) :
    c.leq v lhs rhs = (v, c) := by
  unfold Constraints.leq
  rw [if_pos he]

theorem Constraints.leqc_eq {S : Type} [DecidableEq S] (c : Constraints S)
    (v : Vars S) (lhs rhs : S) (k : ℚ) :
    c.leqc v lhs rhs k
      = (((v.get lhs).2.get rhs).2,
         c.push (k, [(v.get lhs).1.neg, ((v.get lhs).2.get rhs).1], .inf)) := rfl

theorem panicked_bind {α β : Type} (m : String) (f : α → Outcome β) :
    (Outcome.panicked m >>= f) = Outcome.panicked m := rfl

theorem bind_eq_ok {α β : Type} {ma : Outcome α} {f : α → Outcome β} {b : β} :
    (ma >>= f) = Outcome.ok b ↔ ∃ a, ma = Outcome.ok a ∧ f a = Outcome.ok b := by
  cases ma with
  | ok a =>
    show Outcome.bind _ _ = _ ↔ _
    simp [Outcome.bind]
  | failed e =>
    show Outcome.bind _ _ = _ ↔ _
    simp [Outcome.bind]
  | panicked m =>
    show Outcome.bind _ _ = _ ↔ _
    simp [Outcome.bind]

theorem neighborStep_shape {V : Type} [DecidableEq V] (ctx : GCtx V) (ovr : ℕ)
    (locs : List (ℕ × ℕ)) (p : ℕ × ℕ → Bool) (lhs rhs : ℕ → GSol)
    (s : Vars GSol × Constraints GSol) (c : Prop) [Decidable c]
    (st3 : Vars GSol × Constraints GSol)
    (heq : (if c then do
        let i ← ounwrap (locs.findIdx? p)
        let np ← mlook ctx.sol_by_loc (ovr, i)
        let _s2 ← mlook locs i
        pure (s.2.leqc s.1 (lhs np) (rhs np) 20)
      else pure s) = .ok st3) :
    ∃ rows1, st3.2.constrs = s.2.constrs ++ rows1 ∧ rows1.length ≤ 1 ∧
      (VarsWF s.1 → VarsWF st3.1) := by
  split at heq
  · rcases hf : locs.findIdx? p with _ | i
    · rw [hf] at heq
      rw [show ounwrap (none : Option ℕ) = Outcome.panicked
          "called Option::unwrap on None" from rfl, panicked_bind] at heq
      cases heq
    · rw [hf] at heq
      rw [show ounwrap (some i) = Outcome.ok i from rfl, ok_bind] at heq
      rcases hnp : alook ctx.sol_by_loc (ovr, i) with _ | np
      · rw [show mlook ctx.sol_by_loc (ovr, i) = Outcome.panicked
            "no entry found for key" by unfold mlook; rw [hnp], panicked_bind] at heq
        cases heq
      · rw [show mlook ctx.sol_by_loc (ovr, i) = Outcome.ok np by
            unfold mlook; rw [hnp], ok_bind] at heq
        rcases hli : alook locs i with _ | shrp
        · rw [show mlook locs i = Outcome.panicked "no entry found for key" by
              unfold mlook; rw [hli], panicked_bind] at heq
          cases heq
        · rw [show mlook locs i = Outcome.ok shrp by
              unfold mlook; rw [hli], ok_bind] at heq
          rw [pure_eq_ok] at heq
          injection heq with heq
          subst heq
          rw [Constraints.leqc_eq]
          refine ⟨[(20, [(s.1.get (lhs np)).1.neg,
              ((s.1.get (lhs np)).2.get (rhs np)).1], .inf)], rfl, by simp, ?_⟩
          intro hwf
          exact Vars.get_wf (Vars.get_wf hwf _) _
  · rw [pure_eq_ok] at heq
    injection heq with heq
    subst heq
    exact ⟨[], by simp, by simp, id⟩

/-- **C6 (amended).** For every successfully processed `all_locs` row of kind
`Node`, the emitted minimum-width row is
`max(round(w0), max(round(in_sum), round(out_sum))) ≤ R(n) − L(n)`: the
measured label width from `width_by_loc` and the two summed boundary-hop
widths (each hop's pair summed as left + right) are each rounded to an
integer (`.round() as usize`, source lines 2290 and 2370–2374) before the
three-way maximum is taken, and the resulting row is pushed after the
root-bounding rows and before the at-most-two neighbour rows. -/
theorem processLocRow_node_minwidth {V : Type} [DecidableEq V] [Ord V]
    (ctx : GCtx V) (root_n : ℕ) (st : Vars GSol × Constraints GSol)
    (row : LocRowM V) (vl : V) (locs : List (ℕ × ℕ)) (shr n : ℕ)
    (w0 outw inw : ℚ) (st2 : Vars GSol × Constraints GSol)
    (hwf : VarsWF st.1)
    (hloc : row.loc = .Node vl)
    (hlocs : alook ctx.solved_locs row.ovr = some locs)
    (hshr : alook locs row.ohr = some shr)
    (hn : alook ctx.sol_by_loc (row.ovr, row.ohr) = some n)
    (hw : alook ctx.width_by_loc (row.ovr, row.ohr) = some w0)
    (hout : neighbourHopWidthSum ctx vl (ctx.vcgOut vl) true = .ok outw)
    (hin : neighbourHopWidthSum ctx vl (ctx.vcgIn vl) false = .ok inw)
    (heq : processLocRow ctx root_n st row = .ok st2) :
    ∃ (rowsB rowsA : List (RowC GSol)) (vL vR : VarS GSol),
      st2.2.constrs = st.2.constrs ++ rowsB
        ++ [(((max (roundUsize w0) (max (roundUsize inw) (roundUsize outw)) : ℕ) : ℚ),
            [⟨vL, -1⟩, ⟨vR, 1⟩], FVal.inf)] ++ rowsA ∧
      vL.sol = GSol.L n ∧ vR.sol = GSol.R n ∧
      rowsB.length ≤ 2 ∧ rowsA.length ≤ 2 := by
  unfold processLocRow at heq
  rw [show mlook ctx.solved_locs row.ovr = Outcome.ok locs by
      unfold mlook; rw [hlocs], ok_bind] at heq
  rw [show mlook locs row.ohr = Outcome.ok shr by
      unfold mlook; rw [hshr], ok_bind] at heq
  rw [show mlook ctx.sol_by_loc (row.ovr, row.ohr) = Outcome.ok n by
      unfold mlook; rw [hn], ok_bind] at heq
  rw [hw, hloc] at heq
  simp only [ok_bind] at heq
  rw [hout] at heq
  simp only [ok_bind] at heq
  rw [hin] at heq
  simp only [ok_bind, pure_eq_ok] at heq
  have key : ∀ (s5 st2' : Vars GSol × Constraints GSol),
      ((if 0 < shr then
        ounwrap (locs.findIdx? (fun p => decide (p.2 = shr - 1))) >>= fun i =>
        mlook ctx.sol_by_loc (row.ovr, i) >>= fun np =>
        mlook locs i >>= fun _s2 =>
        (if shr < locs.length - 1 then
          ounwrap (locs.findIdx? (fun p => decide (p.2 = shr + 1))) >>= fun i2 =>
          mlook ctx.sol_by_loc (row.ovr, i2) >>= fun nn =>
          mlook locs i2 >>= fun _s3 =>
          Outcome.ok ((s5.2.leqc s5.1 (GSol.R np) (GSol.L n) 20).2.leqc
            (s5.2.leqc s5.1 (GSol.R np) (GSol.L n) 20).1 (GSol.R n) (GSol.L nn) 20)
        else Outcome.ok (s5.2.leqc s5.1 (GSol.R np) (GSol.L n) 20))
      else
        (if shr < locs.length - 1 then
          ounwrap (locs.findIdx? (fun p => decide (p.2 = shr + 1))) >>= fun i2 =>
          mlook ctx.sol_by_loc (row.ovr, i2) >>= fun nn =>
          mlook locs i2 >>= fun _s3 =>
          Outcome.ok (s5.2.leqc s5.1 (GSol.R n) (GSol.L nn) 20)
        else Outcome.ok s5)) = Outcome.ok st2') →
      ∃ rowsA, st2'.2.constrs = s5.2.constrs ++ rowsA ∧ rowsA.length ≤ 2 := by
    intro s5 st2' h
    split at h
    · rcases hf : locs.findIdx? (fun p => decide (p.2 = shr - 1)) with _ | i
      · rw [hf] at h
        rw [show ounwrap (none : Option ℕ) = Outcome.panicked
            "called Option::unwrap on None" from rfl, panicked_bind] at h
        cases h
      · rw [hf] at h
        rw [show ounwrap (some i) = Outcome.ok i from rfl, ok_bind] at h
        rcases hnp : alook ctx.sol_by_loc (row.ovr, i) with _ | np
        · rw [show mlook ctx.sol_by_loc (row.ovr, i) = Outcome.panicked
              "no entry found for key" by unfold mlook; rw [hnp],
            panicked_bind] at h
          cases h
        · rw [show mlook ctx.sol_by_loc (row.ovr, i) = Outcome.ok np by
              unfold mlook; rw [hnp], ok_bind] at h
          rcases hli : alook locs i with _ | shrp
          · rw [show mlook locs i = Outcome.panicked "no entry found for key" by
                unfold mlook; rw [hli], panicked_bind] at h
            cases h
          · rw [show mlook locs i = Outcome.ok shrp by
                unfold mlook; rw [hli], ok_bind] at h
            obtain ⟨r2, hr2b, hl2b, -⟩ := neighborStep_shape ctx row.ovr locs
              (fun p => decide (p.2 = shr + 1)) (fun _ => GSol.R n)
              (fun nn => GSol.L nn) (s5.2.leqc s5.1 (GSol.R np) (GSol.L n) 20)
              (shr < locs.length - 1) st2' h
            refine ⟨(20, [(s5.1.get (GSol.R np)).1.neg,
                ((s5.1.get (GSol.R np)).2.get (GSol.L n)).1], .inf) :: r2, ?_, by
                  simp only [List.length_cons]
                  omega⟩
            rw [hr2b, Constraints.leqc_eq]
            simp [Constraints.push]
    · obtain ⟨r2, hr2b, hl2b, -⟩ := neighborStep_shape ctx row.ovr locs
        (fun p => decide (p.2 = shr + 1)) (fun _ => GSol.R n)
        (fun nn => GSol.L nn) s5 (shr < locs.length - 1) st2' h
      exact ⟨r2, hr2b, by omega⟩
  obtain ⟨rowsA, hA, hAl⟩ := key _ st2 heq
  by_cases hroot : root_n = n
  · rw [Constraints.leq_self _ _ _ _ (by rw [hroot]),
      Constraints.leq_self _ _ _ _ (by rw [hroot]), Constraints.leqc_eq] at hA
    refine ⟨[], rowsA,
      (st.1.get (GSol.L n)).1.var, ((st.1.get (GSol.L n)).2.get (GSol.R n)).1.var,
      ?_, (Vars.get_fst hwf _).1, (Vars.get_fst (Vars.get_wf hwf _) _).1,
      by simp, hAl⟩
    rw [hA]
    simp only [Constraints.push, List.append_assoc, List.append_nil, List.nil_append]
    congr 2
    have h1 := Vars.get_fst hwf (GSol.L n)
    have h2 := Vars.get_fst (Vars.get_wf hwf (GSol.L n)) (GSol.R n)
    have e1 : (st.1.get (GSol.L n)).1.neg
        = (⟨(st.1.get (GSol.L n)).1.var, -1⟩ : Monomial GSol) := by
      unfold Monomial.neg
      rw [show (st.1.get (GSol.L n)).1
          = ⟨(st.1.get (GSol.L n)).1.var, (st.1.get (GSol.L n)).1.coeff⟩ from rfl,
        h1.2]
    have e2 : ((st.1.get (GSol.L n)).2.get (GSol.R n)).1
        = (⟨((st.1.get (GSol.L n)).2.get (GSol.R n)).1.var, 1⟩ : Monomial GSol) := by
      rw [show ((st.1.get (GSol.L n)).2.get (GSol.R n)).1
          = ⟨((st.1.get (GSol.L n)).2.get (GSol.R n)).1.var,
             ((st.1.get (GSol.L n)).2.get (GSol.R n)).1.coeff⟩ from rfl, h2.2]
    rw [e1, e2]
  · rw [Constraints.leq_ne _ _ _ _ (fun h => hroot (by injection h with h2; omega)),
      Constraints.leq_ne _ _ _ _ (fun h => hroot (by injection h with h2; try omega)),
      Constraints.leqc_eq] at hA
    simp only [] at hA
    have hwfv1 : VarsWF ((st.1.get (GSol.L root_n)).2.get (GSol.L n)).2 :=
      Vars.get_wf (Vars.get_wf hwf _) _
    have hwfv2 : VarsWF ((((st.1.get (GSol.L root_n)).2.get (GSol.L n)).2.get
        (GSol.R n)).2.get (GSol.R root_n)).2 :=
      Vars.get_wf (Vars.get_wf hwfv1 _) _
    refine ⟨[(0, [(st.1.get (GSol.L root_n)).1.neg,
          ((st.1.get (GSol.L root_n)).2.get (GSol.L n)).1], .inf),
        (0, [((((st.1.get (GSol.L root_n)).2.get (GSol.L n)).2).get (GSol.R n)).1.neg,
          ((((((st.1.get (GSol.L root_n)).2.get (GSol.L n)).2).get (GSol.R n)).2).get
            (GSol.R root_n)).1], .inf)],
      rowsA,
      ((((((st.1.get (GSol.L root_n)).2.get (GSol.L n)).2.get (GSol.R n)).2.get
        (GSol.R root_n)).2).get (GSol.L n)).1.var,
      (((((((st.1.get (GSol.L root_n)).2.get (GSol.L n)).2.get (GSol.R n)).2.get
        (GSol.R root_n)).2).get (GSol.L n)).2.get (GSol.R n)).1.var,
      ?_, (Vars.get_fst hwfv2 _).1, (Vars.get_fst (Vars.get_wf hwfv2 _) _).1,
      by simp, hAl⟩
    rw [hA]
    simp only [Constraints.push, List.append_assoc, List.append_nil,
      List.cons_append, List.nil_append]
    congr 2
    have h2 := Vars.get_fst hwfv2 (GSol.L n)
    have h3 := Vars.get_fst (Vars.get_wf hwfv2 (GSol.L n)) (GSol.R n)
    have e1 : (((((((st.1.get (GSol.L root_n)).2.get (GSol.L n)).2.get
        (GSol.R n)).2.get (GSol.R root_n)).2).get (GSol.L n)).1).neg
        = (⟨((((((st.1.get (GSol.L root_n)).2.get (GSol.L n)).2.get (GSol.R n)).2.get
            (GSol.R root_n)).2).get (GSol.L n)).1.var, -1⟩ : Monomial GSol) := by
      unfold Monomial.neg
      rw [show (((((((st.1.get (GSol.L root_n)).2.get (GSol.L n)).2.get
          (GSol.R n)).2.get (GSol.R root_n)).2).get (GSol.L n)).1)
          = ⟨(((((((st.1.get (GSol.L root_n)).2.get (GSol.L n)).2.get
              (GSol.R n)).2.get (GSol.R root_n)).2).get (GSol.L n)).1).var,
             (((((((st.1.get (GSol.L root_n)).2.get (GSol.L n)).2.get
              (GSol.R n)).2.get (GSol.R root_n)).2).get (GSol.L n)).1).coeff⟩ from rfl,
        h2.2]
    have e2 : ((((((((st.1.get (GSol.L root_n)).2.get (GSol.L n)).2.get
        (GSol.R n)).2.get (GSol.R root_n)).2).get (GSol.L n)).2).get (GSol.R n)).1
        = (⟨(((((((st.1.get (GSol.L root_n)).2.get (GSol.L n)).2.get (GSol.R n)).2.get
            (GSol.R root_n)).2).get (GSol.L n)).2.get (GSol.R n)).1.var, 1⟩
          : Monomial GSol) := by
      rw [show ((((((((st.1.get (GSol.L root_n)).2.get (GSol.L n)).2.get
          (GSol.R n)).2.get (GSol.R root_n)).2).get (GSol.L n)).2).get (GSol.R n)).1
          = ⟨((((((((st.1.get (GSol.L root_n)).2.get (GSol.L n)).2.get
              (GSol.R n)).2.get (GSol.R root_n)).2).get (GSol.L n)).2).get
              (GSol.R n)).1.var,
             ((((((((st.1.get (GSol.L root_n)).2.get (GSol.L n)).2.get
              (GSol.R n)).2.get (GSol.R root_n)).2).get (GSol.L n)).2).get
              (GSol.R n)).1.coeff⟩ from rfl,
        h3.2]
    rw [e1, e2]

/-- A node with measured label width 5 and one outgoing edge whose first hop
has widths `(3, 4)`. -/
def gctxC6 : GCtx ℕ :=
  { solved_locs := [(0, [(0, 0)]), (1, [(0, 0)])],
    sol_by_loc := [((0, 0), 0), ((1, 0), 1)],
    sol_by_hop := [],
    width_by_loc := [((0, 0), 5)],
    width_by_hop := [((0, 0, 0, 1), (3, 4))],
    hops_by_edge := [((0, 1), [(0, 0, 0)])],
    node_to_loc := [(.Node 1, (1, 0))],
    vcgOut := fun v => if v = 0 then [1] else [],
    vcgIn := fun _ => [] }

/-- A node whose only measured width is the fractional label width `2/5`. -/
def gctxRound : GCtx ℕ :=
  { solved_locs := [(0, [(0, 0)])],
    sol_by_loc := [((0, 0), 0)],
    sol_by_hop := [],
    width_by_loc := [((0, 0), 2/5)],
    width_by_hop := [],
    hops_by_edge := [],
    node_to_loc := [],
    vcgOut := fun _ => [],
    vcgIn := fun _ => [] }

/-- A run refuting the unrounded reading of the node min-width constraint:
with measured label width `2/5` and no incident hops, the emitted row's
lower bound is `0`, not the claim's `w(n) = max(2/5, 0, 0) = 2/5` — each
component is rounded (`.round() as usize`) before the maximum is taken. -/
theorem processLocRow_minwidth_rounded_counterexample :
    ∃ st2, processLocRow gctxRound 0 (⟨[]⟩, ⟨[]⟩) ⟨0, 0, .Node 0⟩ = .ok st2 ∧
      st2.2.constrs.map (fun r => r.1) = [0] ∧
      max (2 / 5 : ℚ) (max 0 0) ≠ (0 : ℚ) := by
  refine ⟨(⟨[(GSol.L 0, ⟨0, GSol.L 0⟩), (GSol.R 0, ⟨1, GSol.R 0⟩)]⟩,
    ⟨[(0, [⟨⟨0, GSol.L 0⟩, -1⟩, ⟨⟨1, GSol.R 0⟩, 1⟩], FVal.inf)]⟩), ?_, ?_, ?_⟩
  · with_unfolding_all rfl
  · with_unfolding_all rfl
  · intro h
    have : (2 / 5 : ℚ) ≤ 0 := by
      rw [← h]
      exact le_max_left _ _
    norm_num at this

/-- `processLocRow_node_minwidth` at a concrete node: label width 5, one
outgoing first-hop of summed width 7, no incoming hops — the emitted bound
is `max(5, max(0, 7)) = 7`. -/
theorem processLocRow_node_minwidth_witness :
    ∃ (rowsB rowsA : List (RowC GSol)) (vL vR : VarS GSol),
      ((⟨[(GSol.L 0, ⟨0, GSol.L 0⟩), (GSol.R 0, ⟨1, GSol.R 0⟩)]⟩,
        ⟨[(7, [⟨⟨0, GSol.L 0⟩, -1⟩, ⟨⟨1, GSol.R 0⟩, 1⟩], FVal.inf)]⟩) :
          Vars GSol × Constraints GSol).2.constrs
        = (⟨[]⟩ : Constraints GSol).constrs ++ rowsB
          ++ [(((max (roundUsize 5) (max (roundUsize 0) (roundUsize 7)) : ℕ) : ℚ),
              [⟨vL, -1⟩, ⟨vR, 1⟩], FVal.inf)] ++ rowsA ∧
      vL.sol = GSol.L 0 ∧ vR.sol = GSol.R 0 ∧
      rowsB.length ≤ 2 ∧ rowsA.length ≤ 2 :=
  processLocRow_node_minwidth gctxC6 0 (⟨[]⟩, ⟨[]⟩) ⟨0, 0, .Node 0⟩ 0
    [(0, 0)] 0 0 5 7 0 _
    (fun p hp => by cases hp)
    rfl rfl rfl rfl rfl
    (by with_unfolding_all rfl)
    (by with_unfolding_all rfl)
    (by with_unfolding_all rfl)
